import Mathlib

/-
Verification of the garbage-collector simulator: a Mark-and-Sweep collector
(mark_sweep_gc.cpp), a batched Cascade/Orphan-Deletion collector
(cascade_deletion_gc.cpp), both over the shared HeapObject graph model
(heap_object.h), and a Reference-Counting collector with eager cascade
deletion (rc_heap.cpp / reference_counter.cpp / rc_object.h).

Modelling conventions:
* std::unordered_map heaps become association lists (insertion order);
  std::set edge sets become duplicate-free lists (insert-if-absent, erase);
  only membership and cardinality of these containers are ever observed by
  the properties proved here.
* The recursive DFS of MarkSweepGC::dfs_mark and the recursive
  ReferenceCounter::cascade_delete are written as explicit worklist loops
  (exact defunctionalization preserving the visitation semantics, the
  rewrite the design notes of the system itself prescribe);
  CascadeDeletionGC::cascade_delete is already a worklist loop in the source.
* Logging, timing and file output are external sinks and are not modelled.
-/

/-- Set-style insert on a duplicate-free list, mirroring std::set::insert. -/
def insertRef (x : Nat) (l : List Nat) : List Nat :=
  if x ∈ l then l else l ++ [x]

/-- Set-style erase, mirroring std::set::erase. -/
def eraseRef (x : Nat) (l : List Nat) : List Nat :=
  l.filter (fun y => y ≠ x)

/-- Heap object record from heap_object.h: id, size, mark flag, reference
count, outgoing and incoming edge sets, root and alive flags, and the
allocation / collection step stamps. -/
structure HeapObject where
  id : Nat
  size : Nat
  is_marked : Bool
  reference_count : Int
  outgoing_references : List Nat
  incoming_references : List Nat
  is_root : Bool
  is_alive : Bool
  allocation_step : Int
  collection_step : Int
deriving Repr, DecidableEq

/-- Constructor HeapObject(id, size, is_root) from heap_object.h. -/
def HeapObject.mk3 (id : Nat) (size : Nat) (root : Bool) : HeapObject :=
  { id := id, size := size, is_marked := false,
    reference_count := if root then 1 else 0,
    outgoing_references := [], incoming_references := [],
    is_root := root, is_alive := true,
    allocation_step := -1, collection_step := -1 }

/-- HeapObject::add_reference_to. -/
def HeapObject.add_reference_to (o : HeapObject) (target : Nat) : HeapObject :=
  { o with outgoing_references := insertRef target o.outgoing_references }

/-- HeapObject::remove_reference_to. -/
def HeapObject.remove_reference_to (o : HeapObject) (target : Nat) : HeapObject :=
  { o with outgoing_references := eraseRef target o.outgoing_references }

/-- HeapObject::add_reference_from. -/
def HeapObject.add_reference_from (o : HeapObject) (source : Nat) : HeapObject :=
  { o with incoming_references := insertRef source o.incoming_references }

/-- HeapObject::remove_reference_from. -/
def HeapObject.remove_reference_from (o : HeapObject) (source : Nat) : HeapObject :=
  { o with incoming_references := eraseRef source o.incoming_references }

/-- HeapObject::unmark. -/
def HeapObject.unmark (o : HeapObject) : HeapObject :=
  { o with is_marked := false }

/-- The object store std::unordered_map of MarkSweepGC and
CascadeDeletionGC, as an association list in insertion order. -/
abbrev Heap := List (Nat × HeapObject)

/-- Lookup by key (heap.find). -/
def hfind (h : Heap) (i : Nat) : Option HeapObject :=
  match h with
  | [] => none
  | (k, o) :: t => if k = i then some o else hfind t i

/-- Update the entry at a key in place, mirroring mutation through
heap[i] on a present key. -/
def hmodify (h : Heap) (i : Nat) (f : HeapObject → HeapObject) : Heap :=
  match h with
  | [] => []
  | (k, o) :: t => if k = i then (k, f o) :: t else (k, o) :: hmodify t i f

/-- Insert heap[i] = obj for a fresh key (the only way the collectors add
entries: allocate with a never-used id). -/
def hinsert (h : Heap) (i : Nat) (o : HeapObject) : Heap :=
  h ++ [(i, o)]

/-- Key list of a heap. -/
def hkeys (h : Heap) : List Nat := h.map (fun p => p.1)

/-- MarkSweepGC::object_exists / CascadeDeletionGC::object_exists:
present and alive. -/
def aliveB (h : Heap) (i : Nat) : Bool :=
  match hfind h i with
  | some o => o.is_alive
  | none => false

/-- Outgoing edge set at a key (empty when absent). -/
def outL (h : Heap) (i : Nat) : List Nat :=
  match hfind h i with
  | some o => o.outgoing_references
  | none => []

/-- Incoming edge set at a key (empty when absent). -/
def inL (h : Heap) (i : Nat) : List Nat :=
  match hfind h i with
  | some o => o.incoming_references
  | none => []

/-- Root flag at a key. -/
def rootB (h : Heap) (i : Nat) : Bool :=
  match hfind h i with
  | some o => o.is_root
  | none => false

/-- Size at a key (0 when absent). -/
def sizeAt (h : Heap) (i : Nat) : Nat :=
  match hfind h i with
  | some o => o.size
  | none => 0

/-- Mark flag at a key. -/
def markedB (h : Heap) (i : Nat) : Bool :=
  match hfind h i with
  | some o => o.is_marked
  | none => false

/-- Collection-step stamp at a key (-1 when absent). -/
def cstepAt (h : Heap) (i : Nat) : Int :=
  match hfind h i with
  | some o => o.collection_step
  | none => -1

/-- Shared mutable state of MarkSweepGC and CascadeDeletionGC: the heap,
the id counter, the capacity and threshold, the statistics counters and
the simulation step. Log strings and wall-clock time are not modelled. -/
structure GCState where
  heap : Heap
  next_object_id : Nat
  max_heap_size : Nat
  collection_threshold : Nat
  collection_count : Nat
  total_objects_collected : Nat
  total_memory_freed : Nat
  current_step : Int
deriving Repr, DecidableEq

/-- Construction state of either graph collector. -/
def GCState.mkInit (maxHeap threshold : Nat) : GCState :=
  { heap := [], next_object_id := 0, max_heap_size := maxHeap,
    collection_threshold := threshold, collection_count := 0,
    total_objects_collected := 0, total_memory_freed := 0, current_step := 0 }

/-- MarkSweepGC::get_total_memory / CascadeDeletionGC::get_total_memory:
sum of sizes of alive objects. -/
def get_total_memory (s : GCState) : Nat :=
  (s.heap.filter (fun p => p.2.is_alive)).foldl (fun acc p => acc + p.2.size) 0

/-- MarkSweepGC::get_free_memory. -/
def get_free_memory (s : GCState) : Nat :=
  s.max_heap_size - get_total_memory s

/-- MarkSweepGC::has_enough_memory. -/
def has_enough_memory (s : GCState) (size : Nat) : Bool :=
  decide (size ≤ get_free_memory s)

/-- MarkSweepGC::get_alive_objects_count. -/
def get_alive_objects_count (s : GCState) : Nat :=
  (s.heap.filter (fun p => p.2.is_alive)).length

/-- Mark an object (dfs_mark writes is_marked = true). -/
def setMark (o : HeapObject) : HeapObject := { o with is_marked := true }

/-- Number of alive, still unmarked entries; the termination measure of the
depth-first marking traversal. -/
def unmarkedAliveCount (h : Heap) : Nat :=
  (h.filter (fun p => p.2.is_alive && !p.2.is_marked)).length

theorem hmodify_of_ne (t : Heap) (k i : Nat) (o : HeapObject)
    (f : HeapObject → HeapObject) (hk : ¬ k = i) :
    hmodify ((k, o) :: t) i f = (k, o) :: hmodify t i f := by
  simp [hmodify, hk]

theorem unmarkedAliveCount_setMark_lt (h : Heap) (i : Nat) (o : HeapObject)
    (hf : hfind h i = some o) (ha : o.is_alive = true) (hm : o.is_marked = false) :
    unmarkedAliveCount (hmodify h i setMark) < unmarkedAliveCount h := by
  induction h with
  | nil => simp [hfind] at hf
  | cons p t ih =>
    obtain ⟨k, o'⟩ := p
    by_cases hk : k = i
    · subst hk
      simp [hfind] at hf
      subst hf
      simp only [hmodify, if_pos rfl, unmarkedAliveCount, List.filter]
      simp [setMark, ha, hm]
    · rw [hmodify_of_ne t k i o' setMark hk]
      simp only [hfind, if_neg hk] at hf
      have hlt := ih hf
      simp only [unmarkedAliveCount, List.filter] at *
      cases hcond : (o'.is_alive && !o'.is_marked) <;> simp [hcond] <;> omega

/-- Worklist form of MarkSweepGC::dfs_mark: pop an id; skip it when absent,
dead or already marked; otherwise mark it and push its outgoing references
in front of the remaining work (preorder depth-first, exactly the
visitation order of the recursive source function). -/
def dfsStack (h : Heap) (l : List Nat) : Heap :=
  match l with
  | [] => h
  | i :: rest =>
    match hf : hfind h i with
    | none => dfsStack h rest
    | some o =>
      if ha : o.is_alive = true then
        if o.is_marked = true then dfsStack h rest
        else dfsStack (hmodify h i setMark) (o.outgoing_references ++ rest)
      else dfsStack h rest
termination_by (unmarkedAliveCount h, l.length)
decreasing_by
  · exact Prod.Lex.right _ (by simp)
  · exact Prod.Lex.right _ (by simp)
  · rename_i hm
    exact Prod.Lex.left _ _
      (unmarkedAliveCount_setMark_lt h i o hf ha (by simpa using hm))
  · exact Prod.Lex.right _ (by simp)

/-- MarkSweepGC::get_root_objects: ids of alive roots, in heap order. -/
def get_root_objects (h : Heap) : List Nat :=
  (h.filter (fun p => p.2.is_root && p.2.is_alive)).map (fun p => p.1)

/-- Mark-phase preamble: clear every mark flag. -/
def unmarkAll (h : Heap) : Heap := h.map (fun p => (p.1, p.2.unmark))

/-- MarkSweepGC::mark_phase: clear all marks, then run the depth-first
marking from every alive root. -/
def mark_phase (h : Heap) : Heap :=
  dfsStack (unmarkAll h) (get_root_objects (unmarkAll h))

/-- First detach loop of the sweep: every alive source loses its outgoing
edge to the object being deleted. -/
def sweepDetachIncoming : Heap → Nat → List Nat → Heap
  | h, _, [] => h
  | h, i, s :: ss =>
    if aliveB h s then
      sweepDetachIncoming (hmodify h s (fun o => o.remove_reference_to i)) i ss
    else sweepDetachIncoming h i ss

/-- Second detach loop of the sweep: every alive target loses its incoming
edge from the object being deleted. -/
def sweepDetachOutgoing : Heap → Nat → List Nat → Heap
  | h, _, [] => h
  | h, i, t :: ts =>
    if aliveB h t then
      sweepDetachOutgoing (hmodify h t (fun o => o.remove_reference_from i)) i ts
    else sweepDetachOutgoing h i ts

/-- Death write of the sweep and cascade loops: clear is_alive and stamp
collection_step with the current simulation step. -/
def kill (step : Int) (o : HeapObject) : HeapObject :=
  { o with is_alive := false, collection_step := step }

/-- Deletion of one object inside MarkSweepGC::sweep_phase: detach its
incoming then its outgoing edges from every alive neighbour (the second
loop reads the possibly already updated edge set, as the source does
through its live reference), then mark it dead; also yields its size as
the freed-memory contribution. -/
def sweepOne (step : Int) (h : Heap) (i : Nat) : Heap × Nat :=
  match hfind h i with
  | none => (h, 0)
  | some o =>
    let h1 := sweepDetachIncoming h i o.incoming_references
    let h2 := sweepDetachOutgoing h1 i (outL h1 i)
    (hmodify h2 i (kill step), o.size)

/-- Sweep victim list: alive, unmarked, non-root objects in heap order. -/
def sweepTargets (h : Heap) : List Nat :=
  (h.filter (fun p => !p.2.is_marked && !p.2.is_root && p.2.is_alive)).map
    (fun p => p.1)

/-- Deletion loop of sweep_phase over a victim list, accumulating freed
bytes. -/
def sweepAll (step : Int) : Heap → Nat → List Nat → Heap × Nat
  | h, freed, [] => (h, freed)
  | h, freed, i :: rest =>
    let r := sweepOne step h i
    sweepAll step r.1 (freed + r.2) rest

/-- MarkSweepGC::sweep_phase. -/
def sweep_phase (step : Int) (h : Heap) : Heap × Nat :=
  sweepAll step h 0 (sweepTargets h)

/-- MarkSweepGC::collect: mark phase, sweep phase, statistics update;
returns the freed byte count. -/
def msCollect (s : GCState) : GCState × Nat :=
  let h1 := mark_phase s.heap
  let r := sweep_phase s.current_step h1
  ({ s with
      heap := r.1,
      collection_count := s.collection_count + 1,
      total_objects_collected :=
        s.total_objects_collected + (sweepTargets h1).length,
      total_memory_freed := s.total_memory_freed + r.2 }, r.2)

/-- MarkSweepGC::allocate: reject size 0 or above capacity; collect once
when free memory is short; then either create the next-id object or fail.
The C++ -1 failure id becomes none. -/
def msAllocate (s : GCState) (size : Nat) : GCState × Option Nat :=
  if size = 0 ∨ s.max_heap_size < size then (s, none)
  else
    let s1 := if has_enough_memory s size then s else (msCollect s).1
    if has_enough_memory s1 size then
      let id := s1.next_object_id
      let obj := { (HeapObject.mk3 id size false) with
                     allocation_step := s1.current_step }
      ({ s1 with heap := hinsert s1.heap id obj, next_object_id := id + 1 },
       some id)
    else (s1, none)

/-- MarkSweepGC::add_reference: both endpoints must exist alive; a
duplicate edge is reported as success without mutation; otherwise the edge
is inserted in both adjacency views. -/
def msAddReference (s : GCState) (from_id to_id : Nat) : GCState × Bool :=
  if ¬ aliveB s.heap from_id then (s, false)
  else if ¬ aliveB s.heap to_id then (s, false)
  else if to_id ∈ outL s.heap from_id then (s, true)
  else
    let h1 := hmodify s.heap from_id (fun o => o.add_reference_to to_id)
    let h2 := hmodify h1 to_id (fun o => o.add_reference_from from_id)
    ({ s with heap := h2 }, true)

/-- MarkSweepGC::remove_reference: both endpoints must exist alive and the
edge must exist; the edge is then removed bilaterally. -/
def msRemoveReference (s : GCState) (from_id to_id : Nat) : GCState × Bool :=
  if ¬ aliveB s.heap from_id then (s, false)
  else if ¬ aliveB s.heap to_id then (s, false)
  else if to_id ∉ outL s.heap from_id then (s, false)
  else
    let h1 := hmodify s.heap from_id (fun o => o.remove_reference_to to_id)
    let h2 := hmodify h1 to_id (fun o => o.remove_reference_from from_id)
    ({ s with heap := h2 }, true)

/-- MarkSweepGC::make_root: silent no-op unless the id is alive. -/
def msMakeRoot (s : GCState) (i : Nat) : GCState :=
  if aliveB s.heap i then
    { s with heap := hmodify s.heap i (fun o => { o with is_root := true }) }
  else s

/-- MarkSweepGC::remove_root: silent no-op unless the id is alive. -/
def msRemoveRoot (s : GCState) (i : Nat) : GCState :=
  if aliveB s.heap i then
    { s with heap := hmodify s.heap i (fun o => { o with is_root := false }) }
  else s

/-- set_current_step of either graph collector. -/
def setCurrentStep (s : GCState) (n : Int) : GCState :=
  { s with current_step := n }

/-- Public operation surface of the graph collectors, as fed by the
external driver. -/
inductive GCOp where
  | alloc (size : Nat)
  | addRef (from_id to_id : Nat)
  | remRef (from_id to_id : Nat)
  | mkRoot (i : Nat)
  | rmRoot (i : Nat)
  | gc
  | setStep (n : Int)
deriving Repr, DecidableEq

/-- One public operation of MarkSweepGC. -/
def msStep (s : GCState) (op : GCOp) : GCState :=
  match op with
  | GCOp.alloc size => (msAllocate s size).1
  | GCOp.addRef a b => (msAddReference s a b).1
  | GCOp.remRef a b => (msRemoveReference s a b).1
  | GCOp.mkRoot i => msMakeRoot s i
  | GCOp.rmRoot i => msRemoveRoot s i
  | GCOp.gc => (msCollect s).1
  | GCOp.setStep n => setCurrentStep s n

/-- Run a driver scenario on MarkSweepGC. -/
def msRun (s : GCState) (ops : List GCOp) : GCState :=
  ops.foldl msStep s

/-- CascadeDeletionGC::should_be_deleted: the shared orphan predicate —
alive, non-root, zero incoming edges. -/
def should_be_deleted (h : Heap) (i : Nat) : Bool :=
  match hfind h i with
  | none => false
  | some o => o.is_alive && !o.is_root && decide (o.incoming_references.length = 0)

/-- One pass of the outgoing-detach loop inside
CascadeDeletionGC::cascade_delete: detach the incoming edge of each alive
target and enqueue targets that the shared orphan predicate now selects
(the predicate is evaluated on the heap as already updated, as in the
source). -/
def cascadeDetachOutgoing : Heap → Nat → List Nat → List Nat → Heap × List Nat
  | h, _, [], q => (h, q)
  | h, cur, t :: ts, q =>
    if aliveB h t then
      let h1 := hmodify h t (fun o => o.remove_reference_from cur)
      cascadeDetachOutgoing h1 cur ts
        (if should_be_deleted h1 t then q ++ [t] else q)
    else cascadeDetachOutgoing h cur ts q

/-- Weight of the pending queue, the second component of the termination
measure of the cascade worklist. -/
def queueWeight (q : List Nat) : Nat := q.length

/-- Alive-entry count, the first component of the termination measure of
the cascade worklist. -/
def aliveCount (h : Heap) : Nat :=
  (h.filter (fun p => p.2.is_alive)).length

theorem aliveCount_hmodify_keepAlive (h : Heap) (i : Nat)
    (f : HeapObject → HeapObject)
    (hf : ∀ o : HeapObject, (f o).is_alive = o.is_alive) :
    aliveCount (hmodify h i f) = aliveCount h := by
  induction h with
  | nil => simp [hmodify]
  | cons p t ih =>
    obtain ⟨k, o⟩ := p
    by_cases hk : k = i
    · subst hk
      simp only [hmodify, if_pos rfl, aliveCount, List.filter, hf o]
      cases hc : o.is_alive <;> simp [hc, aliveCount] at ih ⊢
    · rw [hmodify_of_ne t k i o f hk]
      simp only [aliveCount, List.filter] at ih ⊢
      cases hc : o.is_alive <;> simp [hc] <;> omega

theorem hfind_hmodify_self (h : Heap) (i : Nat) (o : HeapObject)
    (f : HeapObject → HeapObject) (hf : hfind h i = some o) :
    hfind (hmodify h i f) i = some (f o) := by
  induction h with
  | nil => simp [hfind] at hf
  | cons p t ih =>
    obtain ⟨k, o'⟩ := p
    by_cases hk : k = i
    · subst hk
      simp [hfind] at hf
      subst hf
      simp [hmodify, hfind]
    · rw [hmodify_of_ne t k i o' f hk]
      simp only [hfind, if_neg hk] at hf ⊢
      exact ih hf

theorem hfind_hmodify_ne (h : Heap) (i j : Nat)
    (f : HeapObject → HeapObject) (hij : i ≠ j) :
    hfind (hmodify h i f) j = hfind h j := by
  induction h with
  | nil => simp [hmodify]
  | cons p t ih =>
    obtain ⟨k, o'⟩ := p
    by_cases hk : k = i
    · subst hk
      simp [hmodify, hfind, hij]
    · rw [hmodify_of_ne t k i o' f hk]
      by_cases hkj : k = j
      · subst hkj
        simp [hfind]
      · simp only [hfind, if_neg hkj]
        exact ih

theorem hmodify_not_found (h : Heap) (i : Nat) (f : HeapObject → HeapObject)
    (hf : hfind h i = none) : hmodify h i f = h := by
  induction h with
  | nil => rfl
  | cons p t ih =>
    obtain ⟨k, o⟩ := p
    by_cases hk : k = i
    · subst hk
      simp [hfind] at hf
    · rw [hmodify_of_ne t k i o f hk]
      simp only [hfind, if_neg hk] at hf
      rw [ih hf]

theorem aliveB_hmodify_keepAlive (h : Heap) (i : Nat)
    (f : HeapObject → HeapObject)
    (hal : ∀ o : HeapObject, (f o).is_alive = o.is_alive) (j : Nat) :
    aliveB (hmodify h i f) j = aliveB h j := by
  by_cases hij : i = j
  · subst hij
    cases hf : hfind h i with
    | none => rw [hmodify_not_found h i f hf]
    | some o =>
      unfold aliveB
      rw [hfind_hmodify_self h i o f hf, hf]
      exact hal o
  · unfold aliveB
    rw [hfind_hmodify_ne h i j f hij]

theorem aliveB_detachOutgoing (h : Heap) (cur : Nat) (tgts : List Nat)
    (q : List Nat) (j : Nat) :
    aliveB (cascadeDetachOutgoing h cur tgts q).1 j = aliveB h j := by
  induction tgts generalizing h q with
  | nil => simp [cascadeDetachOutgoing]
  | cons t ts ih =>
    by_cases hc : aliveB h t = true
    · simp only [cascadeDetachOutgoing, hc, if_pos]
      rw [ih]
      exact aliveB_hmodify_keepAlive h t (fun o => o.remove_reference_from cur) (fun o => rfl) j
    · simp only [cascadeDetachOutgoing, hc]
      simp only [Bool.false_eq_true, if_false]
      exact ih h q

theorem aliveCount_detachOutgoing (h : Heap) (cur : Nat) (tgts : List Nat)
    (q : List Nat) :
    aliveCount (cascadeDetachOutgoing h cur tgts q).1 = aliveCount h := by
  induction tgts generalizing h q with
  | nil => simp [cascadeDetachOutgoing]
  | cons t ts ih =>
    by_cases hc : aliveB h t = true
    · simp only [cascadeDetachOutgoing, hc, if_pos]
      rw [ih]
      exact aliveCount_hmodify_keepAlive h t _ (fun o => rfl)
    · simp only [cascadeDetachOutgoing, hc]
      simp only [Bool.false_eq_true, if_false]
      exact ih h q

theorem aliveCount_sweepDetachIncoming (h : Heap) (i : Nat) (srcs : List Nat) :
    aliveCount (sweepDetachIncoming h i srcs) = aliveCount h := by
  induction srcs generalizing h with
  | nil => simp [sweepDetachIncoming]
  | cons s ss ih =>
    by_cases hc : aliveB h s = true
    · simp only [sweepDetachIncoming, hc, if_pos]
      rw [ih]
      exact aliveCount_hmodify_keepAlive h s _ (fun o => rfl)
    · simp only [sweepDetachIncoming, hc]
      simp only [Bool.false_eq_true, if_false]
      exact ih h

theorem aliveB_sweepDetachIncoming (h : Heap) (i : Nat) (srcs : List Nat)
    (j : Nat) :
    aliveB (sweepDetachIncoming h i srcs) j = aliveB h j := by
  induction srcs generalizing h with
  | nil => simp [sweepDetachIncoming]
  | cons s ss ih =>
    by_cases hc : aliveB h s = true
    · simp only [sweepDetachIncoming, hc, if_pos]
      rw [ih]
      exact aliveB_hmodify_keepAlive h s (fun o => o.remove_reference_to i) (fun o => rfl) j
    · simp only [sweepDetachIncoming, hc]
      simp only [Bool.false_eq_true, if_false]
      exact ih h

theorem aliveCount_sweepDetachOutgoing (h : Heap) (i : Nat) (tgts : List Nat) :
    aliveCount (sweepDetachOutgoing h i tgts) = aliveCount h := by
  induction tgts generalizing h with
  | nil => simp [sweepDetachOutgoing]
  | cons t ts ih =>
    by_cases hc : aliveB h t = true
    · simp only [sweepDetachOutgoing, hc, if_pos]
      rw [ih]
      exact aliveCount_hmodify_keepAlive h t _ (fun o => rfl)
    · simp only [sweepDetachOutgoing, hc]
      simp only [Bool.false_eq_true, if_false]
      exact ih h

theorem aliveB_sweepDetachOutgoing (h : Heap) (i : Nat) (tgts : List Nat)
    (j : Nat) :
    aliveB (sweepDetachOutgoing h i tgts) j = aliveB h j := by
  induction tgts generalizing h with
  | nil => simp [sweepDetachOutgoing]
  | cons t ts ih =>
    by_cases hc : aliveB h t = true
    · simp only [sweepDetachOutgoing, hc, if_pos]
      rw [ih]
      exact aliveB_hmodify_keepAlive h t (fun o => o.remove_reference_from i) (fun o => rfl) j
    · simp only [sweepDetachOutgoing, hc]
      simp only [Bool.false_eq_true, if_false]
      exact ih h

theorem aliveCount_kill_lt (h : Heap) (i : Nat) (o : HeapObject)
    (step : Int) (hf : hfind h i = some o) (ha : o.is_alive = true) :
    aliveCount (hmodify h i (kill step)) < aliveCount h := by
  induction h with
  | nil => simp [hfind] at hf
  | cons p t ih =>
    obtain ⟨k, o'⟩ := p
    by_cases hk : k = i
    · subst hk
      simp [hfind] at hf
      subst hf
      simp only [hmodify, if_pos rfl, aliveCount, List.filter]
      simp [kill, ha]
    · rw [hmodify_of_ne t k i o' _ hk]
      simp only [hfind, if_neg hk] at hf
      have hlt := ih hf
      simp only [aliveCount, List.filter] at *
      cases hc : o'.is_alive <;> simp [hc] <;> omega

/-- Worklist loop of CascadeDeletionGC::cascade_delete. Pop an id; skip it
when already processed, absent, dead, or a root (a root halts that branch
without deletion); otherwise detach its incoming and outgoing edges from
alive neighbours, enqueue the targets the shared orphan predicate now
selects, and kill it. Returns the heap, the freed bytes and the number of
objects deleted. -/
def cascadeLoop : Heap → List Nat → List Nat → Int → Nat → Nat →
    Heap × Nat × Nat
  | h, [], _, _, freed, killed => (h, freed, killed)
  | h, cur :: q, processed, step, freed, killed =>
    if cur ∈ processed then cascadeLoop h q (cur :: processed) step freed killed
    else
      match hff : hfind h cur with
      | none => cascadeLoop h q (cur :: processed) step freed killed
      | some o =>
        if hal : o.is_alive = true then
          if o.is_root then cascadeLoop h q (cur :: processed) step freed killed
          else
            let h1 := sweepDetachIncoming h cur o.incoming_references
            let r := cascadeDetachOutgoing h1 cur (outL h1 cur) q
            cascadeLoop (hmodify r.1 cur (kill step)) r.2 (cur :: processed)
              step (freed + o.size) (killed + 1)
        else cascadeLoop h q (cur :: processed) step freed killed
termination_by h q => (aliveCount h, q.length)
decreasing_by
  · exact Prod.Lex.right _ (by simp)
  · exact Prod.Lex.right _ (by simp)
  · exact Prod.Lex.right _ (by simp)
  · apply Prod.Lex.left
    have h1alive : aliveB (cascadeDetachOutgoing
        (sweepDetachIncoming h cur o.incoming_references) cur
        (outL (sweepDetachIncoming h cur o.incoming_references) cur) q).1 cur
        = true := by
      rw [aliveB_detachOutgoing, aliveB_sweepDetachIncoming]
      simp [aliveB, hff, hal]
    obtain ⟨o2, ho2, ho2a⟩ : ∃ o2, hfind (cascadeDetachOutgoing
        (sweepDetachIncoming h cur o.incoming_references) cur
        (outL (sweepDetachIncoming h cur o.incoming_references) cur) q).1 cur
        = some o2 ∧ o2.is_alive = true := by
      revert h1alive
      unfold aliveB
      cases hfind (cascadeDetachOutgoing
        (sweepDetachIncoming h cur o.incoming_references) cur
        (outL (sweepDetachIncoming h cur o.incoming_references) cur) q).1 cur
      · intro hcon
        simp at hcon
      · intro hcon
        exact ⟨_, rfl, hcon⟩
    calc aliveCount (hmodify _ cur (kill step))
        < aliveCount (cascadeDetachOutgoing
            (sweepDetachIncoming h cur o.incoming_references) cur
            (outL (sweepDetachIncoming h cur o.incoming_references) cur) q).1 :=
          aliveCount_kill_lt _ cur o2 step ho2 ho2a
      _ = aliveCount (sweepDetachIncoming h cur o.incoming_references) :=
          aliveCount_detachOutgoing _ cur _ q
      _ = aliveCount h := aliveCount_sweepDetachIncoming h cur _
  · exact Prod.Lex.right _ (by simp)

/-- CascadeDeletionGC::cascade_delete: reset the queue and processed set,
seed the worklist with the requested id and run it; a dead or missing id
returns immediately. -/
def cascade_delete (h : Heap) (i : Nat) (step : Int) : Heap × Nat × Nat :=
  if aliveB h i then cascadeLoop h [i] [] step 0 0 else (h, 0, 0)

/-- Phase-1 scan of CascadeDeletionGC::collect: all alive, non-root,
zero-incoming objects, in heap order. -/
def collectOrphans (h : Heap) : List Nat :=
  (h.filter (fun p => p.2.is_alive && !p.2.is_root &&
    decide (p.2.incoming_references.length = 0))).map (fun p => p.1)

/-- Phase-2 loop of CascadeDeletionGC::collect: cascade-delete every
scanned orphan that is still alive when its turn comes. -/
def cascadeEach (step : Int) : Heap → Nat → Nat → List Nat → Heap × Nat × Nat
  | h, freed, killed, [] => (h, freed, killed)
  | h, freed, killed, i :: rest =>
    if aliveB h i then
      let r := cascade_delete h i step
      cascadeEach step r.1 (freed + r.2.1) (killed + r.2.2) rest
    else cascadeEach step h freed killed rest

/-- CascadeDeletionGC::collect: scan orphans, cascade each, update the
statistics; returns the freed byte count. -/
def cdCollect (s : GCState) : GCState × Nat :=
  let r := cascadeEach s.current_step s.heap 0 0 (collectOrphans s.heap)
  ({ s with
      heap := r.1,
      collection_count := s.collection_count + 1,
      total_memory_freed := s.total_memory_freed + r.2.1,
      total_objects_collected := s.total_objects_collected + r.2.2 }, r.2.1)

/-- CascadeDeletionGC::allocate (same algorithm as MarkSweepGC::allocate,
with the cascade collect as the automatic collection). -/
def cdAllocate (s : GCState) (size : Nat) : GCState × Option Nat :=
  if size = 0 ∨ s.max_heap_size < size then (s, none)
  else
    let s1 := if has_enough_memory s size then s else (cdCollect s).1
    if has_enough_memory s1 size then
      let id := s1.next_object_id
      let obj := { (HeapObject.mk3 id size false) with
                     allocation_step := s1.current_step }
      ({ s1 with heap := hinsert s1.heap id obj, next_object_id := id + 1 },
       some id)
    else (s1, none)

/-- CascadeDeletionGC::add_reference (verbatim the Mark-Sweep version). -/
def cdAddReference (s : GCState) (from_id to_id : Nat) : GCState × Bool :=
  msAddReference s from_id to_id

/-- CascadeDeletionGC::remove_reference: the bilateral removal of the
Mark-Sweep version, followed by the cascade trigger when the target
becomes an orphan. -/
def cdRemoveReference (s : GCState) (from_id to_id : Nat) : GCState × Bool :=
  if ¬ aliveB s.heap from_id then (s, false)
  else if ¬ aliveB s.heap to_id then (s, false)
  else if to_id ∉ outL s.heap from_id then (s, false)
  else
    let h1 := hmodify s.heap from_id (fun o => o.remove_reference_to to_id)
    let h2 := hmodify h1 to_id (fun o => o.remove_reference_from from_id)
    if should_be_deleted h2 to_id then
      let r := cascade_delete h2 to_id s.current_step
      ({ s with
          heap := r.1,
          total_objects_collected := s.total_objects_collected + r.2.2 },
       true)
    else ({ s with heap := h2 }, true)

/-- CascadeDeletionGC::make_root (verbatim the Mark-Sweep version). -/
def cdMakeRoot (s : GCState) (i : Nat) : GCState := msMakeRoot s i

/-- CascadeDeletionGC::remove_root (verbatim the Mark-Sweep version). -/
def cdRemoveRoot (s : GCState) (i : Nat) : GCState := msRemoveRoot s i

/-- One public operation of CascadeDeletionGC. -/
def cdStep (s : GCState) (op : GCOp) : GCState :=
  match op with
  | GCOp.alloc size => (cdAllocate s size).1
  | GCOp.addRef a b => (cdAddReference s a b).1
  | GCOp.remRef a b => (cdRemoveReference s a b).1
  | GCOp.mkRoot i => cdMakeRoot s i
  | GCOp.rmRoot i => cdRemoveRoot s i
  | GCOp.gc => (cdCollect s).1
  | GCOp.setStep n => setCurrentStep s n

/-- Run a driver scenario on CascadeDeletionGC. -/
def cdRun (s : GCState) (ops : List GCOp) : GCState :=
  ops.foldl cdStep s

/-- Object record of the pure reference-counting collector (rc_object.h):
id, incoming-reference count, outgoing reference list. -/
structure RCObject where
  id : Int
  ref_count : Int
  references : List Int
deriving Repr, DecidableEq

/-- Constructor RCObject(id). -/
def RCObject.mkId (i : Int) : RCObject :=
  { id := i, ref_count := 0, references := [] }

/-- The RCHeap object store std::unordered_map, as an association list. -/
abbrev RCObjs := List (Int × RCObject)

/-- Lookup by key in the RC store. -/
def rfind (os : RCObjs) (i : Int) : Option RCObject :=
  match os with
  | [] => none
  | (k, o) :: t => if k = i then some o else rfind t i

/-- Update the entry at a key in place in the RC store. -/
def rmodify (os : RCObjs) (i : Int) (f : RCObject → RCObject) : RCObjs :=
  match os with
  | [] => []
  | (k, o) :: t => if k = i then (k, f o) :: t else (k, o) :: rmodify t i f

/-- heap.erase(i) of the RC store. -/
def rerase (os : RCObjs) (i : Int) : RCObjs :=
  os.filter (fun p => p.1 ≠ i)

/-- Key list of the RC store. -/
def rkeys (os : RCObjs) : List Int := os.map (fun p => p.1)

/-- ref_count at a key (0 when absent). -/
def refCountAt (os : RCObjs) (i : Int) : Int :=
  match rfind os i with
  | some o => o.ref_count
  | none => 0

/-- Outgoing reference list at a key (empty when absent). -/
def refsAt (os : RCObjs) (i : Int) : List Int :=
  match rfind os i with
  | some o => o.references
  | none => []

/-- The child decrement of ReferenceCounter::cascade_delete: decrement and
clamp a negative result to zero. -/
def decClamp (o : RCObject) : RCObject :=
  if o.ref_count - 1 < 0 then { o with ref_count := 0 }
  else { o with ref_count := o.ref_count - 1 }

theorem rkeys_rmodify (os : RCObjs) (i : Int) (f : RCObject → RCObject) :
    rkeys (rmodify os i f) = rkeys os := by
  induction os with
  | nil => rfl
  | cons p t ih =>
    obtain ⟨k, o⟩ := p
    by_cases hk : k = i <;> simp [rmodify, rkeys, hk] at ih ⊢ <;>
      simpa [rkeys] using ih

/-- Number of store keys not yet in the visited set: first component of
the termination measure of the cascade machine. -/
def rcDiff (os : RCObjs) (visited : List Int) : Nat :=
  ((rkeys os).filter (fun k => k ∉ visited)).length

theorem rcDiff_rmodify (os : RCObjs) (i : Int) (f : RCObject → RCObject)
    (visited : List Int) :
    rcDiff (rmodify os i f) visited = rcDiff os visited := by
  unfold rcDiff
  rw [rkeys_rmodify]

theorem rcDiff_rerase_le (os : RCObjs) (p : Int) (visited : List Int) :
    rcDiff (rerase os p) visited ≤ rcDiff os visited := by
  induction os with
  | nil => simp [rcDiff, rerase, rkeys]
  | cons q t ih =>
    obtain ⟨k, o⟩ := q
    by_cases hk : k = p
    · subst hk
      have e0 : rerase ((k, o) :: t) k = rerase t k := by
        simp [rerase, List.filter_cons]
      rw [e0]
      have step : rcDiff t visited ≤ rcDiff ((k, o) :: t) visited := by
        unfold rcDiff rkeys
        rw [List.map_cons, List.filter_cons]
        by_cases hv : (decide (k ∉ visited)) = true
        · rw [if_pos hv, List.length_cons]
          omega
        · rw [if_neg hv]
      exact le_trans ih step
    · have e0 : rerase ((k, o) :: t) p = (k, o) :: rerase t p := by
        simp [rerase, List.filter_cons, hk]
      rw [e0]
      have hih := ih
      unfold rcDiff rkeys at hih ⊢
      rw [List.map_cons, List.map_cons, List.filter_cons, List.filter_cons]
      by_cases hv : (decide (k ∉ visited)) = true
      · rw [if_pos hv, if_pos hv, List.length_cons, List.length_cons]
        omega
      · rw [if_neg hv, if_neg hv]
        exact hih

theorem filter_unvisited_mono (l : List Int) (visited : List Int) (c : Int) :
    (l.filter (fun x => decide (x ∉ c :: visited))).length ≤
    (l.filter (fun x => decide (x ∉ visited))).length := by
  induction l with
  | nil => simp
  | cons k t ih =>
    by_cases h1 : k ∈ visited
    · have e1 : ¬ ((decide (k ∉ c :: visited)) = true) := by simp [h1]
      have e2 : ¬ ((decide (k ∉ visited)) = true) := by simp [h1]
      rw [List.filter_cons, List.filter_cons, if_neg e1, if_neg e2]
      exact ih
    · have e2 : (decide (k ∉ visited)) = true := by simp [h1]
      by_cases h2 : k = c
      · have e1 : ¬ ((decide (k ∉ c :: visited)) = true) := by simp [h2]
        rw [List.filter_cons, List.filter_cons, if_neg e1, if_pos e2,
          List.length_cons]
        omega
      · have e1 : (decide (k ∉ c :: visited)) = true := by simp [h1, h2]
        rw [List.filter_cons, List.filter_cons, if_pos e1, if_pos e2,
          List.length_cons, List.length_cons]
        omega

theorem filter_unvisited_lt (l : List Int) (visited : List Int) (c : Int)
    (hc : c ∈ l) (hv : c ∉ visited) :
    (l.filter (fun x => decide (x ∉ c :: visited))).length <
    (l.filter (fun x => decide (x ∉ visited))).length := by
  induction l with
  | nil => simp at hc
  | cons k t ih =>
    by_cases h2 : k = c
    · subst h2
      have e1 : ¬ ((decide (k ∉ k :: visited)) = true) := by simp
      have e2 : (decide (k ∉ visited)) = true := by simpa using hv
      rw [List.filter_cons, List.filter_cons, if_neg e1, if_pos e2,
        List.length_cons]
      have := filter_unvisited_mono t visited k
      omega
    · have hk : c ∈ t := by
        rcases List.mem_cons.mp hc with h | h
        · exact absurd h.symm h2
        · exact h
      have hlt := ih hk
      by_cases h1 : k ∈ visited
      · have e1 : ¬ ((decide (k ∉ c :: visited)) = true) := by simp [h1]
        have e2 : ¬ ((decide (k ∉ visited)) = true) := by simp [h1]
        rw [List.filter_cons, List.filter_cons, if_neg e1, if_neg e2]
        exact hlt
      · have e1 : (decide (k ∉ c :: visited)) = true := by simp [h1, h2]
        have e2 : (decide (k ∉ visited)) = true := by simp [h1]
        rw [List.filter_cons, List.filter_cons, if_pos e1, if_pos e2,
          List.length_cons, List.length_cons]
        omega

theorem rcDiff_visit_lt (os : RCObjs) (c : Int) (visited : List Int)
    (hc : c ∈ rkeys os) (hv : c ∉ visited) :
    rcDiff os (c :: visited) < rcDiff os visited :=
  filter_unvisited_lt (rkeys os) visited c hc hv

/-- Weight of the cascade machine stack: second component of its
termination measure. -/
def stackWeight (fs : List (Int × List Int)) : Nat :=
  (fs.map (fun f => f.2.length + 1)).sum

/-- Stack machine equivalent to the recursion of
ReferenceCounter::cascade_delete. A frame (p, cs) is an in-progress call
on p whose remaining children are cs (the source copies obj.references
into a local before the loop). Entering a frame corresponds to the entry
sequence of the source: the heap-presence test, the visited test, the
visited insert and the nonzero-count early return — on the paths the
callers produce, every call pushed here has just seen the count reach
zero, so the count guard is re-checked right before pushing. Completing a
frame erases its object from the store. Each child is decremented with
the clamp-at-negative write of the source, and a child whose count
reaches zero becomes a new frame unless already visited. -/
def rcMachine : RCObjs → List Int → List (Int × List Int) → RCObjs × List Int
  | os, visited, [] => (os, visited)
  | os, visited, (p, []) :: fs => rcMachine (rerase os p) visited fs
  | os, visited, (p, c :: cs) :: fs =>
    if c ∈ rkeys os then
      let os1 := rmodify os c decClamp
      if refCountAt os1 c = 0 then
        if c ∈ visited then rcMachine os1 visited ((p, cs) :: fs)
        else rcMachine os1 (c :: visited) ((c, refsAt os1 c) :: (p, cs) :: fs)
      else rcMachine os1 visited ((p, cs) :: fs)
    else rcMachine os visited ((p, cs) :: fs)
termination_by os visited fs => (rcDiff os visited, stackWeight fs)
decreasing_by
  · rcases lt_or_eq_of_le (rcDiff_rerase_le os p visited) with hlt | heq
    · exact Prod.Lex.left _ _ hlt
    · rw [heq]
      exact Prod.Lex.right _ (by simp [stackWeight])
  · rw [rcDiff_rmodify]
    exact Prod.Lex.right _ (by simp [stackWeight])
  · rename_i hmem hzero hvis
    rw [rcDiff_rmodify]
    exact Prod.Lex.left _ _ (rcDiff_visit_lt os c visited hmem hvis)
  · rw [rcDiff_rmodify]
    exact Prod.Lex.right _ (by simp [stackWeight])
  · exact Prod.Lex.right _ (by simp [stackWeight])

/-- Top-level entry ReferenceCounter::cascade_delete(i, visited) with an
empty visited set, as invoked by remove_ref and RCHeap::remove_root: on a
present object whose count is zero, run the machine seeded with one
frame. -/
def rcCascadeTop (os : RCObjs) (i : Int) : RCObjs :=
  if i ∈ rkeys os then
    if refCountAt os i = 0 then (rcMachine os [i] [(i, refsAt os i)]).1
    else os
  else os

/-- Heap-plus-roots state of RCHeap. -/
structure RCHeapState where
  objects : RCObjs
  roots : List Int
deriving Repr, DecidableEq

/-- Empty RCHeap. -/
def rcInit : RCHeapState := { objects := [], roots := [] }

/-- RCHeap::allocate(obj_id): reject an existing or negative id, else
store a fresh zero-count object. -/
def rcAllocate (s : RCHeapState) (obj_id : Int) : RCHeapState × Bool :=
  if obj_id ∈ rkeys s.objects then (s, false)
  else if obj_id < 0 then (s, false)
  else ({ s with objects := s.objects ++ [(obj_id, RCObject.mkId obj_id)] },
    true)

/-- RCHeap::add_root: the root mark is a virtual reference — membership in
the roots set plus one on the count; a missing object or an already
rooted one is rejected. -/
def rcAddRoot (s : RCHeapState) (i : Int) : RCHeapState × Bool :=
  if i ∉ rkeys s.objects then (s, false)
  else if i ∈ s.roots then (s, false)
  else
    ({ objects :=
        rmodify s.objects i (fun o => { o with ref_count := o.ref_count + 1 }),
       roots := s.roots ++ [i] }, true)

/-- RCHeap::remove_root: drop the root, decrement (clamping a negative
count to zero with failure), and cascade when the count reaches zero. -/
def rcRemoveRoot (s : RCHeapState) (i : Int) : RCHeapState × Bool :=
  if i ∉ rkeys s.objects then (s, false)
  else if i ∉ s.roots then (s, false)
  else
    let roots1 := s.roots.filter (fun r => r ≠ i)
    let os1 :=
      rmodify s.objects i (fun o => { o with ref_count := o.ref_count - 1 })
    if refCountAt os1 i < 0 then
      ({ objects := rmodify os1 i (fun o => { o with ref_count := 0 }),
         roots := roots1 }, false)
    else if refCountAt os1 i = 0 then
      ({ objects := rcCascadeTop os1 i, roots := roots1 }, true)
    else ({ objects := os1, roots := roots1 }, true)

/-- RCHeap::add_ref (validation) delegating to ReferenceCounter::add_ref:
negative ids, missing endpoints and self references are rejected; a
duplicate edge is rejected as well; otherwise the edge is appended and the
target count incremented. -/
def rcAddRef (s : RCHeapState) (f t : Int) : RCHeapState × Bool :=
  if f < 0 ∨ t < 0 then (s, false)
  else if f ∉ rkeys s.objects then (s, false)
  else if t ∉ rkeys s.objects then (s, false)
  else if f = t then (s, false)
  else if t ∈ refsAt s.objects f then (s, false)
  else
    let os1 := rmodify s.objects f
      (fun o => { o with references := o.references ++ [t] })
    let os2 := rmodify os1 t
      (fun o => { o with ref_count := o.ref_count + 1 })
    ({ s with objects := os2 }, true)

/-- RCHeap::remove_ref (validation) delegating to
ReferenceCounter::remove_ref: missing endpoints or a missing edge are
rejected; otherwise the edge is erased, the target count decremented
(clamping a negative result to zero with failure), and the cascade starts
when the count reaches exactly zero. -/
def rcRemoveRef (s : RCHeapState) (f t : Int) : RCHeapState × Bool :=
  if f < 0 ∨ t < 0 then (s, false)
  else if f ∉ rkeys s.objects then (s, false)
  else if t ∉ rkeys s.objects then (s, false)
  else if t ∉ refsAt s.objects f then (s, false)
  else
    let os1 := rmodify s.objects f
      (fun o => { o with references := o.references.erase t })
    let os2 := rmodify os1 t
      (fun o => { o with ref_count := o.ref_count - 1 })
    if refCountAt os2 t < 0 then
      ({ s with objects := rmodify os2 t (fun o => { o with ref_count := 0 }) },
       false)
    else if refCountAt os2 t = 0 then
      ({ s with objects := rcCascadeTop os2 t }, true)
    else ({ s with objects := os2 }, true)

/-- RCHeap::detect_and_log_leaks: ids of stored objects whose count is
positive, in store order (the set the logger receives). -/
def detect_and_log_leaks (s : RCHeapState) : List Int :=
  (s.objects.filter (fun p => 0 < p.2.ref_count)).map (fun p => p.1)

/-- Public operation surface of RCHeap. -/
inductive RCOp where
  | alloc (i : Int)
  | addRoot (i : Int)
  | rmRoot (i : Int)
  | addRef (f t : Int)
  | remRef (f t : Int)
deriving Repr, DecidableEq

/-- One public operation of RCHeap. -/
def rcStep (s : RCHeapState) (op : RCOp) : RCHeapState :=
  match op with
  | RCOp.alloc i => (rcAllocate s i).1
  | RCOp.addRoot i => (rcAddRoot s i).1
  | RCOp.rmRoot i => (rcRemoveRoot s i).1
  | RCOp.addRef f t => (rcAddRef s f t).1
  | RCOp.remRef f t => (rcRemoveRef s f t).1

/-- Run a driver scenario on RCHeap. -/
def rcRun (s : RCHeapState) (ops : List RCOp) : RCHeapState :=
  ops.foldl rcStep s

/-- Demo collector configuration: 1024-byte capacity (any capacity holding
the scenario works), 80 percent threshold. -/
def gcDemo : GCState := GCState.mkInit 1024 819

/-- Concrete scenario of the specification: allocate root r (64B) and
a, b, c (64B each), build r→a plus the cycle a→b→c→a, then unroot r.
Object ids are 0, 1, 2, 3 in allocation order. -/
def scenarioC1 : List GCOp :=
  [GCOp.alloc 64, GCOp.alloc 64, GCOp.alloc 64, GCOp.alloc 64,
   GCOp.mkRoot 0, GCOp.addRef 0 1, GCOp.addRef 1 2, GCOp.addRef 2 3,
   GCOp.addRef 3 1, GCOp.rmRoot 0]

/-- The same concrete scenario on the RCHeap surface (explicit ids; the
root mark is RCHeap::add_root / RCHeap::remove_root). -/
def scenarioC1RC : List RCOp :=
  [RCOp.alloc 0, RCOp.alloc 1, RCOp.alloc 2, RCOp.alloc 3,
   RCOp.addRoot 0, RCOp.addRef 0 1, RCOp.addRef 1 2, RCOp.addRef 2 3,
   RCOp.addRef 3 1, RCOp.rmRoot 0]

/-- Two-object cycle a→b→a with no root path (ids 0 and 1). -/
def scenarioC2cycle : List GCOp :=
  [GCOp.alloc 1, GCOp.alloc 1, GCOp.addRef 0 1, GCOp.addRef 1 0]

/-- A rootless edge 0→1, both unreachable: sweeping kills both. -/
def scenarioC4chain : List GCOp :=
  [GCOp.alloc 1, GCOp.alloc 1, GCOp.addRef 0 1]

/-- Edges of alive objects lead only to alive objects. -/
def EdgesAlive (h : Heap) : Prop :=
  ∀ a ∈ hkeys h, aliveB h a = true →
    (∀ m ∈ outL h a, aliveB h m = true) ∧
    (∀ m ∈ inL h a, aliveB h m = true)

/-- Bilateral edge symmetry on alive objects: an outgoing edge is
mirrored in the target's incoming set and conversely. -/
def EdgesSym (h : Heap) : Prop :=
  ∀ a ∈ hkeys h, aliveB h a = true →
    (∀ b ∈ outL h a, a ∈ inL h b) ∧
    (∀ b ∈ inL h a, a ∈ outL h b)

/-- A root-flagged object is alive. -/
def RootsAlive (h : Heap) : Prop :=
  ∀ a ∈ hkeys h, rootB h a = true → aliveB h a = true

/-- Every key is below the id counter (freshness of allocate). -/
def KeysBelow (h : Heap) (n : Nat) : Prop :=
  ∀ p ∈ h, p.1 < n

/-- State invariant of both graph collectors, established at construction
and preserved by every public operation. -/
def GCInv (s : GCState) : Prop :=
  (hkeys s.heap).Nodup ∧ EdgesAlive s.heap ∧ EdgesSym s.heap ∧
  RootsAlive s.heap ∧ KeysBelow s.heap s.next_object_id

/-- Reachability along outgoing edges through alive objects — the
relation the mark phase computes. -/
inductive Reaches (h : Heap) : Nat → Nat → Prop where
  | refl : ∀ i, aliveB h i = true → Reaches h i i
  | tail : ∀ i j k, Reaches h i j → k ∈ outL h j → aliveB h k = true →
      Reaches h i k

/-- An object reachable from some alive root. -/
def RootReachable (h : Heap) (x : Nat) : Prop :=
  ∃ r, rootB h r = true ∧ aliveB h r = true ∧ Reaches h r x

/-- Multiplicity of references to an id among store entries whose key is
not yet visited (RC cascade accounting). -/
def unvisitedInM (os : RCObjs) (visited : List Int) (i : Int) : Nat :=
  (os.map (fun q => if q.1 ∈ visited then 0 else q.2.references.count i)).sum

/-- Virtual root reference of RCHeap: one when rooted. -/
def rootBit (roots : List Int) (i : Int) : Nat :=
  if i ∈ roots then 1 else 0

/-- Multiplicity of an id among the remaining children of the pending
cascade frames. -/
def pendTo (fs : List (Int × List Int)) (i : Int) : Nat :=
  (fs.map (fun f => f.2.count i)).sum

/-- Counting inequality of the RC cascade machine: every count dominates
the unapplied reference multiplicity plus the root bit plus the pending
frame multiplicity. -/
def rcCountOk (os : RCObjs) (visited : List Int) (fs : List (Int × List Int))
    (roots : List Int) : Prop :=
  ∀ i : Int,
    (unvisitedInM os visited i + rootBit roots i + pendTo fs i : Int) ≤
      refCountAt os i

/-- Visited ids are fully discharged: zero count, no unapplied references,
not rooted, no pending references. -/
def rcVisitedOk (os : RCObjs) (visited : List Int)
    (fs : List (Int × List Int)) (roots : List Int) : Prop :=
  ∀ v ∈ visited, refCountAt os v = 0 ∧ unvisitedInM os visited v = 0 ∧
    rootBit roots v = 0 ∧ pendTo fs v = 0

/-- Stack bookkeeping: frame heads are visited, and a visited id still in
the store is the head of some frame. -/
def rcStackOk (os : RCObjs) (visited : List Int)
    (fs : List (Int × List Int)) : Prop :=
  (∀ f ∈ fs, f.1 ∈ visited) ∧
  (∀ v ∈ visited, v ∈ rkeys os → v ∈ fs.map (fun f => f.1))

/-- Full invariant of the RC cascade machine. -/
def rcMInv (os : RCObjs) (visited : List Int) (fs : List (Int × List Int))
    (roots : List Int) : Prop :=
  rcCountOk os visited fs roots ∧ rcVisitedOk os visited fs roots ∧
  rcStackOk os visited fs

/-- Quiescent invariant of RCHeap between public operations: the machine
invariant with no cascade in progress. -/
def rcQInv (s : RCHeapState) : Prop :=
  rcMInv s.objects [] [] s.roots

/-- No stored RC object references itself. -/
def NoSelfRefs (os : RCObjs) : Prop :=
  ∀ x ∈ os, x.1 ∉ x.2.references

theorem hfind_of_keysBelow (h : Heap) (n : Nat) (hk : KeysBelow h n) :
    hfind h n = none := by
  induction h with
  | nil => rfl
  | cons p t ih =>
    obtain ⟨k, o⟩ := p
    have hlt : k < n := hk (k, o) (List.mem_cons_self _ _)
    have hne : ¬ k = n := by omega
    simp only [hfind, if_neg hne]
    exact ih (fun q hq => hk q (List.mem_cons_of_mem _ hq))

/-- C10. In the Mark-Sweep and Cascade/Orphan collectors, make_root and
remove_root on a missing or dead id are silent no-ops: the state is
returned unchanged, and the operations return no failure indication (they
are void in the source, so the model returns only the state). -/
theorem C10_root_toggle_silent_noop :
    ∀ (s : GCState) (i : Nat), aliveB s.heap i = false →
      msMakeRoot s i = s ∧ msRemoveRoot s i = s ∧
      cdMakeRoot s i = s ∧ cdRemoveRoot s i = s := by
  intro s i hdead
  refine ⟨?_, ?_, ?_, ?_⟩ <;>
    simp [msMakeRoot, msRemoveRoot, cdMakeRoot, cdRemoveRoot, hdead]

/-- Witness for C10 at a concrete input: the empty demo heap has no
object 0, and both toggles leave the state unchanged. -/
theorem C10_root_toggle_silent_noop_witness :
    msMakeRoot gcDemo 0 = gcDemo ∧ msRemoveRoot gcDemo 0 = gcDemo ∧
    cdMakeRoot gcDemo 0 = gcDemo ∧ cdRemoveRoot gcDemo 0 = gcDemo :=
  C10_root_toggle_silent_noop gcDemo 0 (by decide)

/-- C3 counterexample. The claim promises success for every collector on a
duplicate add_reference; the Reference-Counting collector returns false:
after allocate 0, allocate 1, add_ref(0,1), a second add_ref(0,1) is
rejected (ReferenceCounter::add_ref returns false when the edge exists). -/
theorem C3_rc_duplicate_add_returns_false :
    (rcAddRef (rcRun rcInit
        [RCOp.alloc 0, RCOp.alloc 1, RCOp.addRef 0 1]) 0 1).2 = false := by
  decide

/-- C3 amended. A duplicate add_reference never mutates any collector
state; Mark-Sweep and Cascade report success, while the RC collector
reports false (the state is unchanged in all three). This holds on every
repetition, since the statement quantifies over every state already
containing the edge. -/
theorem C3_duplicate_add_idempotent :
    (∀ (s : GCState) (a b : Nat), aliveB s.heap a = true →
      aliveB s.heap b = true → b ∈ outL s.heap a →
      msAddReference s a b = (s, true) ∧ cdAddReference s a b = (s, true)) ∧
    (∀ (s : RCHeapState) (f t : Int), t ∈ refsAt s.objects f →
      rcAddRef s f t = (s, false)) := by
  constructor
  · intro s a b ha hb hedge
    have hms : msAddReference s a b = (s, true) := by
      unfold msAddReference
      rw [if_neg (by simp [ha]), if_neg (by simp [hb]), if_pos hedge]
    exact ⟨hms, hms⟩
  · intro s f t hdup
    unfold rcAddRef
    split_ifs with h1 h2 h3 h4 h5 <;> first | rfl | exact absurd hdup h5

/-- Witness for C3 at a concrete input: with the edge 0→1 present in each
collector, the repeated add is a no-op success for the graph collectors
and a no-op failure for RC. -/
theorem C3_duplicate_add_idempotent_witness :
    (msAddReference (msRun gcDemo
        [GCOp.alloc 1, GCOp.alloc 1, GCOp.addRef 0 1]) 0 1 =
      (msRun gcDemo [GCOp.alloc 1, GCOp.alloc 1, GCOp.addRef 0 1], true)) ∧
    (rcAddRef (rcRun rcInit
        [RCOp.alloc 0, RCOp.alloc 1, RCOp.addRef 0 1]) 0 1 =
      (rcRun rcInit [RCOp.alloc 0, RCOp.alloc 1, RCOp.addRef 0 1], false)) :=
  ⟨(C3_duplicate_add_idempotent.1 _ 0 1 (by decide) (by decide)
      (by decide)).1,
    C3_duplicate_add_idempotent.2 _ 0 1 (by decide)⟩

theorem noSelfRefs_rmodify (os : RCObjs) (i : Int) (f : RCObject → RCObject)
    (hf : ∀ o : RCObject, ∀ x ∈ (f o).references, x ∈ o.references)
    (hinv : NoSelfRefs os) : NoSelfRefs (rmodify os i f) := by
  induction os with
  | nil => exact hinv
  | cons p t ih =>
    obtain ⟨k, o⟩ := p
    intro x hx
    by_cases hk : k = i
    · subst hk
      simp only [rmodify, if_pos rfl] at hx
      rcases List.mem_cons.mp hx with hx | hx
      · subst hx
        intro hmem
        exact hinv (k, o) (List.mem_cons_self _ _) (hf o k hmem)
      · exact hinv x (List.mem_cons_of_mem _ hx)
    · simp only [rmodify, if_neg hk] at hx
      rcases List.mem_cons.mp hx with hx | hx
      · subst hx
        exact hinv (k, o) (List.mem_cons_self _ _)
      · exact ih (fun q hq => hinv q (List.mem_cons_of_mem _ hq)) x hx

theorem noSelfRefs_rerase (os : RCObjs) (i : Int)
    (hinv : NoSelfRefs os) : NoSelfRefs (rerase os i) := by
  intro x hx
  exact hinv x (List.mem_of_mem_filter hx)

theorem decClamp_references (o : RCObject) :
    (decClamp o).references = o.references := by
  unfold decClamp
  split_ifs <;> rfl

theorem noSelfRefs_rcMachine : ∀ (os : RCObjs) (visited : List Int)
    (fs : List (Int × List Int)), NoSelfRefs os →
    NoSelfRefs (rcMachine os visited fs).1 := by
  intro os visited fs
  induction os, visited, fs using rcMachine.induct with
  | case1 os visited =>
    intro hinv
    simpa [rcMachine] using hinv
  | case2 os visited p fs ih =>
    intro hinv
    rw [rcMachine]
    exact ih (noSelfRefs_rerase os p hinv)
  | case3 os visited p c cs fs hmem os1 hzero hvis ih =>
    intro hinv
    rw [rcMachine]
    simp only [if_pos hmem, hzero, if_pos rfl, if_pos hvis]
    exact ih (noSelfRefs_rmodify os c decClamp
      (fun o x hx => by rwa [decClamp_references] at hx) hinv)
  | case4 os visited p c cs fs hmem os1 hzero hvis ih =>
    intro hinv
    rw [rcMachine]
    simp only [if_pos hmem, hzero, if_pos rfl, if_neg hvis]
    exact ih (noSelfRefs_rmodify os c decClamp
      (fun o x hx => by rwa [decClamp_references] at hx) hinv)
  | case5 os visited p c cs fs hmem os1 hzero ih =>
    intro hinv
    rw [rcMachine]
    simp only [if_pos hmem, if_neg hzero]
    exact ih (noSelfRefs_rmodify os c decClamp
      (fun o x hx => by rwa [decClamp_references] at hx) hinv)
  | case6 os visited p c cs fs hmem ih =>
    intro hinv
    rw [rcMachine]
    simp only [if_neg hmem]
    exact ih hinv

theorem noSelfRefs_rcCascadeTop (os : RCObjs) (i : Int)
    (hinv : NoSelfRefs os) : NoSelfRefs (rcCascadeTop os i) := by
  unfold rcCascadeTop
  split_ifs
  · exact noSelfRefs_rcMachine os [i] [(i, refsAt os i)] hinv
  · exact hinv
  · exact hinv

theorem noSelfRefs_append_ref (os : RCObjs) (f t : Int) (hft : ¬ f = t)
    (hinv : NoSelfRefs os) :
    NoSelfRefs (rmodify os f
      (fun o => { o with references := o.references ++ [t] })) := by
  induction os with
  | nil => exact hinv
  | cons p rest ih =>
    obtain ⟨k, o⟩ := p
    intro x hx
    by_cases hk : k = f
    · subst hk
      simp only [rmodify, if_pos rfl] at hx
      rcases List.mem_cons.mp hx with hx | hx
      · subst hx
        intro hmem
        rcases List.mem_append.mp hmem with hmem | hmem
        · exact hinv (k, o) (List.mem_cons_self _ _) hmem
        · simp only [List.mem_singleton] at hmem
          exact hft hmem
      · exact hinv x (List.mem_cons_of_mem _ hx)
    · simp only [rmodify, if_neg hk] at hx
      rcases List.mem_cons.mp hx with hx | hx
      · subst hx
        exact hinv (k, o) (List.mem_cons_self _ _)
      · exact ih (fun q hq => hinv q (List.mem_cons_of_mem _ hq)) x hx

theorem refs_unchanged_noSelfRefs (os : RCObjs) (i : Int)
    (f : RCObject → RCObject)
    (hf : ∀ o : RCObject, (f o).references = o.references)
    (hinv : NoSelfRefs os) : NoSelfRefs (rmodify os i f) :=
  noSelfRefs_rmodify os i f (fun o x hx => by rwa [hf o] at hx) hinv

theorem noSelfRefs_rcStep (s : RCHeapState) (op : RCOp)
    (hinv : NoSelfRefs s.objects) : NoSelfRefs (rcStep s op).objects := by
  cases op with
  | alloc i =>
    simp only [rcStep, rcAllocate]
    split_ifs <;> try exact hinv
    intro x hx
    rcases List.mem_append.mp hx with hx | hx
    · exact hinv x hx
    · simp only [List.mem_singleton] at hx
      subst hx
      simp [RCObject.mkId]
  | addRoot i =>
    simp only [rcStep, rcAddRoot]
    split_ifs <;> try exact hinv
    exact refs_unchanged_noSelfRefs _ _ _ (fun o => rfl) hinv
  | rmRoot i =>
    simp only [rcStep, rcRemoveRoot]
    split_ifs <;> try exact hinv
    · exact refs_unchanged_noSelfRefs _ _ _ (fun o => rfl)
        (refs_unchanged_noSelfRefs _ _ _ (fun o => rfl) hinv)
    · exact noSelfRefs_rcCascadeTop _ _
        (refs_unchanged_noSelfRefs _ _ _ (fun o => rfl) hinv)
    · exact refs_unchanged_noSelfRefs _ _ _ (fun o => rfl) hinv
  | addRef f t =>
    simp only [rcStep, rcAddRef]
    split_ifs with h1 h2 h3 h4 h5 <;> try exact hinv
    exact refs_unchanged_noSelfRefs _ _ _ (fun o => rfl)
      (noSelfRefs_append_ref s.objects f t h4 hinv)
  | remRef f t =>
    simp only [rcStep, rcRemoveRef]
    split_ifs <;> try exact hinv
    · exact refs_unchanged_noSelfRefs _ _ _ (fun o => rfl)
        (refs_unchanged_noSelfRefs _ _ _ (fun o => rfl)
          (noSelfRefs_rmodify _ _ _
            (fun o x hx => List.mem_of_mem_erase hx) hinv))
    · exact noSelfRefs_rcCascadeTop _ _
        (refs_unchanged_noSelfRefs _ _ _ (fun o => rfl)
          (noSelfRefs_rmodify _ _ _
            (fun o x hx => List.mem_of_mem_erase hx) hinv))
    · exact refs_unchanged_noSelfRefs _ _ _ (fun o => rfl)
        (noSelfRefs_rmodify _ _ _
          (fun o x hx => List.mem_of_mem_erase hx) hinv)

theorem noSelfRefs_rcRun (ops : List RCOp) :
    NoSelfRefs (rcRun rcInit ops).objects := by
  suffices hgen : ∀ (ops : List RCOp) (s : RCHeapState),
      NoSelfRefs s.objects → NoSelfRefs (rcRun s ops).objects by
    exact hgen ops rcInit (by intro x hx; simp [rcInit] at hx)
  intro ops
  induction ops with
  | nil => exact fun s h => h
  | cons op rest ih =>
    intro s h
    exact ih (rcStep s op) (noSelfRefs_rcStep s op h)

theorem mem_insertRef_self (x : Nat) (l : List Nat) : x ∈ insertRef x l := by
  unfold insertRef
  split_ifs with h
  · exact h
  · simp

/-- C5 counterexample. The claim forbids self-loops in every collector,
but MarkSweepGC::add_reference has no self-edge check: after allocating
object 0, add_reference(0,0) reports success and inserts 0 into its own
outgoing and incoming sets (CascadeDeletionGC::add_reference is the same
code). -/
theorem C5_ms_self_loop_created :
    (msAddReference (msRun gcDemo [GCOp.alloc 1]) 0 0).2 = true ∧
    0 ∈ outL (msAddReference (msRun gcDemo [GCOp.alloc 1]) 0 0).1.heap 0 ∧
    0 ∈ inL (msAddReference (msRun gcDemo [GCOp.alloc 1]) 0 0).1.heap 0 := by
  decide

/-- C5 amended. Only the RC collector forbids self-loops: RCHeap::add_ref
rejects from == to unconditionally, and no RCHeap operation sequence ever
produces a self reference; in the Mark-Sweep and Cascade collectors,
add_reference(a, a) on an alive object without the edge succeeds and
creates the self-loop in both adjacency sets. -/
theorem C5_self_loops_rc_only :
    (∀ (s : RCHeapState) (a : Int), rcAddRef s a a = (s, false)) ∧
    (∀ ops : List RCOp, ∀ x ∈ (rcRun rcInit ops).objects,
      x.1 ∉ x.2.references) ∧
    (∀ (s : GCState) (a : Nat), aliveB s.heap a = true →
      a ∉ outL s.heap a →
      (msAddReference s a a).2 = true ∧
      a ∈ outL (msAddReference s a a).1.heap a ∧
      cdAddReference s a a = msAddReference s a a) := by
  refine ⟨?_, ?_, ?_⟩
  · intro s a
    unfold rcAddRef
    split_ifs <;> first | rfl | exact absurd rfl (by assumption)
  · exact fun ops => noSelfRefs_rcRun ops
  · intro s a ha hno
    have hstep : msAddReference s a a =
        ({ s with
            heap := hmodify (hmodify s.heap a
              (fun o => o.add_reference_to a)) a
              (fun o => o.add_reference_from a) }, true) := by
      unfold msAddReference
      rw [if_neg (by simp [ha]), if_neg (by simp [ha]), if_neg hno]
    refine ⟨by rw [hstep], ?_, rfl⟩
    rw [hstep]
    obtain ⟨o, ho⟩ : ∃ o, hfind s.heap a = some o := by
      revert ha
      unfold aliveB
      cases hfind s.heap a
      · intro hcon
        simp at hcon
      · exact fun _ => ⟨_, rfl⟩
    have h1 : hfind (hmodify s.heap a (fun o => o.add_reference_to a)) a =
        some (o.add_reference_to a) := hfind_hmodify_self _ _ _ _ ho
    have h2 : hfind (hmodify (hmodify s.heap a
        (fun o => o.add_reference_to a)) a
        (fun o => o.add_reference_from a)) a =
        some ((o.add_reference_to a).add_reference_from a) :=
      hfind_hmodify_self _ _ _ _ h1
    unfold outL
    rw [h2]
    simp only [HeapObject.add_reference_from, HeapObject.add_reference_to]
    exact mem_insertRef_self a o.outgoing_references

/-- Witness for C5 at a concrete input: RC rejects add_ref(0,0) on a
present object, and Mark-Sweep creates the loop on object 0. -/
theorem C5_self_loops_rc_only_witness :
    rcAddRef (rcRun rcInit [RCOp.alloc 0]) 0 0 =
      (rcRun rcInit [RCOp.alloc 0], false) ∧
    (msAddReference (msRun gcDemo [GCOp.alloc 1]) 0 0).2 = true :=
  ⟨C5_self_loops_rc_only.1 _ 0,
    (C5_self_loops_rc_only.2.2 _ 0 (by decide) (by decide)).1⟩

/-- C1 counterexample. The claim says the Cascade/Orphan collector frees
nothing in the concrete scenario; in fact, once r is unrooted it is itself
an orphan (alive, non-root, zero incoming edges), so collect() cascades
into r and frees its 64 bytes — r is dead afterwards. -/
theorem C1_cascade_collect_frees_r :
    (cdCollect (cdRun gcDemo scenarioC1)).2 = 64 ∧
    ¬ (cdCollect (cdRun gcDemo scenarioC1)).2 = 0 ∧
    aliveB (cdCollect (cdRun gcDemo scenarioC1)).1.heap 0 = false := by
  refine ⟨?_, ?_, ?_⟩ <;>
  simp +decide [cdCollect, cdRun, cdStep, cdAllocate, cdAddReference,
    msAddReference, cdMakeRoot, msMakeRoot, cdRemoveRoot, msRemoveRoot,
    cascadeEach, cascade_delete, cascadeLoop, cascadeDetachOutgoing,
    sweepDetachIncoming, collectOrphans, scenarioC1, gcDemo, GCState.mkInit,
    has_enough_memory, get_free_memory, get_total_memory, hinsert, hmodify,
    hfind, aliveB, outL, inL, should_be_deleted, HeapObject.mk3,
    HeapObject.add_reference_to, HeapObject.add_reference_from,
    HeapObject.remove_reference_from, HeapObject.remove_reference_to,
    insertRef, eraseRef, kill, setMark]

/-- C1 amended. Concrete scenario (r = 0, a = 1, b = 2, c = 3): Mark-Sweep
collect() frees all four objects, 256 bytes. The Cascade collector frees
exactly the unrooted r (64 bytes) and leaves the cycle a, b, c alive. The
RC collector has no collect(): remove_root itself cascade-deletes r (a
keeps one incoming edge from c, so the cascade stops there), and
detect_leaks() then reports exactly a, b, c. -/
theorem C1_concrete_scenario :
    (msCollect (msRun gcDemo scenarioC1)).2 = 256 ∧
    aliveB (msCollect (msRun gcDemo scenarioC1)).1.heap 0 = false ∧
    aliveB (msCollect (msRun gcDemo scenarioC1)).1.heap 1 = false ∧
    aliveB (msCollect (msRun gcDemo scenarioC1)).1.heap 2 = false ∧
    aliveB (msCollect (msRun gcDemo scenarioC1)).1.heap 3 = false ∧
    (cdCollect (cdRun gcDemo scenarioC1)).2 = 64 ∧
    aliveB (cdCollect (cdRun gcDemo scenarioC1)).1.heap 0 = false ∧
    aliveB (cdCollect (cdRun gcDemo scenarioC1)).1.heap 1 = true ∧
    aliveB (cdCollect (cdRun gcDemo scenarioC1)).1.heap 2 = true ∧
    aliveB (cdCollect (cdRun gcDemo scenarioC1)).1.heap 3 = true ∧
    rkeys (rcRun rcInit scenarioC1RC).objects = [1, 2, 3] ∧
    detect_and_log_leaks (rcRun rcInit scenarioC1RC) = [1, 2, 3] := by
  refine ⟨?_, ?_, ?_, ?_, ?_, ?_, ?_, ?_, ?_, ?_, ?_, ?_⟩ <;>
  simp +decide [msCollect, msRun, msStep, msAllocate, msAddReference,
    msMakeRoot, msRemoveRoot, mark_phase, unmarkAll, get_root_objects,
    dfsStack, sweep_phase, sweepAll, sweepOne, sweepTargets,
    sweepDetachIncoming, sweepDetachOutgoing, cdCollect, cdRun, cdStep,
    cdAllocate, cdAddReference, cdMakeRoot, cdRemoveRoot, cascadeEach,
    cascade_delete, cascadeLoop, cascadeDetachOutgoing, collectOrphans,
    should_be_deleted, rcRun, rcStep, rcAllocate, rcAddRoot, rcRemoveRoot,
    rcAddRef, rcRemoveRef, rcCascadeTop, rcMachine, detect_and_log_leaks,
    rkeys, rfind, rmodify, rerase, refCountAt, refsAt, decClamp,
    RCObject.mkId, rcInit, scenarioC1, scenarioC1RC, gcDemo, GCState.mkInit,
    has_enough_memory, get_free_memory, get_total_memory, hinsert, hmodify,
    hfind, aliveB, outL, inL, HeapObject.mk3, HeapObject.unmark,
    HeapObject.add_reference_to, HeapObject.add_reference_from,
    HeapObject.remove_reference_from, HeapObject.remove_reference_to,
    insertRef, eraseRef, kill, setMark]

theorem msAllocate_invalid (s : GCState) (size : Nat)
    (h : size = 0 ∨ s.max_heap_size < size) :
    msAllocate s size = (s, none) := by
  unfold msAllocate
  rw [if_pos h]

theorem msAllocate_fast (s : GCState) (size : Nat)
    (h1 : ¬ (size = 0 ∨ s.max_heap_size < size))
    (h2 : has_enough_memory s size = true) :
    msAllocate s size =
      ({ s with
          heap := hinsert s.heap s.next_object_id
            { (HeapObject.mk3 s.next_object_id size false) with
                allocation_step := s.current_step },
          next_object_id := s.next_object_id + 1 }, some s.next_object_id) := by
  unfold msAllocate
  rw [if_neg h1]
  simp only [h2, if_true]

theorem msAllocate_after_collect (s : GCState) (size : Nat)
    (h1 : ¬ (size = 0 ∨ s.max_heap_size < size))
    (h2 : has_enough_memory s size = false)
    (h3 : has_enough_memory (msCollect s).1 size = true) :
    msAllocate s size =
      ({ (msCollect s).1 with
          heap := hinsert (msCollect s).1.heap (msCollect s).1.next_object_id
            { (HeapObject.mk3 (msCollect s).1.next_object_id size false) with
                allocation_step := (msCollect s).1.current_step },
          next_object_id := (msCollect s).1.next_object_id + 1 },
        some (msCollect s).1.next_object_id) := by
  unfold msAllocate
  rw [if_neg h1]
  simp only [h2, if_false, Bool.false_eq_true, h3, if_true]

theorem msAllocate_oom (s : GCState) (size : Nat)
    (h1 : ¬ (size = 0 ∨ s.max_heap_size < size))
    (h2 : has_enough_memory s size = false)
    (h3 : has_enough_memory (msCollect s).1 size = false) :
    msAllocate s size = ((msCollect s).1, none) := by
  unfold msAllocate
  rw [if_neg h1]
  simp only [h2, h3, if_false, Bool.false_eq_true]

theorem cdAllocate_invalid (s : GCState) (size : Nat)
    (h : size = 0 ∨ s.max_heap_size < size) :
    cdAllocate s size = (s, none) := by
  unfold cdAllocate
  rw [if_pos h]

theorem cdAllocate_fast (s : GCState) (size : Nat)
    (h1 : ¬ (size = 0 ∨ s.max_heap_size < size))
    (h2 : has_enough_memory s size = true) :
    cdAllocate s size =
      ({ s with
          heap := hinsert s.heap s.next_object_id
            { (HeapObject.mk3 s.next_object_id size false) with
                allocation_step := s.current_step },
          next_object_id := s.next_object_id + 1 }, some s.next_object_id) := by
  unfold cdAllocate
  rw [if_neg h1]
  simp only [h2, if_true]

theorem cdAllocate_after_collect (s : GCState) (size : Nat)
    (h1 : ¬ (size = 0 ∨ s.max_heap_size < size))
    (h2 : has_enough_memory s size = false)
    (h3 : has_enough_memory (cdCollect s).1 size = true) :
    cdAllocate s size =
      ({ (cdCollect s).1 with
          heap := hinsert (cdCollect s).1.heap (cdCollect s).1.next_object_id
            { (HeapObject.mk3 (cdCollect s).1.next_object_id size false) with
                allocation_step := (cdCollect s).1.current_step },
          next_object_id := (cdCollect s).1.next_object_id + 1 },
        some (cdCollect s).1.next_object_id) := by
  unfold cdAllocate
  rw [if_neg h1]
  simp only [h2, if_false, Bool.false_eq_true, h3, if_true]

theorem cdAllocate_oom (s : GCState) (size : Nat)
    (h1 : ¬ (size = 0 ∨ s.max_heap_size < size))
    (h2 : has_enough_memory s size = false)
    (h3 : has_enough_memory (cdCollect s).1 size = false) :
    cdAllocate s size = ((cdCollect s).1, none) := by
  unfold cdAllocate
  rw [if_neg h1]
  simp only [h2, h3, if_false, Bool.false_eq_true]

theorem msCollect_next_id (s : GCState) :
    (msCollect s).1.next_object_id = s.next_object_id := rfl

theorem cdCollect_next_id (s : GCState) :
    (cdCollect s).1.next_object_id = s.next_object_id := rfl

/-- C7. The allocate contract of both graph collectors: an invalid size
(zero or above capacity) fails with no mutation; with enough free memory
the next-id object is created directly; otherwise exactly one automatic
collect() runs and allocation succeeds or fails according to the free
memory after it (failing with no new object); every returned id is fresh
(never a key of the pre-call heap, given the id-counter freshness
invariant). -/
theorem C7_allocate_contract :
    ∀ (s : GCState) (size : Nat),
      ((size = 0 ∨ s.max_heap_size < size) →
        msAllocate s size = (s, none) ∧ cdAllocate s size = (s, none)) ∧
      (¬ (size = 0 ∨ s.max_heap_size < size) →
        (has_enough_memory s size = true →
          (msAllocate s size).2 = some s.next_object_id ∧
          (msAllocate s size).1.heap = hinsert s.heap s.next_object_id
            { (HeapObject.mk3 s.next_object_id size false) with
                allocation_step := s.current_step } ∧
          (cdAllocate s size).2 = some s.next_object_id) ∧
        (has_enough_memory s size = false →
          (has_enough_memory (msCollect s).1 size = false →
            msAllocate s size = ((msCollect s).1, none)) ∧
          (has_enough_memory (msCollect s).1 size = true →
            (msAllocate s size).2 = some s.next_object_id) ∧
          (has_enough_memory (cdCollect s).1 size = false →
            cdAllocate s size = ((cdCollect s).1, none)) ∧
          (has_enough_memory (cdCollect s).1 size = true →
            (cdAllocate s size).2 = some s.next_object_id))) ∧
      (KeysBelow s.heap s.next_object_id →
        ∀ id : Nat, ((msAllocate s size).2 = some id ∨
            (cdAllocate s size).2 = some id) →
          hfind s.heap id = none) := by
  intro s size
  refine ⟨?_, ?_, ?_⟩
  · intro h
    exact ⟨msAllocate_invalid s size h, cdAllocate_invalid s size h⟩
  · intro h1
    constructor
    · intro h2
      rw [msAllocate_fast s size h1 h2, cdAllocate_fast s size h1 h2]
      exact ⟨rfl, rfl, rfl⟩
    · intro h2
      refine ⟨?_, ?_, ?_, ?_⟩
      · intro h3
        exact msAllocate_oom s size h1 h2 h3
      · intro h3
        rw [msAllocate_after_collect s size h1 h2 h3]
        rfl
      · intro h3
        exact cdAllocate_oom s size h1 h2 h3
      · intro h3
        rw [cdAllocate_after_collect s size h1 h2 h3]
        rfl
  · intro hkb id hid
    have hnext : id = s.next_object_id := by
      rcases hid with hid | hid
      · by_cases h1 : size = 0 ∨ s.max_heap_size < size
        · rw [msAllocate_invalid s size h1] at hid
          simp at hid
        · cases h2 : has_enough_memory s size with
          | true =>
            rw [msAllocate_fast s size h1 h2] at hid
            simpa using hid.symm
          | false =>
            cases h3 : has_enough_memory (msCollect s).1 size with
            | true =>
              rw [msAllocate_after_collect s size h1 h2 h3] at hid
              simpa using hid.symm
            | false =>
              rw [msAllocate_oom s size h1 h2 h3] at hid
              simp at hid
      · by_cases h1 : size = 0 ∨ s.max_heap_size < size
        · rw [cdAllocate_invalid s size h1] at hid
          simp at hid
        · cases h2 : has_enough_memory s size with
          | true =>
            rw [cdAllocate_fast s size h1 h2] at hid
            simpa using hid.symm
          | false =>
            cases h3 : has_enough_memory (cdCollect s).1 size with
            | true =>
              rw [cdAllocate_after_collect s size h1 h2 h3] at hid
              simpa using hid.symm
            | false =>
              rw [cdAllocate_oom s size h1 h2 h3] at hid
              simp at hid
    rw [hnext]
    exact hfind_of_keysBelow s.heap s.next_object_id hkb

/-- Witness for C7 at a concrete input: allocating size 0 on the demo
state fails without mutation, and a successful allocation on the empty
demo heap returns the fresh id 0. -/
theorem C7_allocate_contract_witness :
    (msAllocate gcDemo 0 = (gcDemo, none) ∧
      cdAllocate gcDemo 0 = (gcDemo, none)) ∧
    (msAllocate gcDemo 8).2 = some 0 :=
  ⟨(C7_allocate_contract gcDemo 0).1 (Or.inl rfl),
    (((C7_allocate_contract gcDemo 8).2.1 (by decide)).1 (by decide)).1⟩

theorem mem_hkeys_of_hfind (h : Heap) (a : Nat) (o : HeapObject)
    (hf : hfind h a = some o) : a ∈ hkeys h := by
  induction h with
  | nil => simp [hfind] at hf
  | cons p t ih =>
    obtain ⟨k, o'⟩ := p
    by_cases hk : k = a
    · subst hk
      simp [hkeys]
    · simp only [hfind, if_neg hk] at hf
      simp only [hkeys, List.map_cons, List.mem_cons]
      exact Or.inr (ih hf)

theorem hfind_of_mem_hkeys (h : Heap) (a : Nat) (ha : a ∈ hkeys h) :
    ∃ o, hfind h a = some o := by
  induction h with
  | nil => simp [hkeys] at ha
  | cons p t ih =>
    obtain ⟨k, o'⟩ := p
    by_cases hk : k = a
    · subst hk
      exact ⟨o', by simp [hfind]⟩
    · simp only [hkeys, List.map_cons, List.mem_cons] at ha
      rcases ha with ha | ha
      · exact absurd ha.symm hk
      · obtain ⟨o, ho⟩ := ih ha
        exact ⟨o, by simp only [hfind, if_neg hk]; exact ho⟩

theorem aliveB_mem_hkeys (h : Heap) (a : Nat) (ha : aliveB h a = true) :
    a ∈ hkeys h := by
  revert ha
  unfold aliveB
  cases hf : hfind h a with
  | none => intro hcon; simp at hcon
  | some o => exact fun _ => mem_hkeys_of_hfind h a o hf

theorem rootB_mem_hkeys (h : Heap) (a : Nat) (ha : rootB h a = true) :
    a ∈ hkeys h := by
  revert ha
  unfold rootB
  cases hf : hfind h a with
  | none => intro hcon; simp at hcon
  | some o => exact fun _ => mem_hkeys_of_hfind h a o hf

theorem hkeys_hmodify (h : Heap) (i : Nat) (f : HeapObject → HeapObject) :
    hkeys (hmodify h i f) = hkeys h := by
  induction h with
  | nil => rfl
  | cons p t ih =>
    obtain ⟨k, o⟩ := p
    by_cases hk : k = i
    · subst hk
      simp [hmodify, hkeys]
    · rw [hmodify_of_ne t k i o f hk]
      simp only [hkeys, List.map_cons] at ih ⊢
      rw [ih]

theorem outL_hmodify_keepOut (h : Heap) (i : Nat)
    (f : HeapObject → HeapObject)
    (hf : ∀ o : HeapObject, (f o).outgoing_references = o.outgoing_references)
    (j : Nat) : outL (hmodify h i f) j = outL h j := by
  by_cases hij : i = j
  · subst hij
    cases hfo : hfind h i with
    | none => rw [hmodify_not_found h i f hfo]
    | some o =>
      unfold outL
      rw [hfind_hmodify_self h i o f hfo, hfo]
      exact hf o
  · unfold outL
    rw [hfind_hmodify_ne h i j f hij]

theorem inL_hmodify_keepIn (h : Heap) (i : Nat)
    (f : HeapObject → HeapObject)
    (hf : ∀ o : HeapObject, (f o).incoming_references = o.incoming_references)
    (j : Nat) : inL (hmodify h i f) j = inL h j := by
  by_cases hij : i = j
  · subst hij
    cases hfo : hfind h i with
    | none => rw [hmodify_not_found h i f hfo]
    | some o =>
      unfold inL
      rw [hfind_hmodify_self h i o f hfo, hfo]
      exact hf o
  · unfold inL
    rw [hfind_hmodify_ne h i j f hij]

theorem rootB_hmodify_keepRoot (h : Heap) (i : Nat)
    (f : HeapObject → HeapObject)
    (hf : ∀ o : HeapObject, (f o).is_root = o.is_root)
    (j : Nat) : rootB (hmodify h i f) j = rootB h j := by
  by_cases hij : i = j
  · subst hij
    cases hfo : hfind h i with
    | none => rw [hmodify_not_found h i f hfo]
    | some o =>
      unfold rootB
      rw [hfind_hmodify_self h i o f hfo, hfo]
      exact hf o
  · unfold rootB
    rw [hfind_hmodify_ne h i j f hij]

theorem markedB_hmodify_keepMark (h : Heap) (i : Nat)
    (f : HeapObject → HeapObject)
    (hf : ∀ o : HeapObject, (f o).is_marked = o.is_marked)
    (j : Nat) : markedB (hmodify h i f) j = markedB h j := by
  by_cases hij : i = j
  · subst hij
    cases hfo : hfind h i with
    | none => rw [hmodify_not_found h i f hfo]
    | some o =>
      unfold markedB
      rw [hfind_hmodify_self h i o f hfo, hfo]
      exact hf o
  · unfold markedB
    rw [hfind_hmodify_ne h i j f hij]

theorem outL_hmodify_self_rmTo (h : Heap) (i target : Nat) (o : HeapObject)
    (hfo : hfind h i = some o) :
    outL (hmodify h i (fun o => o.remove_reference_to target)) i =
      eraseRef target (outL h i) := by
  unfold outL
  rw [hfind_hmodify_self h i o _ hfo, hfo]
  rfl

theorem inL_hmodify_self_rmFrom (h : Heap) (i source : Nat) (o : HeapObject)
    (hfo : hfind h i = some o) :
    inL (hmodify h i (fun o => o.remove_reference_from source)) i =
      eraseRef source (inL h i) := by
  unfold inL
  rw [hfind_hmodify_self h i o _ hfo, hfo]
  rfl

theorem eraseRef_idem (x : Nat) (l : List Nat) :
    eraseRef x (eraseRef x l) = eraseRef x l := by
  unfold eraseRef
  rw [List.filter_filter]
  simp

theorem mem_eraseRef (x y : Nat) (l : List Nat) :
    y ∈ eraseRef x l ↔ y ∈ l ∧ y ≠ x := by
  unfold eraseRef
  simp [List.mem_filter]

theorem inL_sweepDetachIncoming (h : Heap) (i : Nat) (srcs : List Nat)
    (x : Nat) : inL (sweepDetachIncoming h i srcs) x = inL h x := by
  induction srcs generalizing h with
  | nil => simp [sweepDetachIncoming]
  | cons s ss ih =>
    by_cases hc : aliveB h s = true
    · simp only [sweepDetachIncoming, hc, if_pos]
      rw [ih, inL_hmodify_keepIn h s (fun o => o.remove_reference_to i) (fun o => rfl)]
    · simp only [sweepDetachIncoming, hc]
      simp only [Bool.false_eq_true, if_false]
      exact ih h

theorem rootB_sweepDetachIncoming (h : Heap) (i : Nat) (srcs : List Nat)
    (x : Nat) : rootB (sweepDetachIncoming h i srcs) x = rootB h x := by
  induction srcs generalizing h with
  | nil => simp [sweepDetachIncoming]
  | cons s ss ih =>
    by_cases hc : aliveB h s = true
    · simp only [sweepDetachIncoming, hc, if_pos]
      rw [ih, rootB_hmodify_keepRoot h s (fun o => o.remove_reference_to i) (fun o => rfl)]
    · simp only [sweepDetachIncoming, hc]
      simp only [Bool.false_eq_true, if_false]
      exact ih h

theorem markedB_sweepDetachIncoming (h : Heap) (i : Nat) (srcs : List Nat)
    (x : Nat) : markedB (sweepDetachIncoming h i srcs) x = markedB h x := by
  induction srcs generalizing h with
  | nil => simp [sweepDetachIncoming]
  | cons s ss ih =>
    by_cases hc : aliveB h s = true
    · simp only [sweepDetachIncoming, hc, if_pos]
      rw [ih, markedB_hmodify_keepMark h s (fun o => o.remove_reference_to i) (fun o => rfl)]
    · simp only [sweepDetachIncoming, hc]
      simp only [Bool.false_eq_true, if_false]
      exact ih h

theorem hkeys_sweepDetachIncoming (h : Heap) (i : Nat) (srcs : List Nat) :
    hkeys (sweepDetachIncoming h i srcs) = hkeys h := by
  induction srcs generalizing h with
  | nil => simp [sweepDetachIncoming]
  | cons s ss ih =>
    by_cases hc : aliveB h s = true
    · simp only [sweepDetachIncoming, hc, if_pos]
      rw [ih, hkeys_hmodify]
    · simp only [sweepDetachIncoming, hc]
      simp only [Bool.false_eq_true, if_false]
      exact ih h

theorem outL_hmodify_ne_gen (h : Heap) (i j : Nat)
    (f : HeapObject → HeapObject) (hij : i ≠ j) :
    outL (hmodify h i f) j = outL h j := by
  unfold outL
  rw [hfind_hmodify_ne h i j f hij]

theorem inL_hmodify_ne_gen (h : Heap) (i j : Nat)
    (f : HeapObject → HeapObject) (hij : i ≠ j) :
    inL (hmodify h i f) j = inL h j := by
  unfold inL
  rw [hfind_hmodify_ne h i j f hij]

theorem outL_sweepDetachIncoming (h : Heap) (i : Nat) (srcs : List Nat)
    (x : Nat) :
    outL (sweepDetachIncoming h i srcs) x =
      if x ∈ srcs ∧ aliveB h x = true then eraseRef i (outL h x)
      else outL h x := by
  induction srcs generalizing h with
  | nil => simp [sweepDetachIncoming]
  | cons s ss ih =>
    by_cases hc : aliveB h s = true
    · simp only [sweepDetachIncoming, hc, if_pos]
      rw [ih]
      rw [aliveB_hmodify_keepAlive h s (fun o => o.remove_reference_to i) (fun o => rfl) x]
      by_cases hxs : x = s
      · subst hxs
        obtain ⟨o, ho⟩ := hfind_of_mem_hkeys h x (aliveB_mem_hkeys h x hc)
        rw [outL_hmodify_self_rmTo h x i o ho]
        by_cases hin : x ∈ ss
        · rw [if_pos ⟨hin, hc⟩, if_pos ⟨List.mem_cons_self _ _, hc⟩,
            eraseRef_idem]
        · rw [if_neg (by simp [hin]), if_pos ⟨List.mem_cons_self _ _, hc⟩]
      · rw [outL_hmodify_ne_gen h s x (fun o => o.remove_reference_to i) (fun he => hxs he.symm)]
        by_cases hin : x ∈ ss
        · by_cases hax : aliveB h x = true
          · rw [if_pos ⟨hin, hax⟩, if_pos ⟨List.mem_cons_of_mem _ hin, hax⟩]
          · rw [if_neg (by simp [hax]), if_neg (by simp [hax])]
        · have hns : x ∉ s :: ss := by
            simp [hxs, hin]
          rw [if_neg (by simp [hin]), if_neg (by simp [hns])]
    · simp only [sweepDetachIncoming, hc]
      simp only [Bool.false_eq_true, if_false]
      rw [ih]
      by_cases hxs : x = s
      · subst hxs
        rw [if_neg (by simp [hc]), if_neg (by simp [hc])]
      · by_cases hin : x ∈ ss
        · by_cases hax : aliveB h x = true
          · rw [if_pos ⟨hin, hax⟩, if_pos ⟨List.mem_cons_of_mem _ hin, hax⟩]
          · rw [if_neg (by simp [hax]), if_neg (by simp [hax])]
        · have hns : x ∉ s :: ss := by
            simp [hxs, hin]
          rw [if_neg (by simp [hin]), if_neg (by simp [hns])]

theorem outL_sweepDetachOutgoing (h : Heap) (i : Nat) (tgts : List Nat)
    (x : Nat) : outL (sweepDetachOutgoing h i tgts) x = outL h x := by
  induction tgts generalizing h with
  | nil => simp [sweepDetachOutgoing]
  | cons t ts ih =>
    by_cases hc : aliveB h t = true
    · simp only [sweepDetachOutgoing, hc, if_pos]
      rw [ih, outL_hmodify_keepOut h t (fun o => o.remove_reference_from i)
        (fun o => rfl)]
    · simp only [sweepDetachOutgoing, hc]
      simp only [Bool.false_eq_true, if_false]
      exact ih h

theorem rootB_sweepDetachOutgoing (h : Heap) (i : Nat) (tgts : List Nat)
    (x : Nat) : rootB (sweepDetachOutgoing h i tgts) x = rootB h x := by
  induction tgts generalizing h with
  | nil => simp [sweepDetachOutgoing]
  | cons t ts ih =>
    by_cases hc : aliveB h t = true
    · simp only [sweepDetachOutgoing, hc, if_pos]
      rw [ih, rootB_hmodify_keepRoot h t (fun o => o.remove_reference_from i)
        (fun o => rfl)]
    · simp only [sweepDetachOutgoing, hc]
      simp only [Bool.false_eq_true, if_false]
      exact ih h

theorem markedB_sweepDetachOutgoing (h : Heap) (i : Nat) (tgts : List Nat)
    (x : Nat) : markedB (sweepDetachOutgoing h i tgts) x = markedB h x := by
  induction tgts generalizing h with
  | nil => simp [sweepDetachOutgoing]
  | cons t ts ih =>
    by_cases hc : aliveB h t = true
    · simp only [sweepDetachOutgoing, hc, if_pos]
      rw [ih, markedB_hmodify_keepMark h t
        (fun o => o.remove_reference_from i) (fun o => rfl)]
    · simp only [sweepDetachOutgoing, hc]
      simp only [Bool.false_eq_true, if_false]
      exact ih h

theorem hkeys_sweepDetachOutgoing (h : Heap) (i : Nat) (tgts : List Nat) :
    hkeys (sweepDetachOutgoing h i tgts) = hkeys h := by
  induction tgts generalizing h with
  | nil => simp [sweepDetachOutgoing]
  | cons t ts ih =>
    by_cases hc : aliveB h t = true
    · simp only [sweepDetachOutgoing, hc, if_pos]
      rw [ih, hkeys_hmodify]
    · simp only [sweepDetachOutgoing, hc]
      simp only [Bool.false_eq_true, if_false]
      exact ih h

theorem inL_sweepDetachOutgoing (h : Heap) (i : Nat) (tgts : List Nat)
    (x : Nat) :
    inL (sweepDetachOutgoing h i tgts) x =
      if x ∈ tgts ∧ aliveB h x = true then eraseRef i (inL h x)
      else inL h x := by
  induction tgts generalizing h with
  | nil => simp [sweepDetachOutgoing]
  | cons t ts ih =>
    by_cases hc : aliveB h t = true
    · simp only [sweepDetachOutgoing, hc, if_pos]
      rw [ih]
      rw [aliveB_hmodify_keepAlive h t (fun o => o.remove_reference_from i)
        (fun o => rfl) x]
      by_cases hxs : x = t
      · subst hxs
        obtain ⟨o, ho⟩ := hfind_of_mem_hkeys h x (aliveB_mem_hkeys h x hc)
        rw [inL_hmodify_self_rmFrom h x i o ho]
        by_cases hin : x ∈ ts
        · rw [if_pos ⟨hin, hc⟩, if_pos ⟨List.mem_cons_self _ _, hc⟩,
            eraseRef_idem]
        · rw [if_neg (by simp [hin]), if_pos ⟨List.mem_cons_self _ _, hc⟩]
      · rw [inL_hmodify_ne_gen h t x (fun o => o.remove_reference_from i)
          (fun he => hxs he.symm)]
        by_cases hin : x ∈ ts
        · by_cases hax : aliveB h x = true
          · rw [if_pos ⟨hin, hax⟩, if_pos ⟨List.mem_cons_of_mem _ hin, hax⟩]
          · rw [if_neg (by simp [hax]), if_neg (by simp [hax])]
        · have hns : x ∉ t :: ts := by
            simp [hxs, hin]
          rw [if_neg (by simp [hin]), if_neg (by simp [hns])]
    · simp only [sweepDetachOutgoing, hc]
      simp only [Bool.false_eq_true, if_false]
      rw [ih]
      by_cases hxs : x = t
      · subst hxs
        rw [if_neg (by simp [hc]), if_neg (by simp [hc])]
      · by_cases hin : x ∈ ts
        · by_cases hax : aliveB h x = true
          · rw [if_pos ⟨hin, hax⟩, if_pos ⟨List.mem_cons_of_mem _ hin, hax⟩]
          · rw [if_neg (by simp [hax]), if_neg (by simp [hax])]
        · have hns : x ∉ t :: ts := by
            simp [hxs, hin]
          rw [if_neg (by simp [hin]), if_neg (by simp [hns])]

theorem cascadeDetach_heap_eq (h : Heap) (cur : Nat) (tgts : List Nat)
    (q : List Nat) :
    (cascadeDetachOutgoing h cur tgts q).1 = sweepDetachOutgoing h cur tgts := by
  induction tgts generalizing h q with
  | nil => simp [cascadeDetachOutgoing, sweepDetachOutgoing]
  | cons t ts ih =>
    by_cases hc : aliveB h t = true
    · simp only [cascadeDetachOutgoing, sweepDetachOutgoing, hc, if_pos]
      exact ih _ _
    · simp only [cascadeDetachOutgoing, sweepDetachOutgoing, hc]
      simp only [Bool.false_eq_true, if_false]
      exact ih h q

theorem sweepOne_heap_eq (step : Int) (h : Heap) (i : Nat) (o : HeapObject)
    (hfo : hfind h i = some o) :
    (sweepOne step h i).1 =
      hmodify (sweepDetachOutgoing (sweepDetachIncoming h i
          o.incoming_references) i
          (outL (sweepDetachIncoming h i o.incoming_references) i)) i
        (kill step) := by
  unfold sweepOne
  rw [hfo]

theorem aliveB_sweepOne (step : Int) (h : Heap) (i : Nat) (o : HeapObject)
    (hfo : hfind h i = some o) (x : Nat) :
    aliveB (sweepOne step h i).1 x =
      if x = i then false else aliveB h x := by
  rw [sweepOne_heap_eq step h i o hfo]
  by_cases hx : x = i
  · subst hx
    rw [if_pos rfl]
    have hpres : ∃ o2, hfind (sweepDetachOutgoing (sweepDetachIncoming h x
        o.incoming_references) x
        (outL (sweepDetachIncoming h x o.incoming_references) x)) x =
        some o2 := by
      apply hfind_of_mem_hkeys
      rw [hkeys_sweepDetachOutgoing, hkeys_sweepDetachIncoming]
      exact mem_hkeys_of_hfind h x o hfo
    obtain ⟨o2, ho2⟩ := hpres
    unfold aliveB
    rw [hfind_hmodify_self _ x o2 _ ho2]
    rfl
  · rw [if_neg hx]
    unfold aliveB
    rw [hfind_hmodify_ne _ i x _ (fun he => hx he.symm)]
    have h1 := aliveB_sweepDetachOutgoing (sweepDetachIncoming h i
      o.incoming_references) i
      (outL (sweepDetachIncoming h i o.incoming_references) i) x
    have h2 := aliveB_sweepDetachIncoming h i o.incoming_references x
    unfold aliveB at h1 h2
    rw [h1, h2]

theorem rootB_sweepOne (step : Int) (h : Heap) (i : Nat) (o : HeapObject)
    (hfo : hfind h i = some o) (x : Nat) :
    rootB (sweepOne step h i).1 x = rootB h x := by
  rw [sweepOne_heap_eq step h i o hfo]
  rw [rootB_hmodify_keepRoot _ i (kill step) (fun o => rfl) x,
    rootB_sweepDetachOutgoing, rootB_sweepDetachIncoming]

theorem markedB_sweepOne (step : Int) (h : Heap) (i : Nat) (o : HeapObject)
    (hfo : hfind h i = some o) (x : Nat) :
    markedB (sweepOne step h i).1 x = markedB h x := by
  rw [sweepOne_heap_eq step h i o hfo]
  rw [markedB_hmodify_keepMark _ i (kill step) (fun o => rfl) x,
    markedB_sweepDetachOutgoing, markedB_sweepDetachIncoming]

theorem hkeys_sweepOne (step : Int) (h : Heap) (i : Nat) :
    hkeys (sweepOne step h i).1 = hkeys h := by
  unfold sweepOne
  cases hfo : hfind h i with
  | none => rfl
  | some o =>
    simp only
    rw [hkeys_hmodify, hkeys_sweepDetachOutgoing, hkeys_sweepDetachIncoming]

theorem cstepAt_sweepDetachIncoming (h : Heap) (i : Nat) (srcs : List Nat)
    (x : Nat) : cstepAt (sweepDetachIncoming h i srcs) x = cstepAt h x := by
  induction srcs generalizing h with
  | nil => simp [sweepDetachIncoming]
  | cons s ss ih =>
    by_cases hc : aliveB h s = true
    · simp only [sweepDetachIncoming, hc, if_pos]
      rw [ih]
      by_cases hsx : s = x
      · subst hsx
        cases hfo : hfind h s with
        | none => rw [hmodify_not_found h s _ hfo]
        | some o =>
          unfold cstepAt
          rw [hfind_hmodify_self h s o _ hfo, hfo]
          rfl
      · unfold cstepAt
        rw [hfind_hmodify_ne h s x _ hsx]
    · simp only [sweepDetachIncoming, hc]
      simp only [Bool.false_eq_true, if_false]
      exact ih h

theorem cstepAt_sweepDetachOutgoing (h : Heap) (i : Nat) (tgts : List Nat)
    (x : Nat) : cstepAt (sweepDetachOutgoing h i tgts) x = cstepAt h x := by
  induction tgts generalizing h with
  | nil => simp [sweepDetachOutgoing]
  | cons t ts ih =>
    by_cases hc : aliveB h t = true
    · simp only [sweepDetachOutgoing, hc, if_pos]
      rw [ih]
      by_cases htx : t = x
      · subst htx
        cases hfo : hfind h t with
        | none => rw [hmodify_not_found h t _ hfo]
        | some o =>
          unfold cstepAt
          rw [hfind_hmodify_self h t o _ hfo, hfo]
          rfl
      · unfold cstepAt
        rw [hfind_hmodify_ne h t x _ htx]
    · simp only [sweepDetachOutgoing, hc]
      simp only [Bool.false_eq_true, if_false]
      exact ih h

theorem cstepAt_sweepOne (step : Int) (h : Heap) (i : Nat) (o : HeapObject)
    (hfo : hfind h i = some o) (x : Nat) :
    cstepAt (sweepOne step h i).1 x =
      if x = i then step else cstepAt h x := by
  rw [sweepOne_heap_eq step h i o hfo]
  by_cases hx : x = i
  · subst hx
    rw [if_pos rfl]
    have hpres : ∃ o2, hfind (sweepDetachOutgoing (sweepDetachIncoming h x
        o.incoming_references) x
        (outL (sweepDetachIncoming h x o.incoming_references) x)) x =
        some o2 := by
      apply hfind_of_mem_hkeys
      rw [hkeys_sweepDetachOutgoing, hkeys_sweepDetachIncoming]
      exact mem_hkeys_of_hfind h x o hfo
    obtain ⟨o2, ho2⟩ := hpres
    unfold cstepAt
    rw [hfind_hmodify_self _ x o2 _ ho2]
    rfl
  · rw [if_neg hx]
    unfold cstepAt
    rw [hfind_hmodify_ne _ i x _ (fun he => hx he.symm)]
    have h1 := cstepAt_sweepDetachOutgoing (sweepDetachIncoming h i
      o.incoming_references) i
      (outL (sweepDetachIncoming h i o.incoming_references) i) x
    have h2 := cstepAt_sweepDetachIncoming h i o.incoming_references x
    unfold cstepAt at h1 h2
    rw [h1, h2]

theorem outL_sweepOne (step : Int) (h : Heap) (i : Nat) (o : HeapObject)
    (hfo : hfind h i = some o) (x : Nat) (hx : x ≠ i) :
    outL (sweepOne step h i).1 x =
      if x ∈ o.incoming_references ∧ aliveB h x = true
      then eraseRef i (outL h x) else outL h x := by
  rw [sweepOne_heap_eq step h i o hfo]
  rw [outL_hmodify_ne_gen _ i x (kill step) (fun he => hx he.symm)]
  rw [outL_sweepDetachOutgoing, outL_sweepDetachIncoming]

theorem inL_sweepOne (step : Int) (h : Heap) (i : Nat) (o : HeapObject)
    (hfo : hfind h i = some o) (x : Nat) (hx : x ≠ i) :
    inL (sweepOne step h i).1 x =
      if x ∈ outL (sweepDetachIncoming h i o.incoming_references) i ∧
          aliveB h x = true
      then eraseRef i (inL h x) else inL h x := by
  rw [sweepOne_heap_eq step h i o hfo]
  rw [inL_hmodify_ne_gen _ i x (kill step) (fun he => hx he.symm)]
  rw [inL_sweepDetachOutgoing]
  have ha := aliveB_sweepDetachIncoming h i o.incoming_references x
  have hi := inL_sweepDetachIncoming h i o.incoming_references x
  rw [ha, hi]

theorem sweepOne_preserves (step : Int) (h : Heap) (i : Nat) (o : HeapObject)
    (hfo : hfind h i = some o) (hroot : o.is_root = false)
    (hEA : EdgesAlive h) (hES : EdgesSym h) (hRA : RootsAlive h) :
    EdgesAlive (sweepOne step h i).1 ∧ EdgesSym (sweepOne step h i).1 ∧
    RootsAlive (sweepOne step h i).1 := by
  have hkeq : hkeys (sweepOne step h i).1 = hkeys h := hkeys_sweepOne step h i
  have haB : ∀ x, aliveB (sweepOne step h i).1 x =
      if x = i then false else aliveB h x := aliveB_sweepOne step h i o hfo
  have hout : ∀ x, x ≠ i → outL (sweepOne step h i).1 x =
      if x ∈ o.incoming_references ∧ aliveB h x = true
      then eraseRef i (outL h x) else outL h x :=
    fun x hx => outL_sweepOne step h i o hfo x hx
  have hin : ∀ x, x ≠ i → inL (sweepOne step h i).1 x =
      if x ∈ outL (sweepDetachIncoming h i o.incoming_references) i ∧
          aliveB h x = true
      then eraseRef i (inL h x) else inL h x :=
    fun x hx => inL_sweepOne step h i o hfo x hx
  have houtSub : ∀ x, x ≠ i → ∀ m ∈ outL (sweepOne step h i).1 x,
      m ∈ outL h x := by
    intro x hx m hm
    rw [hout x hx] at hm
    by_cases hc : x ∈ o.incoming_references ∧ aliveB h x = true
    · rw [if_pos hc] at hm
      exact ((mem_eraseRef i m (outL h x)).mp hm).1
    · rwa [if_neg hc] at hm
  have hinSub : ∀ x, x ≠ i → ∀ m ∈ inL (sweepOne step h i).1 x,
      m ∈ inL h x := by
    intro x hx m hm
    rw [hin x hx] at hm
    by_cases hc : x ∈ outL (sweepDetachIncoming h i o.incoming_references) i ∧
        aliveB h x = true
    · rw [if_pos hc] at hm
      exact ((mem_eraseRef i m (inL h x)).mp hm).1
    · rwa [if_neg hc] at hm
  have hiNotOut : ∀ x, x ≠ i → aliveB h x = true →
      i ∉ outL (sweepOne step h i).1 x := by
    intro x hx hax hmem
    rw [hout x hx] at hmem
    by_cases hc : x ∈ o.incoming_references ∧ aliveB h x = true
    · rw [if_pos hc] at hmem
      exact ((mem_eraseRef i i (outL h x)).mp hmem).2 rfl
    · rw [if_neg hc] at hmem
      have hxin : x ∈ inL h i :=
        (hES x (aliveB_mem_hkeys h x hax) hax).1 i hmem
      have : x ∈ o.incoming_references := by
        unfold inL at hxin
        rwa [hfo] at hxin
      exact hc ⟨this, hax⟩
  have hiNotIn : ∀ x, x ≠ i → aliveB h x = true →
      i ∉ inL (sweepOne step h i).1 x := by
    intro x hx hax hmem
    rw [hin x hx] at hmem
    by_cases hc : x ∈ outL (sweepDetachIncoming h i o.incoming_references) i ∧
        aliveB h x = true
    · rw [if_pos hc] at hmem
      exact ((mem_eraseRef i i (inL h x)).mp hmem).2 rfl
    · rw [if_neg hc] at hmem
      have hxout : x ∈ outL h i :=
        (hES x (aliveB_mem_hkeys h x hax) hax).2 i hmem
      have hx1 : x ∈ outL (sweepDetachIncoming h i o.incoming_references) i := by
        rw [outL_sweepDetachIncoming]
        by_cases hcc : i ∈ o.incoming_references ∧ aliveB h i = true
        · rw [if_pos hcc]
          exact (mem_eraseRef i x (outL h i)).mpr ⟨hxout, hx⟩
        · rwa [if_neg hcc]
      exact hc ⟨hx1, hax⟩
  refine ⟨?_, ?_, ?_⟩
  · intro a ha haa
    rw [hkeq] at ha
    have hane : a ≠ i := by
      intro he
      rw [haB a, if_pos he] at haa
      exact absurd haa (by simp)
    have haa' : aliveB h a = true := by
      rw [haB a, if_neg hane] at haa
      exact haa
    constructor
    · intro m hm
      have hmh : m ∈ outL h a := houtSub a hane m hm
      have hma : aliveB h m = true :=
        (hEA a (aliveB_mem_hkeys h a haa') haa').1 m hmh
      have hmne : m ≠ i := by
        intro he
        subst he
        exact hiNotOut a hane haa' hm
      rw [haB m, if_neg hmne]
      exact hma
    · intro m hm
      have hmh : m ∈ inL h a := hinSub a hane m hm
      have hma : aliveB h m = true :=
        (hEA a (aliveB_mem_hkeys h a haa') haa').2 m hmh
      have hmne : m ≠ i := by
        intro he
        subst he
        exact hiNotIn a hane haa' hm
      rw [haB m, if_neg hmne]
      exact hma
  · intro a ha haa
    rw [hkeq] at ha
    have hane : a ≠ i := by
      intro he
      rw [haB a, if_pos he] at haa
      exact absurd haa (by simp)
    have haa' : aliveB h a = true := by
      rw [haB a, if_neg hane] at haa
      exact haa
    constructor
    · intro b hb
      have hbh : b ∈ outL h a := houtSub a hane b hb
      have hbne : b ≠ i := by
        intro he
        subst he
        exact hiNotOut a hane haa' hb
      have hba : aliveB h b = true :=
        (hEA a (aliveB_mem_hkeys h a haa') haa').1 b hbh
      have hpre : a ∈ inL h b :=
        (hES a (aliveB_mem_hkeys h a haa') haa').1 b hbh
      rw [hin b hbne]
      by_cases hc : b ∈ outL (sweepDetachIncoming h i
          o.incoming_references) i ∧ aliveB h b = true
      · rw [if_pos hc]
        exact (mem_eraseRef i a (inL h b)).mpr ⟨hpre, hane⟩
      · rw [if_neg hc]
        exact hpre
    · intro b hb
      have hbh : b ∈ inL h a := hinSub a hane b hb
      have hbne : b ≠ i := by
        intro he
        subst he
        exact hiNotIn a hane haa' hb
      have hpre : a ∈ outL h b :=
        (hES a (aliveB_mem_hkeys h a haa') haa').2 b hbh
      rw [hout b hbne]
      by_cases hc : b ∈ o.incoming_references ∧ aliveB h b = true
      · rw [if_pos hc]
        exact (mem_eraseRef i a (outL h b)).mpr ⟨hpre, hane⟩
      · rw [if_neg hc]
        exact hpre
  · intro a ha har
    rw [hkeq] at ha
    have hrB : rootB (sweepOne step h i).1 a = rootB h a :=
      rootB_sweepOne step h i o hfo a
    rw [hrB] at har
    have hane : a ≠ i := by
      intro he
      subst he
      unfold rootB at har
      rw [hfo] at har
      have : o.is_root = true := har
      rw [hroot] at this
      exact absurd this (by simp)
    rw [haB a, if_neg hane]
    exact hRA a ha har

theorem sweepOne_absent (step : Int) (h : Heap) (i : Nat)
    (hfo : hfind h i = none) : (sweepOne step h i).1 = h := by
  unfold sweepOne
  rw [hfo]

theorem sweepAll_facts (step : Int) (l : List Nat) : ∀ (h : Heap) (acc : Nat),
    (∀ x ∈ l, rootB h x = false) → EdgesAlive h → EdgesSym h →
    RootsAlive h →
    EdgesAlive (sweepAll step h acc l).1 ∧
    EdgesSym (sweepAll step h acc l).1 ∧
    RootsAlive (sweepAll step h acc l).1 ∧
    hkeys (sweepAll step h acc l).1 = hkeys h ∧
    (∀ x, aliveB (sweepAll step h acc l).1 x =
      if x ∈ l then false else aliveB h x) ∧
    (∀ x, rootB (sweepAll step h acc l).1 x = rootB h x) ∧
    (∀ x, markedB (sweepAll step h acc l).1 x = markedB h x) ∧
    (∀ x, x ∈ l → x ∈ hkeys h → cstepAt (sweepAll step h acc l).1 x = step) ∧
    (∀ x, x ∉ l → cstepAt (sweepAll step h acc l).1 x = cstepAt h x) := by
  induction l with
  | nil =>
    intro h acc hroots hEA hES hRA
    refine ⟨hEA, hES, hRA, rfl, ?_, ?_, ?_, ?_, ?_⟩ <;> simp [sweepAll]
  | cons i rest ih =>
    intro h acc hroots hEA hES hRA
    show _ ∧ _
    have hstep : sweepAll step h acc (i :: rest) =
        sweepAll step (sweepOne step h i).1 (acc + (sweepOne step h i).2)
          rest := rfl
    cases hfo : hfind h i with
    | none =>
      have hone : (sweepOne step h i).1 = h := sweepOne_absent step h i hfo
      have := ih (sweepOne step h i).1 (acc + (sweepOne step h i).2)
        (by rw [hone]; exact fun x hx => hroots x (List.mem_cons_of_mem _ hx))
        (by rwa [hone]) (by rwa [hone]) (by rwa [hone])
      obtain ⟨hEA2, hES2, hRA2, hk2, hal2, hrt2, hmk2, hcs2, hcs2n⟩ := this
      rw [hstep]
      refine ⟨hEA2, hES2, hRA2, by rw [hk2, hone], ?_, ?_, ?_, ?_, ?_⟩
      · intro x
        rw [hal2 x, hone]
        by_cases hx : x ∈ rest
        · rw [if_pos hx, if_pos (List.mem_cons_of_mem _ hx)]
        · by_cases hxi : x = i
          · subst hxi
            rw [if_neg hx, if_pos (List.mem_cons_self _ _)]
            unfold aliveB
            rw [hfo]
          · rw [if_neg hx, if_neg (by simp [hxi, hx])]
      · intro x
        rw [hrt2 x, hone]
      · intro x
        rw [hmk2 x, hone]
      · intro x hx hk
        rcases List.mem_cons.mp hx with hxi | hxr
        · subst hxi
          obtain ⟨o, ho⟩ := hfind_of_mem_hkeys h x hk
          rw [ho] at hfo
          exact absurd hfo (by simp)
        · exact hcs2 x hxr (by rw [hone]; exact hk)
      · intro x hx
        have hxr : x ∉ rest := fun hc => hx (List.mem_cons_of_mem _ hc)
        rw [hcs2n x hxr, hone]
    | some o =>
      have hroot : o.is_root = false := by
        have := hroots i (List.mem_cons_self _ _)
        unfold rootB at this
        rwa [hfo] at this
      have hpres := sweepOne_preserves step h i o hfo hroot hEA hES hRA
      have hrtOne : ∀ x, rootB (sweepOne step h i).1 x = rootB h x :=
        rootB_sweepOne step h i o hfo
      have halOne : ∀ x, aliveB (sweepOne step h i).1 x =
          if x = i then false else aliveB h x := aliveB_sweepOne step h i o hfo
      have hmkOne : ∀ x, markedB (sweepOne step h i).1 x = markedB h x :=
        markedB_sweepOne step h i o hfo
      have hcsOne : ∀ x, cstepAt (sweepOne step h i).1 x =
          if x = i then step else cstepAt h x := cstepAt_sweepOne step h i o hfo
      have hkOne : hkeys (sweepOne step h i).1 = hkeys h :=
        hkeys_sweepOne step h i
      have := ih (sweepOne step h i).1 (acc + (sweepOne step h i).2)
        (fun x hx => by
          rw [hrtOne x]
          exact hroots x (List.mem_cons_of_mem _ hx))
        hpres.1 hpres.2.1 hpres.2.2
      obtain ⟨hEA2, hES2, hRA2, hk2, hal2, hrt2, hmk2, hcs2, hcs2n⟩ := this
      rw [hstep]
      refine ⟨hEA2, hES2, hRA2, by rw [hk2, hkOne], ?_, ?_, ?_, ?_, ?_⟩
      · intro x
        rw [hal2 x, halOne x]
        by_cases hx : x ∈ rest
        · rw [if_pos hx, if_pos (List.mem_cons_of_mem _ hx)]
        · by_cases hxi : x = i
          · subst hxi
            rw [if_neg hx, if_pos rfl, if_pos (List.mem_cons_self _ _)]
          · rw [if_neg hx, if_neg hxi, if_neg (by simp [hxi, hx])]
      · intro x
        rw [hrt2 x, hrtOne x]
      · intro x
        rw [hmk2 x, hmkOne x]
      · intro x hx hk
        rcases List.mem_cons.mp hx with hxi | hxr
        · subst hxi
          by_cases hxr2 : x ∈ rest
          · exact hcs2 x hxr2 (by rw [hkOne]; exact hk)
          · rw [hcs2n x hxr2, hcsOne x, if_pos rfl]
        · exact hcs2 x hxr (by rw [hkOne]; exact hk)
      · intro x hx
        have hxr : x ∉ rest := fun hc => hx (List.mem_cons_of_mem _ hc)
        have hxi : ¬ x = i := by
          intro hc
          subst hc
          exact hx (List.mem_cons_self _ _)
        rw [hcs2n x hxr, hcsOne x, if_neg hxi]

theorem dfsStack_keeps (h : Heap) (l : List Nat) :
    hkeys (dfsStack h l) = hkeys h ∧
    (∀ x, aliveB (dfsStack h l) x = aliveB h x) ∧
    (∀ x, rootB (dfsStack h l) x = rootB h x) ∧
    (∀ x, outL (dfsStack h l) x = outL h x) ∧
    (∀ x, inL (dfsStack h l) x = inL h x) ∧
    (∀ x, cstepAt (dfsStack h l) x = cstepAt h x) := by
  induction h, l using dfsStack.induct with
  | case1 h => simp [dfsStack]
  | case2 h i rest hf ih =>
    rw [dfsStack, hf]
    exact ih
  | case3 h i rest o hf ha hm ih =>
    rw [dfsStack, hf]
    simp only [dif_pos ha, if_pos hm]
    exact ih
  | case4 h i rest o hf ha hm ih =>
    rw [dfsStack, hf]
    simp only [dif_pos ha, if_neg hm]
    obtain ⟨k1, a1, r1, o1, i1, c1⟩ := ih
    refine ⟨by rw [k1, hkeys_hmodify], ?_, ?_, ?_, ?_, ?_⟩
    · intro x
      rw [a1 x, aliveB_hmodify_keepAlive h i setMark (fun o => rfl) x]
    · intro x
      rw [r1 x, rootB_hmodify_keepRoot h i setMark (fun o => rfl) x]
    · intro x
      rw [o1 x, outL_hmodify_keepOut h i setMark (fun o => rfl) x]
    · intro x
      rw [i1 x, inL_hmodify_keepIn h i setMark (fun o => rfl) x]
    · intro x
      rw [c1 x]
      by_cases hix : i = x
      · subst hix
        unfold cstepAt
        rw [hfind_hmodify_self h i o setMark hf, hf]
        rfl
      · unfold cstepAt
        rw [hfind_hmodify_ne h i x setMark hix]
  | case5 h i rest o hf ha ih =>
    rw [dfsStack, hf]
    simp only [dif_neg ha]
    exact ih

theorem hfind_unmarkAll (h : Heap) (i : Nat) :
    hfind (unmarkAll h) i = (hfind h i).map HeapObject.unmark := by
  induction h with
  | nil => rfl
  | cons p t ih =>
    obtain ⟨k, o⟩ := p
    by_cases hk : k = i
    · subst hk
      simp [unmarkAll, hfind]
    · simp only [unmarkAll, List.map_cons, hfind, if_neg hk] at ih ⊢
      exact ih

theorem unmarkAll_keeps (h : Heap) :
    hkeys (unmarkAll h) = hkeys h ∧
    (∀ x, aliveB (unmarkAll h) x = aliveB h x) ∧
    (∀ x, rootB (unmarkAll h) x = rootB h x) ∧
    (∀ x, outL (unmarkAll h) x = outL h x) ∧
    (∀ x, inL (unmarkAll h) x = inL h x) ∧
    (∀ x, cstepAt (unmarkAll h) x = cstepAt h x) ∧
    (∀ x, markedB (unmarkAll h) x = false) := by
  refine ⟨?_, ?_, ?_, ?_, ?_, ?_, ?_⟩
  · unfold unmarkAll hkeys
    rw [List.map_map]
    rfl
  all_goals
    intro x
    simp only [aliveB, rootB, outL, inL, cstepAt, markedB, hfind_unmarkAll]
    cases hfind h x <;> rfl

theorem mark_phase_keeps (h : Heap) :
    hkeys (mark_phase h) = hkeys h ∧
    (∀ x, aliveB (mark_phase h) x = aliveB h x) ∧
    (∀ x, rootB (mark_phase h) x = rootB h x) ∧
    (∀ x, outL (mark_phase h) x = outL h x) ∧
    (∀ x, inL (mark_phase h) x = inL h x) ∧
    (∀ x, cstepAt (mark_phase h) x = cstepAt h x) := by
  unfold mark_phase
  obtain ⟨k1, a1, r1, o1, i1, c1⟩ :=
    dfsStack_keeps (unmarkAll h) (get_root_objects (unmarkAll h))
  obtain ⟨k2, a2, r2, o2, i2, c2, m2⟩ := unmarkAll_keeps h
  exact ⟨by rw [k1, k2],
    fun x => by rw [a1 x, a2 x],
    fun x => by rw [r1 x, r2 x],
    fun x => by rw [o1 x, o2 x],
    fun x => by rw [i1 x, i2 x],
    fun x => by rw [c1 x, c2 x]⟩

theorem edgesAlive_of_projEq (h h' : Heap) (hk : hkeys h' = hkeys h)
    (ha : ∀ x, aliveB h' x = aliveB h x) (ho : ∀ x, outL h' x = outL h x)
    (hi : ∀ x, inL h' x = inL h x) (hEA : EdgesAlive h) : EdgesAlive h' := by
  intro a hain haa
  rw [hk] at hain
  rw [ha a] at haa
  obtain ⟨h1, h2⟩ := hEA a hain haa
  constructor
  · intro m hm
    rw [ho a] at hm
    rw [ha m]
    exact h1 m hm
  · intro m hm
    rw [hi a] at hm
    rw [ha m]
    exact h2 m hm

theorem edgesSym_of_projEq (h h' : Heap) (hk : hkeys h' = hkeys h)
    (ha : ∀ x, aliveB h' x = aliveB h x) (ho : ∀ x, outL h' x = outL h x)
    (hi : ∀ x, inL h' x = inL h x) (hES : EdgesSym h) : EdgesSym h' := by
  intro a hain haa
  rw [hk] at hain
  rw [ha a] at haa
  obtain ⟨h1, h2⟩ := hES a hain haa
  constructor
  · intro b hb
    rw [ho a] at hb
    rw [hi b]
    exact h1 b hb
  · intro b hb
    rw [hi a] at hb
    rw [ho b]
    exact h2 b hb

theorem rootsAlive_of_projEq (h h' : Heap) (hk : hkeys h' = hkeys h)
    (ha : ∀ x, aliveB h' x = aliveB h x) (hr : ∀ x, rootB h' x = rootB h x)
    (hRA : RootsAlive h) : RootsAlive h' := by
  intro a hain har
  rw [hk] at hain
  rw [hr a] at har
  rw [ha a]
  exact hRA a hain har

theorem mem_filterKeys (h : Heap) (P : Nat × HeapObject → Bool) (x : Nat)
    (hnd : (hkeys h).Nodup) :
    x ∈ (h.filter P).map (fun p => p.1) ↔
      ∃ o, hfind h x = some o ∧ P (x, o) = true := by
  induction h with
  | nil => simp [hfind]
  | cons p t ih =>
    obtain ⟨k, o'⟩ := p
    have hnd' : (hkeys t).Nodup := (List.nodup_cons.mp hnd).2
    have hknot : k ∉ hkeys t := (List.nodup_cons.mp hnd).1
    by_cases hk : k = x
    · subst hk
      simp only [hfind, if_pos rfl, List.filter_cons]
      constructor
      · intro hmem
        by_cases hp : P (k, o') = true
        · exact ⟨o', rfl, hp⟩
        · rw [if_neg (by simpa using hp)] at hmem
          have : k ∈ hkeys t := by
            rcases List.mem_map.mp hmem with ⟨q, hq, hq2⟩
            rw [← hq2]
            exact List.mem_map.mpr ⟨q, List.mem_of_mem_filter hq, rfl⟩
          exact absurd this hknot
      · rintro ⟨o, ho, hp⟩
        have ho' : o = o' := by
          injection ho with he
          exact he.symm
        subst ho'
        rw [if_pos (by simpa using hp)]
        simp
    · simp only [hfind, if_neg hk, List.filter_cons]
      by_cases hp : P (k, o') = true
      · rw [if_pos (by simpa using hp)]
        simp only [List.map_cons, List.mem_cons]
        constructor
        · intro hmem
          rcases hmem with hmem | hmem
          · exact absurd hmem.symm hk
          · exact (ih hnd').mp hmem
        · intro hex
          exact Or.inr ((ih hnd').mpr hex)
      · rw [if_neg (by simpa using hp)]
        exact ih hnd'

theorem sweepTargets_mem (h : Heap) (hnd : (hkeys h).Nodup) (x : Nat) :
    x ∈ sweepTargets h ↔
      markedB h x = false ∧ rootB h x = false ∧ aliveB h x = true := by
  unfold sweepTargets
  rw [mem_filterKeys h _ x hnd]
  constructor
  · rintro ⟨o, ho, hp⟩
    simp only [Bool.and_eq_true, Bool.not_eq_true'] at hp
    simp only [markedB, rootB, aliveB]
    rw [ho]
    exact ⟨hp.1.1, hp.1.2, hp.2⟩
  · rintro ⟨hm, hr, ha⟩
    obtain ⟨o, ho⟩ := hfind_of_mem_hkeys h x (aliveB_mem_hkeys h x ha)
    simp only [markedB, rootB, aliveB, ho] at hm hr ha
    refine ⟨o, ho, ?_⟩
    simp only [Bool.and_eq_true, Bool.not_eq_true']
    exact ⟨⟨hm, hr⟩, ha⟩

theorem msCollect_heap_eq (s : GCState) :
    (msCollect s).1.heap =
      (sweepAll s.current_step (mark_phase s.heap) 0
        (sweepTargets (mark_phase s.heap))).1 := rfl

theorem msCollect_facts (s : GCState) (hnd : (hkeys s.heap).Nodup)
    (hEA : EdgesAlive s.heap) (hES : EdgesSym s.heap)
    (hRA : RootsAlive s.heap) :
    EdgesAlive (msCollect s).1.heap ∧ EdgesSym (msCollect s).1.heap ∧
    RootsAlive (msCollect s).1.heap ∧
    hkeys (msCollect s).1.heap = hkeys s.heap ∧
    (∀ x, aliveB (msCollect s).1.heap x =
      if x ∈ sweepTargets (mark_phase s.heap) then false
      else aliveB s.heap x) ∧
    (∀ x, rootB (msCollect s).1.heap x = rootB s.heap x) ∧
    (∀ x, aliveB s.heap x = true → aliveB (msCollect s).1.heap x = false →
      cstepAt (msCollect s).1.heap x = s.current_step) := by
  obtain ⟨mk, ma, mr, mo, mi, mc⟩ := mark_phase_keeps s.heap
  have hnd1 : (hkeys (mark_phase s.heap)).Nodup := by rwa [mk]
  have hEA1 : EdgesAlive (mark_phase s.heap) :=
    edgesAlive_of_projEq s.heap _ mk ma mo mi hEA
  have hES1 : EdgesSym (mark_phase s.heap) :=
    edgesSym_of_projEq s.heap _ mk ma mo mi hES
  have hRA1 : RootsAlive (mark_phase s.heap) :=
    rootsAlive_of_projEq s.heap _ mk ma mr hRA
  have hroots : ∀ x ∈ sweepTargets (mark_phase s.heap),
      rootB (mark_phase s.heap) x = false := by
    intro x hx
    exact ((sweepTargets_mem (mark_phase s.heap) hnd1 x).mp hx).2.1
  obtain ⟨fEA, fES, fRA, fk, fal, frt, fmk, fcs, fcsn⟩ :=
    sweepAll_facts s.current_step (sweepTargets (mark_phase s.heap))
      (mark_phase s.heap) 0 hroots hEA1 hES1 hRA1
  rw [← msCollect_heap_eq] at fEA fES fRA fk fal frt fcs fcsn
  refine ⟨fEA, fES, fRA, by rw [fk, mk], ?_, ?_, ?_⟩
  · intro x
    rw [fal x, ma x]
  · intro x
    rw [frt x, mr x]
  · intro x hax hdead
    have hx : x ∈ sweepTargets (mark_phase s.heap) := by
      by_contra hnx
      rw [fal x, if_neg hnx, ma x] at hdead
      rw [hax] at hdead
      exact absurd hdead (by simp)
    have hkx : x ∈ hkeys (mark_phase s.heap) := by
      rw [mk]
      exact aliveB_mem_hkeys s.heap x hax
    exact fcs x hx hkx

theorem cascadeLoop_facts : ∀ (h : Heap) (q processed : List Nat)
    (step : Int) (freed killed : Nat),
    EdgesAlive h → EdgesSym h → RootsAlive h →
    EdgesAlive (cascadeLoop h q processed step freed killed).1 ∧
    EdgesSym (cascadeLoop h q processed step freed killed).1 ∧
    RootsAlive (cascadeLoop h q processed step freed killed).1 ∧
    hkeys (cascadeLoop h q processed step freed killed).1 = hkeys h ∧
    (∀ x, rootB (cascadeLoop h q processed step freed killed).1 x =
      rootB h x) ∧
    (∀ x, aliveB h x = false →
      aliveB (cascadeLoop h q processed step freed killed).1 x = false ∧
      cstepAt (cascadeLoop h q processed step freed killed).1 x =
        cstepAt h x) ∧
    (∀ x, aliveB h x = true →
      aliveB (cascadeLoop h q processed step freed killed).1 x = false →
      cstepAt (cascadeLoop h q processed step freed killed).1 x = step) := by
  intro h q processed step freed killed
  induction h, q, processed, step, freed, killed using cascadeLoop.induct with
  | case1 h pr st fr ki =>
    intro hEA hES hRA
    rw [cascadeLoop]
    exact ⟨hEA, hES, hRA, rfl, fun x => rfl,
      fun x hx => ⟨hx, rfl⟩, fun x hx hcon => absurd (hx ▸ hcon) (by simp)⟩
  | case2 h cur q pr st fr ki hmem ih =>
    intro hEA hES hRA
    rw [cascadeLoop]
    simp only [if_pos hmem]
    exact ih hEA hES hRA
  | case3 h cur q pr st fr ki hmem hfo ih =>
    intro hEA hES hRA
    rw [cascadeLoop]
    rw [if_neg hmem, hfo]
    exact ih hEA hES hRA
  | case4 h cur q pr st fr ki hmem o hfo hal hrt ih =>
    intro hEA hES hRA
    rw [cascadeLoop]
    rw [if_neg hmem, hfo]
    simp only [dif_pos hal, if_pos hrt]
    exact ih hEA hES hRA
  | case5 h cur q pr st fr ki hmem o hfo hal hrt h1 r ih =>
    intro hEA hES hRA
    rw [cascadeLoop]
    rw [if_neg hmem, hfo]
    simp only [dif_pos hal, if_neg hrt]
    have hEq2 : hmodify (cascadeDetachOutgoing (sweepDetachIncoming h cur
        o.incoming_references) cur (outL (sweepDetachIncoming h cur
        o.incoming_references) cur) q).1 cur (kill st) =
        (sweepOne st h cur).1 := by
      rw [cascadeDetach_heap_eq]
      exact (sweepOne_heap_eq st h cur o hfo).symm
    have hEq : hmodify r.1 cur (kill st) = (sweepOne st h cur).1 := hEq2
    rw [hEq] at ih
    rw [hEq2]
    have hroot : o.is_root = false := by
      cases hh : o.is_root
      · rfl
      · exact absurd hh hrt
    have hpres := sweepOne_preserves st h cur o hfo hroot hEA hES hRA
    have halOne : ∀ x, aliveB (sweepOne st h cur).1 x =
        if x = cur then false else aliveB h x := aliveB_sweepOne st h cur o hfo
    have hrtOne : ∀ x, rootB (sweepOne st h cur).1 x = rootB h x :=
      rootB_sweepOne st h cur o hfo
    have hcsOne : ∀ x, cstepAt (sweepOne st h cur).1 x =
        if x = cur then st else cstepAt h x := cstepAt_sweepOne st h cur o hfo
    have hkOne : hkeys (sweepOne st h cur).1 = hkeys h := hkeys_sweepOne st h cur
    obtain ⟨iEA, iES, iRA, ik, irt, idead, istamp⟩ :=
      ih hpres.1 hpres.2.1 hpres.2.2
    refine ⟨iEA, iES, iRA, by rw [ik, hkOne], ?_, ?_, ?_⟩
    · intro x
      rw [irt x, hrtOne x]
    · intro x hx
      have hxcur : ¬ x = cur := by
        intro he
        subst he
        unfold aliveB at hx
        rw [hfo] at hx
        have hfalse : o.is_alive = false := hx
        rw [hal] at hfalse
        exact absurd hfalse (by simp)
      have hx1 : aliveB (sweepOne st h cur).1 x = false := by
        rw [halOne x, if_neg hxcur]
        exact hx
      obtain ⟨ia, ic⟩ := idead x hx1
      refine ⟨ia, ?_⟩
      rw [ic, hcsOne x, if_neg hxcur]
    · intro x hx hdead
      by_cases hxcur : x = cur
      · subst hxcur
        have hx1 : aliveB (sweepOne st h x).1 x = false := by
          rw [halOne x, if_pos rfl]
        obtain ⟨ia, ic⟩ := idead x hx1
        rw [ic, hcsOne x, if_pos rfl]
      · have hx1 : aliveB (sweepOne st h cur).1 x = true := by
          rw [halOne x, if_neg hxcur]
          exact hx
        exact istamp x hx1 hdead
  | case6 h cur q pr st fr ki hmem o hfo hal ih =>
    intro hEA hES hRA
    rw [cascadeLoop]
    rw [if_neg hmem, hfo]
    simp only [dif_neg hal]
    exact ih hEA hES hRA

theorem cascade_delete_facts (h : Heap) (i : Nat) (step : Int)
    (hEA : EdgesAlive h) (hES : EdgesSym h) (hRA : RootsAlive h) :
    EdgesAlive (cascade_delete h i step).1 ∧
    EdgesSym (cascade_delete h i step).1 ∧
    RootsAlive (cascade_delete h i step).1 ∧
    hkeys (cascade_delete h i step).1 = hkeys h ∧
    (∀ x, rootB (cascade_delete h i step).1 x = rootB h x) ∧
    (∀ x, aliveB h x = false →
      aliveB (cascade_delete h i step).1 x = false ∧
      cstepAt (cascade_delete h i step).1 x = cstepAt h x) ∧
    (∀ x, aliveB h x = true →
      aliveB (cascade_delete h i step).1 x = false →
      cstepAt (cascade_delete h i step).1 x = step) := by
  unfold cascade_delete
  by_cases hc : aliveB h i = true
  · rw [if_pos hc]
    exact cascadeLoop_facts h [i] [] step 0 0 hEA hES hRA
  · rw [if_neg hc]
    exact ⟨hEA, hES, hRA, rfl, fun x => rfl, fun x hx => ⟨hx, rfl⟩,
      fun x hx hcon => absurd (hx ▸ hcon) (by simp)⟩

theorem cascadeEach_facts (step : Int) (l : List Nat) :
    ∀ (h : Heap) (freed killed : Nat),
    EdgesAlive h → EdgesSym h → RootsAlive h →
    EdgesAlive (cascadeEach step h freed killed l).1 ∧
    EdgesSym (cascadeEach step h freed killed l).1 ∧
    RootsAlive (cascadeEach step h freed killed l).1 ∧
    hkeys (cascadeEach step h freed killed l).1 = hkeys h ∧
    (∀ x, rootB (cascadeEach step h freed killed l).1 x = rootB h x) ∧
    (∀ x, aliveB h x = false →
      aliveB (cascadeEach step h freed killed l).1 x = false ∧
      cstepAt (cascadeEach step h freed killed l).1 x = cstepAt h x) ∧
    (∀ x, aliveB h x = true →
      aliveB (cascadeEach step h freed killed l).1 x = false →
      cstepAt (cascadeEach step h freed killed l).1 x = step) := by
  induction l with
  | nil =>
    intro h freed killed hEA hES hRA
    exact ⟨hEA, hES, hRA, rfl, fun x => rfl, fun x hx => ⟨hx, rfl⟩,
      fun x hx hcon => absurd (hx ▸ hcon) (by simp)⟩
  | cons i rest ih =>
    intro h freed killed hEA hES hRA
    show _ ∧ _
    by_cases hc : aliveB h i = true
    · have hstep : cascadeEach step h freed killed (i :: rest) =
          cascadeEach step (cascade_delete h i step).1
            (freed + (cascade_delete h i step).2.1)
            (killed + (cascade_delete h i step).2.2) rest := by
        rw [cascadeEach, if_pos hc]
      obtain ⟨dEA, dES, dRA, dk, drt, ddead, dstamp⟩ :=
        cascade_delete_facts h i step hEA hES hRA
      obtain ⟨eEA, eES, eRA, ek, ert, edead, estamp⟩ :=
        ih (cascade_delete h i step).1 (freed + (cascade_delete h i step).2.1)
          (killed + (cascade_delete h i step).2.2) dEA dES dRA
      rw [hstep]
      refine ⟨eEA, eES, eRA, by rw [ek, dk], ?_, ?_, ?_⟩
      · intro x
        rw [ert x, drt x]
      · intro x hx
        obtain ⟨da, dc⟩ := ddead x hx
        obtain ⟨ea, ec⟩ := edead x da
        exact ⟨ea, by rw [ec, dc]⟩
      · intro x hx hdead
        cases hmid : aliveB (cascade_delete h i step).1 x with
        | true => exact estamp x hmid hdead
        | false =>
          have hst := dstamp x hx hmid
          obtain ⟨_, ec⟩ := edead x hmid
          rw [ec, hst]
    · have hstep : cascadeEach step h freed killed (i :: rest) =
          cascadeEach step h freed killed rest := by
        rw [cascadeEach, if_neg hc]
      rw [hstep]
      exact ih h freed killed hEA hES hRA

theorem mem_insertRef (x y : Nat) (l : List Nat) :
    y ∈ insertRef x l ↔ y ∈ l ∨ y = x := by
  unfold insertRef
  split_ifs with h
  · constructor
    · exact Or.inl
    · intro hy
      rcases hy with hy | hy
      · exact hy
      · rwa [hy]
  · simp

theorem addRef_outL (h : Heap) (a b : Nat) (o : HeapObject)
    (ho : hfind h a = some o) (x : Nat) :
    outL (hmodify (hmodify h a (fun o => o.add_reference_to b)) b
      (fun o => o.add_reference_from a)) x =
    if x = a then insertRef b (outL h a) else outL h x := by
  rw [outL_hmodify_keepOut _ b (fun o => o.add_reference_from a)
    (fun o => rfl) x]
  by_cases hx : x = a
  · subst hx
    unfold outL
    rw [hfind_hmodify_self h x o _ ho, ho, if_pos rfl]
    rfl
  · rw [if_neg hx]
    exact outL_hmodify_ne_gen h a x _ (fun he => hx he.symm)

theorem addRef_inL (h : Heap) (a b : Nat) (ob : HeapObject)
    (hob : hfind h b = some ob) (x : Nat) :
    inL (hmodify (hmodify h a (fun o => o.add_reference_to b)) b
      (fun o => o.add_reference_from a)) x =
    if x = b then insertRef a (inL h b) else inL h x := by
  have h1 : ∀ y, inL (hmodify h a (fun o => o.add_reference_to b)) y =
      inL h y :=
    fun y => inL_hmodify_keepIn h a (fun o => o.add_reference_to b)
      (fun o => rfl) y
  by_cases hx : x = b
  · subst hx
    have hob1 : hfind (hmodify h a (fun o => o.add_reference_to x)) x =
        some (if a = x then ob.add_reference_to x else ob) := by
      by_cases hax : a = x
      · subst hax
        rw [if_pos rfl]
        exact hfind_hmodify_self h a ob _ hob
      · rw [if_neg hax, hfind_hmodify_ne h a x _ hax]
        exact hob
    unfold inL
    rw [hfind_hmodify_self _ x _ _ hob1, if_pos rfl]
    by_cases hax : a = x
    · subst hax
      rw [if_pos rfl, hob]
      rfl
    · rw [if_neg hax, hob]
      rfl
  · rw [if_neg hx]
    rw [inL_hmodify_ne_gen _ b x (fun o => o.add_reference_from a)
      (fun he => hx he.symm)]
    exact h1 x

theorem remRef_outL (h : Heap) (a b : Nat) (o : HeapObject)
    (ho : hfind h a = some o) (x : Nat) :
    outL (hmodify (hmodify h a (fun o => o.remove_reference_to b)) b
      (fun o => o.remove_reference_from a)) x =
    if x = a then eraseRef b (outL h a) else outL h x := by
  rw [outL_hmodify_keepOut _ b (fun o => o.remove_reference_from a)
    (fun o => rfl) x]
  by_cases hx : x = a
  · subst hx
    unfold outL
    rw [hfind_hmodify_self h x o _ ho, ho, if_pos rfl]
    rfl
  · rw [if_neg hx]
    exact outL_hmodify_ne_gen h a x _ (fun he => hx he.symm)

theorem remRef_inL (h : Heap) (a b : Nat) (ob : HeapObject)
    (hob : hfind h b = some ob) (x : Nat) :
    inL (hmodify (hmodify h a (fun o => o.remove_reference_to b)) b
      (fun o => o.remove_reference_from a)) x =
    if x = b then eraseRef a (inL h b) else inL h x := by
  have h1 : ∀ y, inL (hmodify h a (fun o => o.remove_reference_to b)) y =
      inL h y :=
    fun y => inL_hmodify_keepIn h a (fun o => o.remove_reference_to b)
      (fun o => rfl) y
  by_cases hx : x = b
  · subst hx
    have hob1 : hfind (hmodify h a (fun o => o.remove_reference_to x)) x =
        some (if a = x then ob.remove_reference_to x else ob) := by
      by_cases hax : a = x
      · subst hax
        rw [if_pos rfl]
        exact hfind_hmodify_self h a ob _ hob
      · rw [if_neg hax, hfind_hmodify_ne h a x _ hax]
        exact hob
    unfold inL
    rw [hfind_hmodify_self _ x _ _ hob1, if_pos rfl]
    by_cases hax : a = x
    · subst hax
      rw [if_pos rfl, hob]
      rfl
    · rw [if_neg hax, hob]
      rfl
  · rw [if_neg hx]
    rw [inL_hmodify_ne_gen _ b x (fun o => o.remove_reference_from a)
      (fun he => hx he.symm)]
    exact h1 x

theorem edgeMod_keeps (h : Heap) (a b : Nat)
    (f g : HeapObject → HeapObject)
    (hfa : ∀ o : HeapObject, (f o).is_alive = o.is_alive)
    (hfr : ∀ o : HeapObject, (f o).is_root = o.is_root)
    (hga : ∀ o : HeapObject, (g o).is_alive = o.is_alive)
    (hgr : ∀ o : HeapObject, (g o).is_root = o.is_root) :
    hkeys (hmodify (hmodify h a f) b g) = hkeys h ∧
    (∀ x, aliveB (hmodify (hmodify h a f) b g) x = aliveB h x) ∧
    (∀ x, rootB (hmodify (hmodify h a f) b g) x = rootB h x) := by
  refine ⟨by rw [hkeys_hmodify, hkeys_hmodify], ?_, ?_⟩
  · intro x
    rw [aliveB_hmodify_keepAlive _ b g hga x,
      aliveB_hmodify_keepAlive h a f hfa x]
  · intro x
    rw [rootB_hmodify_keepRoot _ b g hgr x,
      rootB_hmodify_keepRoot h a f hfr x]

theorem keysBelow_iff (h : Heap) (n : Nat) :
    KeysBelow h n ↔ ∀ k ∈ hkeys h, k < n := by
  unfold KeysBelow hkeys
  constructor
  · intro hp k hk
    rcases List.mem_map.mp hk with ⟨p, hp2, he⟩
    rw [← he]
    exact hp p hp2
  · intro hk p hp
    exact hk p.1 (List.mem_map.mpr ⟨p, hp, rfl⟩)

theorem aliveB_true_of_not_not (h : Heap) (a : Nat)
    (hna : ¬ ¬ aliveB h a = true) : aliveB h a = true := by
  cases hc : aliveB h a
  · exact absurd (by rw [hc]; simp) hna
  · rfl

theorem msAddReference_preserves (s : GCState) (a b : Nat)
    (hInv : GCInv s) : GCInv (msAddReference s a b).1 := by
  obtain ⟨hnd, hEA, hES, hRA, hKB⟩ := hInv
  unfold msAddReference
  split_ifs with g1 g2 g3
  all_goals try exact ⟨hnd, hEA, hES, hRA, hKB⟩
  · have ha : aliveB s.heap a = true := g1
    have hb : aliveB s.heap b = true := g2
    obtain ⟨o, ho⟩ := hfind_of_mem_hkeys s.heap a (aliveB_mem_hkeys _ a ha)
    obtain ⟨ob, hob⟩ := hfind_of_mem_hkeys s.heap b (aliveB_mem_hkeys _ b hb)
    obtain ⟨hk, hal, hrt⟩ := edgeMod_keeps s.heap a b
      (fun o => o.add_reference_to b) (fun o => o.add_reference_from a)
      (fun o => rfl) (fun o => rfl) (fun o => rfl) (fun o => rfl)
    have hout := addRef_outL s.heap a b o ho
    have hin := addRef_inL s.heap a b ob hob
    refine ⟨by simpa [hk] using hnd, ?_, ?_, ?_, ?_⟩
    · intro x hx hax
      rw [hk] at hx
      rw [hal x] at hax
      obtain ⟨e1, e2⟩ := hEA x hx hax
      constructor
      · intro m hm
        rw [hout x] at hm
        rw [hal m]
        by_cases hxa : x = a
        · rw [if_pos hxa] at hm
          rcases (mem_insertRef b m (outL s.heap a)).mp hm with hm | hm
          · subst hxa
            exact e1 m hm
          · rw [hm]
            exact hb
        · rw [if_neg hxa] at hm
          exact e1 m hm
      · intro m hm
        rw [hin x] at hm
        rw [hal m]
        by_cases hxb : x = b
        · rw [if_pos hxb] at hm
          rcases (mem_insertRef a m (inL s.heap b)).mp hm with hm | hm
          · subst hxb
            exact e2 m hm
          · rw [hm]
            exact ha
        · rw [if_neg hxb] at hm
          exact e2 m hm
    · intro x hx hax
      rw [hk] at hx
      rw [hal x] at hax
      obtain ⟨e1, e2⟩ := hES x hx hax
      constructor
      · intro m hm
        rw [hout x] at hm
        rw [hin m]
        by_cases hxa : x = a
        · subst hxa
          rw [if_pos rfl] at hm
          rcases (mem_insertRef b m (outL s.heap x)).mp hm with hm | hm
          · by_cases hmb : m = b
            · rw [if_pos hmb]
              exact (mem_insertRef x x (inL s.heap b)).mpr (Or.inr rfl)
            · rw [if_neg hmb]
              exact e1 m hm
          · rw [if_pos hm]
            exact (mem_insertRef x x (inL s.heap b)).mpr (Or.inr rfl)
        · rw [if_neg hxa] at hm
          by_cases hmb : m = b
          · rw [if_pos hmb]
            exact (mem_insertRef a x (inL s.heap b)).mpr
              (Or.inl (by rw [← hmb]; exact e1 m hm))
          · rw [if_neg hmb]
            exact e1 m hm
      · intro m hm
        rw [hin x] at hm
        rw [hout m]
        by_cases hxb : x = b
        · subst hxb
          rw [if_pos rfl] at hm
          rcases (mem_insertRef a m (inL s.heap x)).mp hm with hm | hm
          · by_cases hma : m = a
            · rw [if_pos hma]
              exact (mem_insertRef x x (outL s.heap a)).mpr (Or.inr rfl)
            · rw [if_neg hma]
              exact e2 m hm
          · rw [if_pos hm]
            exact (mem_insertRef x x (outL s.heap a)).mpr (Or.inr rfl)
        · rw [if_neg hxb] at hm
          by_cases hma : m = a
          · rw [if_pos hma]
            exact (mem_insertRef b x (outL s.heap a)).mpr
              (Or.inl (by rw [← hma]; exact e2 m hm))
          · rw [if_neg hma]
            exact e2 m hm
    · intro x hx hrx
      rw [hk] at hx
      rw [hrt x] at hrx
      rw [hal x]
      exact hRA x hx hrx
    · rw [keysBelow_iff] at hKB ⊢
      intro k hkm
      rw [hk] at hkm
      exact hKB k hkm

theorem msRemoveReference_preserves (s : GCState) (a b : Nat)
    (hInv : GCInv s) : GCInv (msRemoveReference s a b).1 := by
  obtain ⟨hnd, hEA, hES, hRA, hKB⟩ := hInv
  unfold msRemoveReference
  split_ifs with g1 g2 g3
  all_goals try exact ⟨hnd, hEA, hES, hRA, hKB⟩
  · have ha : aliveB s.heap a = true := g1
    have hb : aliveB s.heap b = true := g2
    obtain ⟨o, ho⟩ := hfind_of_mem_hkeys s.heap a (aliveB_mem_hkeys _ a ha)
    obtain ⟨ob, hob⟩ := hfind_of_mem_hkeys s.heap b (aliveB_mem_hkeys _ b hb)
    obtain ⟨hk, hal, hrt⟩ := edgeMod_keeps s.heap a b
      (fun o => o.remove_reference_to b) (fun o => o.remove_reference_from a)
      (fun o => rfl) (fun o => rfl) (fun o => rfl) (fun o => rfl)
    have hout := remRef_outL s.heap a b o ho
    have hin := remRef_inL s.heap a b ob hob
    refine ⟨by simpa [hk] using hnd, ?_, ?_, ?_, ?_⟩
    · intro x hx hax
      rw [hk] at hx
      rw [hal x] at hax
      obtain ⟨e1, e2⟩ := hEA x hx hax
      constructor
      · intro m hm
        rw [hout x] at hm
        rw [hal m]
        by_cases hxa : x = a
        · rw [if_pos hxa] at hm
          subst hxa
          exact e1 m ((mem_eraseRef b m (outL s.heap x)).mp hm).1
        · rw [if_neg hxa] at hm
          exact e1 m hm
      · intro m hm
        rw [hin x] at hm
        rw [hal m]
        by_cases hxb : x = b
        · rw [if_pos hxb] at hm
          subst hxb
          exact e2 m ((mem_eraseRef a m (inL s.heap x)).mp hm).1
        · rw [if_neg hxb] at hm
          exact e2 m hm
    · intro x hx hax
      rw [hk] at hx
      rw [hal x] at hax
      obtain ⟨e1, e2⟩ := hES x hx hax
      constructor
      · intro m hm
        rw [hout x] at hm
        rw [hin m]
        by_cases hxa : x = a
        · subst hxa
          rw [if_pos rfl] at hm
          obtain ⟨hm1, hm2⟩ := (mem_eraseRef b m (outL s.heap x)).mp hm
          rw [if_neg hm2]
          exact e1 m hm1
        · rw [if_neg hxa] at hm
          by_cases hmb : m = b
          · rw [if_pos hmb]
            refine (mem_eraseRef a x (inL s.heap b)).mpr ⟨?_, hxa⟩
            rw [← hmb]
            exact e1 m hm
          · rw [if_neg hmb]
            exact e1 m hm
      · intro m hm
        rw [hin x] at hm
        rw [hout m]
        by_cases hxb : x = b
        · subst hxb
          rw [if_pos rfl] at hm
          obtain ⟨hm1, hm2⟩ := (mem_eraseRef a m (inL s.heap x)).mp hm
          rw [if_neg hm2]
          exact e2 m hm1
        · rw [if_neg hxb] at hm
          by_cases hma : m = a
          · rw [if_pos hma]
            refine (mem_eraseRef b x (outL s.heap a)).mpr ⟨?_, hxb⟩
            rw [← hma]
            exact e2 m hm
          · rw [if_neg hma]
            exact e2 m hm
    · intro x hx hrx
      rw [hk] at hx
      rw [hrt x] at hrx
      rw [hal x]
      exact hRA x hx hrx
    · rw [keysBelow_iff] at hKB ⊢
      intro k hkm
      rw [hk] at hkm
      exact hKB k hkm

theorem msMakeRoot_preserves (s : GCState) (i : Nat) (hInv : GCInv s) :
    GCInv (msMakeRoot s i) := by
  obtain ⟨hnd, hEA, hES, hRA, hKB⟩ := hInv
  unfold msMakeRoot
  split_ifs with g1
  · obtain ⟨o, ho⟩ := hfind_of_mem_hkeys s.heap i (aliveB_mem_hkeys _ i g1)
    have hk : hkeys (hmodify s.heap i
        (fun o => { o with is_root := true })) = hkeys s.heap :=
      hkeys_hmodify _ _ _
    have hal : ∀ x, aliveB (hmodify s.heap i
        (fun o => { o with is_root := true })) x = aliveB s.heap x :=
      fun x => aliveB_hmodify_keepAlive s.heap i
        (fun o => { o with is_root := true }) (fun o => rfl) x
    have hol : ∀ x, outL (hmodify s.heap i
        (fun o => { o with is_root := true })) x = outL s.heap x :=
      fun x => outL_hmodify_keepOut s.heap i
        (fun o => { o with is_root := true }) (fun o => rfl) x
    have hil : ∀ x, inL (hmodify s.heap i
        (fun o => { o with is_root := true })) x = inL s.heap x :=
      fun x => inL_hmodify_keepIn s.heap i
        (fun o => { o with is_root := true }) (fun o => rfl) x
    refine ⟨by simpa [hk] using hnd, ?_, ?_, ?_, ?_⟩
    · exact edgesAlive_of_projEq s.heap _ hk hal hol hil hEA
    · exact edgesSym_of_projEq s.heap _ hk hal hol hil hES
    · intro x hx hrx
      rw [hk] at hx
      rw [hal x]
      by_cases hxi : x = i
      · subst hxi
        exact g1
      · unfold rootB at hrx
        rw [hfind_hmodify_ne s.heap i x _ (fun he => hxi he.symm)] at hrx
        exact hRA x hx hrx
    · rw [keysBelow_iff] at hKB ⊢
      intro k hkm
      rw [hk] at hkm
      exact hKB k hkm
  · exact ⟨hnd, hEA, hES, hRA, hKB⟩

theorem msRemoveRoot_preserves (s : GCState) (i : Nat) (hInv : GCInv s) :
    GCInv (msRemoveRoot s i) := by
  obtain ⟨hnd, hEA, hES, hRA, hKB⟩ := hInv
  unfold msRemoveRoot
  split_ifs with g1
  · obtain ⟨o, ho⟩ := hfind_of_mem_hkeys s.heap i (aliveB_mem_hkeys _ i g1)
    have hk : hkeys (hmodify s.heap i
        (fun o => { o with is_root := false })) = hkeys s.heap :=
      hkeys_hmodify _ _ _
    have hal : ∀ x, aliveB (hmodify s.heap i
        (fun o => { o with is_root := false })) x = aliveB s.heap x :=
      fun x => aliveB_hmodify_keepAlive s.heap i
        (fun o => { o with is_root := false }) (fun o => rfl) x
    have hol : ∀ x, outL (hmodify s.heap i
        (fun o => { o with is_root := false })) x = outL s.heap x :=
      fun x => outL_hmodify_keepOut s.heap i
        (fun o => { o with is_root := false }) (fun o => rfl) x
    have hil : ∀ x, inL (hmodify s.heap i
        (fun o => { o with is_root := false })) x = inL s.heap x :=
      fun x => inL_hmodify_keepIn s.heap i
        (fun o => { o with is_root := false }) (fun o => rfl) x
    refine ⟨by simpa [hk] using hnd, ?_, ?_, ?_, ?_⟩
    · exact edgesAlive_of_projEq s.heap _ hk hal hol hil hEA
    · exact edgesSym_of_projEq s.heap _ hk hal hol hil hES
    · intro x hx hrx
      rw [hk] at hx
      rw [hal x]
      by_cases hxi : x = i
      · subst hxi
        unfold rootB at hrx
        rw [hfind_hmodify_self s.heap x o _ ho] at hrx
        exact absurd hrx (by simp)
      · unfold rootB at hrx
        rw [hfind_hmodify_ne s.heap i x _ (fun he => hxi he.symm)] at hrx
        exact hRA x hx hrx
    · rw [keysBelow_iff] at hKB ⊢
      intro k hkm
      rw [hk] at hkm
      exact hKB k hkm
  · exact ⟨hnd, hEA, hES, hRA, hKB⟩

theorem gcInv_msCollect (s : GCState) (hInv : GCInv s) :
    GCInv (msCollect s).1 := by
  obtain ⟨hnd, hEA, hES, hRA, hKB⟩ := hInv
  obtain ⟨fEA, fES, fRA, fk, fal, frt, fcs⟩ :=
    msCollect_facts s hnd hEA hES hRA
  refine ⟨by simpa [fk] using hnd, fEA, fES, fRA, ?_⟩
  rw [keysBelow_iff] at hKB ⊢
  intro k hkm
  rw [fk] at hkm
  exact hKB k hkm

theorem cdCollect_heap_eq (s : GCState) :
    (cdCollect s).1.heap =
      (cascadeEach s.current_step s.heap 0 0 (collectOrphans s.heap)).1 := rfl

theorem gcInv_cdCollect (s : GCState) (hInv : GCInv s) :
    GCInv (cdCollect s).1 := by
  obtain ⟨hnd, hEA, hES, hRA, hKB⟩ := hInv
  obtain ⟨fEA, fES, fRA, fk, frt, fdead, fstamp⟩ :=
    cascadeEach_facts s.current_step (collectOrphans s.heap) s.heap 0 0
      hEA hES hRA
  rw [← cdCollect_heap_eq] at fEA fES fRA fk
  refine ⟨by simpa [fk] using hnd, fEA, fES, fRA, ?_⟩
  rw [keysBelow_iff] at hKB ⊢
  intro k hkm
  rw [fk] at hkm
  exact hKB k hkm

theorem hfind_hinsert_fresh (h : Heap) (i : Nat) (o : HeapObject)
    (hfr : hfind h i = none) (x : Nat) :
    hfind (hinsert h i o) x = if x = i then some o else hfind h x := by
  induction h with
  | nil =>
    unfold hinsert hfind
    simp only [List.nil_append]
    by_cases hx : x = i
    · subst hx
      simp [hfind]
    · rw [if_neg hx]
      have : ¬ i = x := fun he => hx he.symm
      simp [hfind, this]
  | cons p t ih =>
    obtain ⟨k, o'⟩ := p
    have hki : ¬ k = i := by
      intro he
      subst he
      simp [hfind] at hfr
    simp only [hfind, if_neg hki] at hfr
    show hfind ((k, o') :: (t ++ [(i, o)])) x = _
    by_cases hkx : k = x
    · subst hkx
      simp [hfind, hki]
    · simp only [hfind, if_neg hkx]
      exact ih hfr

theorem hkeys_hinsert (h : Heap) (i : Nat) (o : HeapObject) :
    hkeys (hinsert h i o) = hkeys h ++ [i] := by
  unfold hinsert hkeys
  rw [List.map_append]
  rfl

theorem gcInv_alloc_extend (s : GCState) (size : Nat)
    (hInv : GCInv s) :
    GCInv { s with
      heap := hinsert s.heap s.next_object_id
        { (HeapObject.mk3 s.next_object_id size false) with
            allocation_step := s.current_step },
      next_object_id := s.next_object_id + 1 } := by
  obtain ⟨hnd, hEA, hES, hRA, hKB⟩ := hInv
  have hfr : hfind s.heap s.next_object_id = none :=
    hfind_of_keysBelow s.heap s.next_object_id hKB
  have hf := hfind_hinsert_fresh s.heap s.next_object_id
    { (HeapObject.mk3 s.next_object_id size false) with
        allocation_step := s.current_step } hfr
  have hneK : s.next_object_id ∉ hkeys s.heap := by
    intro hmem
    obtain ⟨o, ho⟩ := hfind_of_mem_hkeys s.heap _ hmem
    rw [ho] at hfr
    exact absurd hfr (by simp)
  have halive : ∀ x, x ≠ s.next_object_id →
      aliveB (hinsert s.heap s.next_object_id
        { (HeapObject.mk3 s.next_object_id size false) with
            allocation_step := s.current_step }) x = aliveB s.heap x := by
    intro x hx
    unfold aliveB
    rw [hf x, if_neg hx]
  have hout : ∀ x, x ≠ s.next_object_id →
      outL (hinsert s.heap s.next_object_id
        { (HeapObject.mk3 s.next_object_id size false) with
            allocation_step := s.current_step }) x = outL s.heap x := by
    intro x hx
    unfold outL
    rw [hf x, if_neg hx]
  have hinn : ∀ x, x ≠ s.next_object_id →
      inL (hinsert s.heap s.next_object_id
        { (HeapObject.mk3 s.next_object_id size false) with
            allocation_step := s.current_step }) x = inL s.heap x := by
    intro x hx
    unfold inL
    rw [hf x, if_neg hx]
  have hkk := hkeys_hinsert s.heap s.next_object_id
    { (HeapObject.mk3 s.next_object_id size false) with
        allocation_step := s.current_step }
  refine ⟨?_, ?_, ?_, ?_, ?_⟩
  · show (hkeys (hinsert s.heap s.next_object_id _)).Nodup
    rw [hkk]
    exact List.Nodup.append hnd (List.nodup_singleton _)
      (by simpa using hneK)
  · intro a hain haa
    show _ ∧ _
    rw [hkk] at hain
    by_cases hane : a = s.next_object_id
    · have ho2 : outL (hinsert s.heap s.next_object_id
          { (HeapObject.mk3 s.next_object_id size false) with
              allocation_step := s.current_step }) a = [] := by
        unfold outL
        rw [hf a, if_pos hane]
        rfl
      rw [ho2]
      have hinn2 : inL (hinsert s.heap s.next_object_id
          { (HeapObject.mk3 s.next_object_id size false) with
              allocation_step := s.current_step }) a = [] := by
        unfold inL
        rw [hf a, if_pos hane]
        rfl
      rw [hinn2]
      exact ⟨fun m hm => absurd hm (List.not_mem_nil m),
        fun m hm => absurd hm (List.not_mem_nil m)⟩
    · rw [halive a hane] at haa
      have hain2 : a ∈ hkeys s.heap := by
        rcases List.mem_append.mp hain with hh | hh
        · exact hh
        · simp at hh
          exact absurd hh hane
      obtain ⟨e1, e2⟩ := hEA a hain2 haa
      rw [hout a hane, hinn a hane]
      constructor
      · intro m hm
        have hma := e1 m hm
        have hmne : m ≠ s.next_object_id := by
          intro he
          rw [he] at hma
          unfold aliveB at hma
          rw [hfr] at hma
          exact absurd hma (by simp)
        rw [halive m hmne]
        exact hma
      · intro m hm
        have hma := e2 m hm
        have hmne : m ≠ s.next_object_id := by
          intro he
          rw [he] at hma
          unfold aliveB at hma
          rw [hfr] at hma
          exact absurd hma (by simp)
        rw [halive m hmne]
        exact hma
  · intro a hain haa
    show _ ∧ _
    rw [hkk] at hain
    by_cases hane : a = s.next_object_id
    · have ho2 : outL (hinsert s.heap s.next_object_id
          { (HeapObject.mk3 s.next_object_id size false) with
              allocation_step := s.current_step }) a = [] := by
        unfold outL
        rw [hf a, if_pos hane]
        rfl
      have hi2 : inL (hinsert s.heap s.next_object_id
          { (HeapObject.mk3 s.next_object_id size false) with
              allocation_step := s.current_step }) a = [] := by
        unfold inL
        rw [hf a, if_pos hane]
        rfl
      rw [ho2, hi2]
      exact ⟨fun m hm => absurd hm (List.not_mem_nil m),
        fun m hm => absurd hm (List.not_mem_nil m)⟩
    · rw [halive a hane] at haa
      have hain2 : a ∈ hkeys s.heap := by
        rcases List.mem_append.mp hain with hh | hh
        · exact hh
        · simp at hh
          exact absurd hh hane
      obtain ⟨e1, e2⟩ := hES a hain2 haa
      obtain ⟨f1, f2⟩ := hEA a hain2 haa
      rw [hout a hane, hinn a hane]
      constructor
      · intro b hb
        have hba := f1 b hb
        have hbne : b ≠ s.next_object_id := by
          intro he
          rw [he] at hba
          unfold aliveB at hba
          rw [hfr] at hba
          exact absurd hba (by simp)
        rw [hinn b hbne]
        exact e1 b hb
      · intro b hb
        have hba := f2 b hb
        have hbne : b ≠ s.next_object_id := by
          intro he
          rw [he] at hba
          unfold aliveB at hba
          rw [hfr] at hba
          exact absurd hba (by simp)
        rw [hout b hbne]
        exact e2 b hb
  · intro a hain har
    rw [hkk] at hain
    by_cases hane : a = s.next_object_id
    · unfold rootB at har
      rw [hf a, if_pos hane] at har
      exact absurd har (by simp [HeapObject.mk3])
    · unfold rootB at har
      rw [hf a, if_neg hane] at har
      unfold aliveB
      rw [hf a, if_neg hane]
      have hain2 : a ∈ hkeys s.heap := by
        rcases List.mem_append.mp hain with hh | hh
        · exact hh
        · simp at hh
          exact absurd hh hane
      exact hRA a hain2 har
  · rw [keysBelow_iff] at hKB ⊢
    intro k hkm
    show k < s.next_object_id + 1
    rw [hkk] at hkm
    rcases List.mem_append.mp hkm with hh | hh
    · exact Nat.lt_succ_of_lt (hKB k hh)
    · simp at hh
      rw [hh]
      exact Nat.lt_succ_self _

theorem msAllocate_preserves (s : GCState) (size : Nat) (hInv : GCInv s) :
    GCInv (msAllocate s size).1 := by
  by_cases h1 : size = 0 ∨ s.max_heap_size < size
  · rw [msAllocate_invalid s size h1]
    exact hInv
  · cases h2 : has_enough_memory s size with
    | true =>
      rw [msAllocate_fast s size h1 h2]
      exact gcInv_alloc_extend s size hInv
    | false =>
      cases h3 : has_enough_memory (msCollect s).1 size with
      | true =>
        rw [msAllocate_after_collect s size h1 h2 h3]
        exact gcInv_alloc_extend (msCollect s).1 size (gcInv_msCollect s hInv)
      | false =>
        rw [msAllocate_oom s size h1 h2 h3]
        exact gcInv_msCollect s hInv

theorem cdAllocate_preserves (s : GCState) (size : Nat) (hInv : GCInv s) :
    GCInv (cdAllocate s size).1 := by
  by_cases h1 : size = 0 ∨ s.max_heap_size < size
  · rw [cdAllocate_invalid s size h1]
    exact hInv
  · cases h2 : has_enough_memory s size with
    | true =>
      rw [cdAllocate_fast s size h1 h2]
      exact gcInv_alloc_extend s size hInv
    | false =>
      cases h3 : has_enough_memory (cdCollect s).1 size with
      | true =>
        rw [cdAllocate_after_collect s size h1 h2 h3]
        exact gcInv_alloc_extend (cdCollect s).1 size (gcInv_cdCollect s hInv)
      | false =>
        rw [cdAllocate_oom s size h1 h2 h3]
        exact gcInv_cdCollect s hInv

theorem cdRemoveReference_preserves (s : GCState) (a b : Nat)
    (hInv : GCInv s) : GCInv (cdRemoveReference s a b).1 := by
  have hInv2 := msRemoveReference_preserves s a b hInv
  simp only [cdRemoveReference]
  simp only [msRemoveReference] at hInv2
  split_ifs with g1 g2 g3 g4
  all_goals try exact hInv
  · -- cascade branch: the bilateral removal then the cascade
    rw [if_neg (by simpa using g1), if_neg (by simpa using g2),
      if_neg (by simpa using g3)] at hInv2
    obtain ⟨hnd2, hEA2, hES2, hRA2, hKB2⟩ := hInv2
    obtain ⟨dEA, dES, dRA, dk, drt, ddead, dstamp⟩ :=
      cascade_delete_facts (hmodify (hmodify s.heap a
        (fun o => o.remove_reference_to b)) b
        (fun o => o.remove_reference_from a)) b s.current_step hEA2 hES2 hRA2
    refine ⟨?_, dEA, dES, dRA, ?_⟩
    · simpa [dk] using hnd2
    · rw [keysBelow_iff] at hKB2 ⊢
      intro k hkm
      rw [dk] at hkm
      exact hKB2 k hkm
  · -- no cascade: just the bilateral removal
    rw [if_neg (by simpa using g1), if_neg (by simpa using g2),
      if_neg (by simpa using g3)] at hInv2
    exact hInv2

theorem gcInv_setStep (s : GCState) (n : Int) (hInv : GCInv s) :
    GCInv (setCurrentStep s n) := hInv

theorem gcInv_msStep (s : GCState) (op : GCOp) (hInv : GCInv s) :
    GCInv (msStep s op) := by
  cases op with
  | alloc size => exact msAllocate_preserves s size hInv
  | addRef a b => exact msAddReference_preserves s a b hInv
  | remRef a b => exact msRemoveReference_preserves s a b hInv
  | mkRoot i => exact msMakeRoot_preserves s i hInv
  | rmRoot i => exact msRemoveRoot_preserves s i hInv
  | gc => exact gcInv_msCollect s hInv
  | setStep n => exact gcInv_setStep s n hInv

theorem gcInv_cdStep (s : GCState) (op : GCOp) (hInv : GCInv s) :
    GCInv (cdStep s op) := by
  cases op with
  | alloc size => exact cdAllocate_preserves s size hInv
  | addRef a b => exact msAddReference_preserves s a b hInv
  | remRef a b => exact cdRemoveReference_preserves s a b hInv
  | mkRoot i => exact msMakeRoot_preserves s i hInv
  | rmRoot i => exact msRemoveRoot_preserves s i hInv
  | gc => exact gcInv_cdCollect s hInv
  | setStep n => exact gcInv_setStep s n hInv

theorem gcInv_mkInit (m t : Nat) : GCInv (GCState.mkInit m t) := by
  refine ⟨List.nodup_nil, ?_, ?_, ?_, ?_⟩ <;>
    intro p hp <;> simp [GCState.mkInit, hkeys] at hp

theorem gcInv_msRun (m t : Nat) (ops : List GCOp) :
    GCInv (msRun (GCState.mkInit m t) ops) := by
  suffices hgen : ∀ (ops : List GCOp) (s : GCState), GCInv s →
      GCInv (msRun s ops) from hgen ops _ (gcInv_mkInit m t)
  intro ops
  induction ops with
  | nil => exact fun s h => h
  | cons op rest ih => exact fun s h => ih (msStep s op) (gcInv_msStep s op h)

theorem gcInv_cdRun (m t : Nat) (ops : List GCOp) :
    GCInv (cdRun (GCState.mkInit m t) ops) := by
  suffices hgen : ∀ (ops : List GCOp) (s : GCState), GCInv s →
      GCInv (cdRun s ops) from hgen ops _ (gcInv_mkInit m t)
  intro ops
  induction ops with
  | nil => exact fun s h => h
  | cons op rest ih => exact fun s h => ih (cdStep s op) (gcInv_cdStep s op h)

/-- Per-object duplicate-freedom of the two edge lists (they are std::set
in heap_object.h). -/
def GoodObj (o : HeapObject) : Prop :=
  o.outgoing_references.Nodup ∧ o.incoming_references.Nodup

/-- Every stored object's edge lists are duplicate-free. -/
def EdgesNodup (h : Heap) : Prop :=
  ∀ p ∈ h, GoodObj p.2

theorem insertRef_nodup (x : Nat) (l : List Nat) (hn : l.Nodup) :
    (insertRef x l).Nodup := by
  unfold insertRef
  split_ifs with hx
  · exact hn
  · rw [List.nodup_append]
    refine ⟨hn, List.nodup_singleton x, ?_⟩
    intro a ha hb
    simp at hb
    subst hb
    exact hx ha

theorem eraseRef_nodup (x : Nat) (l : List Nat) (hn : l.Nodup) :
    (eraseRef x l).Nodup := hn.filter _

theorem edgesNodup_hmodify (h : Heap) (i : Nat) (f : HeapObject → HeapObject)
    (hf : ∀ o : HeapObject, GoodObj o → GoodObj (f o))
    (hInv : EdgesNodup h) : EdgesNodup (hmodify h i f) := by
  induction h with
  | nil =>
    intro p hp
    simp [hmodify] at hp
  | cons p t ih =>
    obtain ⟨k, o⟩ := p
    by_cases hk : k = i
    · simp only [hmodify, if_pos hk]
      intro q hq
      rcases List.mem_cons.mp hq with hq1 | hq2
      · subst hq1
        exact hf o (hInv (k, o) (List.mem_cons_self _ _))
      · exact hInv q (List.mem_cons_of_mem _ hq2)
    · rw [hmodify_of_ne t k i o f hk]
      intro q hq
      rcases List.mem_cons.mp hq with hq1 | hq2
      · subst hq1
        exact hInv (k, o) (List.mem_cons_self _ _)
      · exact ih (fun r hr => hInv r (List.mem_cons_of_mem _ hr)) q hq2

theorem edgesNodup_hinsert (h : Heap) (i : Nat) (o : HeapObject)
    (hInv : EdgesNodup h) (hg : GoodObj o) : EdgesNodup (hinsert h i o) := by
  intro p hp
  rcases List.mem_append.mp hp with h1 | h2
  · exact hInv p h1
  · simp at h2
    subst h2
    exact hg

theorem edgesNodup_unmarkAll (h : Heap) (hInv : EdgesNodup h) :
    EdgesNodup (unmarkAll h) := by
  intro p hp
  obtain ⟨q, hq, hpq⟩ := List.mem_map.mp hp
  subst hpq
  exact hInv q hq

theorem edgesNodup_dfsStack (h : Heap) (l : List Nat)
    (hInv : EdgesNodup h) : EdgesNodup (dfsStack h l) := by
  induction h, l using dfsStack.induct with
  | case1 h => rw [dfsStack]; exact hInv
  | case2 h i rest hf ih =>
    rw [dfsStack, hf]
    exact ih hInv
  | case3 h i rest o hf ha hm ih =>
    rw [dfsStack, hf]
    simp only [dif_pos ha, if_pos hm]
    exact ih hInv
  | case4 h i rest o hf ha hm ih =>
    rw [dfsStack, hf]
    simp only [dif_pos ha, if_neg hm]
    exact ih (edgesNodup_hmodify h i setMark (fun o hg => hg) hInv)
  | case5 h i rest o hf ha ih =>
    rw [dfsStack, hf]
    simp only [dif_neg ha]
    exact ih hInv

theorem edgesNodup_mark_phase (h : Heap) (hInv : EdgesNodup h) :
    EdgesNodup (mark_phase h) :=
  edgesNodup_dfsStack _ _ (edgesNodup_unmarkAll h hInv)

theorem edgesNodup_sweepDetachIncoming (i : Nat) (ss : List Nat) :
    ∀ h : Heap, EdgesNodup h → EdgesNodup (sweepDetachIncoming h i ss) := by
  induction ss with
  | nil =>
    intro h hInv
    rw [sweepDetachIncoming]
    exact hInv
  | cons s ss ih =>
    intro h hInv
    rw [sweepDetachIncoming]
    split_ifs with g
    · exact ih _ (edgesNodup_hmodify h s _
        (fun o hg => ⟨eraseRef_nodup i _ hg.1, hg.2⟩) hInv)
    · exact ih _ hInv

theorem edgesNodup_sweepDetachOutgoing (i : Nat) (ts : List Nat) :
    ∀ h : Heap, EdgesNodup h → EdgesNodup (sweepDetachOutgoing h i ts) := by
  induction ts with
  | nil =>
    intro h hInv
    rw [sweepDetachOutgoing]
    exact hInv
  | cons t ts ih =>
    intro h hInv
    rw [sweepDetachOutgoing]
    split_ifs with g
    · exact ih _ (edgesNodup_hmodify h t _
        (fun o hg => ⟨hg.1, eraseRef_nodup i _ hg.2⟩) hInv)
    · exact ih _ hInv

theorem edgesNodup_sweepOne (step : Int) (h : Heap) (i : Nat)
    (hInv : EdgesNodup h) : EdgesNodup (sweepOne step h i).1 := by
  cases hfo : hfind h i with
  | none =>
    rw [sweepOne_absent step h i hfo]
    exact hInv
  | some o =>
    rw [sweepOne_heap_eq step h i o hfo]
    exact edgesNodup_hmodify _ i (kill step) (fun o hg => hg)
      (edgesNodup_sweepDetachOutgoing i _ _
        (edgesNodup_sweepDetachIncoming i _ h hInv))

theorem edgesNodup_sweepAll (step : Int) (l : List Nat) :
    ∀ (h : Heap) (acc : Nat), EdgesNodup h →
      EdgesNodup (sweepAll step h acc l).1 := by
  induction l with
  | nil =>
    intro h acc hInv
    rw [sweepAll]
    exact hInv
  | cons i rest ih =>
    intro h acc hInv
    rw [sweepAll]
    exact ih _ _ (edgesNodup_sweepOne step h i hInv)

theorem edgesNodup_msCollect (s : GCState) (hInv : EdgesNodup s.heap) :
    EdgesNodup ((msCollect s).1).heap := by
  show EdgesNodup (sweep_phase s.current_step (mark_phase s.heap)).1
  unfold sweep_phase
  exact edgesNodup_sweepAll _ _ _ _ (edgesNodup_mark_phase _ hInv)

theorem edgesNodup_cascadeLoop (h : Heap) (q processed : List Nat)
    (step : Int) (freed killed : Nat) (hInv : EdgesNodup h) :
    EdgesNodup (cascadeLoop h q processed step freed killed).1 := by
  induction h, q, processed, step, freed, killed using cascadeLoop.induct with
  | case1 h pr st fr ki =>
    rw [cascadeLoop]
    exact hInv
  | case2 h cur q pr st fr ki hmem ih =>
    rw [cascadeLoop]
    simp only [if_pos hmem]
    exact ih hInv
  | case3 h cur q pr st fr ki hmem hfo ih =>
    rw [cascadeLoop]
    rw [if_neg hmem, hfo]
    exact ih hInv
  | case4 h cur q pr st fr ki hmem o hfo hal hrt ih =>
    rw [cascadeLoop]
    rw [if_neg hmem, hfo]
    simp only [dif_pos hal, if_pos hrt]
    exact ih hInv
  | case5 h cur q pr st fr ki hmem o hfo hal hrt h1 r ih =>
    rw [cascadeLoop]
    rw [if_neg hmem, hfo]
    simp only [dif_pos hal, if_neg hrt]
    have hstep : EdgesNodup (hmodify r.1 cur (kill st)) := by
      apply edgesNodup_hmodify r.1 cur (kill st) (fun o hg => hg)
      rw [cascadeDetach_heap_eq]
      exact edgesNodup_sweepDetachOutgoing cur _ _
        (edgesNodup_sweepDetachIncoming cur _ h hInv)
    exact ih hstep
  | case6 h cur q pr st fr ki hmem o hfo hal ih =>
    rw [cascadeLoop]
    rw [if_neg hmem, hfo]
    simp only [dif_neg hal]
    exact ih hInv

theorem edgesNodup_cascade_delete (h : Heap) (i : Nat) (step : Int)
    (hInv : EdgesNodup h) : EdgesNodup (cascade_delete h i step).1 := by
  unfold cascade_delete
  split_ifs with g
  · exact edgesNodup_cascadeLoop h [i] [] step 0 0 hInv
  · exact hInv

theorem edgesNodup_cascadeEach (step : Int) (l : List Nat) :
    ∀ (h : Heap) (freed killed : Nat), EdgesNodup h →
      EdgesNodup (cascadeEach step h freed killed l).1 := by
  induction l with
  | nil =>
    intro h freed killed hInv
    rw [cascadeEach]
    exact hInv
  | cons i rest ih =>
    intro h freed killed hInv
    by_cases hc : aliveB h i = true
    · rw [cascadeEach, if_pos hc]
      exact ih _ _ _ (edgesNodup_cascade_delete h i step hInv)
    · rw [cascadeEach, if_neg hc]
      exact ih _ _ _ hInv

theorem edgesNodup_cdCollect (s : GCState) (hInv : EdgesNodup s.heap) :
    EdgesNodup ((cdCollect s).1).heap := by
  rw [cdCollect_heap_eq]
  exact edgesNodup_cascadeEach _ _ _ _ _ hInv

theorem goodObj_alloc (id size : Nat) (step : Int) :
    GoodObj { (HeapObject.mk3 id size false) with allocation_step := step } :=
  ⟨List.nodup_nil, List.nodup_nil⟩

theorem edgesNodup_msAllocate (s : GCState) (size : Nat)
    (hInv : EdgesNodup s.heap) : EdgesNodup ((msAllocate s size).1).heap := by
  by_cases h1 : size = 0 ∨ s.max_heap_size < size
  · rw [msAllocate_invalid s size h1]
    exact hInv
  · cases h2 : has_enough_memory s size with
    | true =>
      rw [msAllocate_fast s size h1 h2]
      exact edgesNodup_hinsert _ _ _ hInv (goodObj_alloc _ size s.current_step)
    | false =>
      cases h3 : has_enough_memory (msCollect s).1 size with
      | true =>
        rw [msAllocate_after_collect s size h1 h2 h3]
        exact edgesNodup_hinsert _ _ _ (edgesNodup_msCollect s hInv)
          (goodObj_alloc _ size (msCollect s).1.current_step)
      | false =>
        rw [msAllocate_oom s size h1 h2 h3]
        exact edgesNodup_msCollect s hInv

theorem edgesNodup_cdAllocate (s : GCState) (size : Nat)
    (hInv : EdgesNodup s.heap) : EdgesNodup ((cdAllocate s size).1).heap := by
  by_cases h1 : size = 0 ∨ s.max_heap_size < size
  · rw [cdAllocate_invalid s size h1]
    exact hInv
  · cases h2 : has_enough_memory s size with
    | true =>
      rw [cdAllocate_fast s size h1 h2]
      exact edgesNodup_hinsert _ _ _ hInv (goodObj_alloc _ size s.current_step)
    | false =>
      cases h3 : has_enough_memory (cdCollect s).1 size with
      | true =>
        rw [cdAllocate_after_collect s size h1 h2 h3]
        exact edgesNodup_hinsert _ _ _ (edgesNodup_cdCollect s hInv)
          (goodObj_alloc _ size (cdCollect s).1.current_step)
      | false =>
        rw [cdAllocate_oom s size h1 h2 h3]
        exact edgesNodup_cdCollect s hInv

theorem edgesNodup_msAddReference (s : GCState) (a b : Nat)
    (hInv : EdgesNodup s.heap) :
    EdgesNodup ((msAddReference s a b).1).heap := by
  simp only [msAddReference]
  split_ifs with g1 g2 g3
  all_goals try exact hInv
  exact edgesNodup_hmodify _ b _ (fun o hg => ⟨hg.1, insertRef_nodup a _ hg.2⟩)
    (edgesNodup_hmodify _ a _ (fun o hg => ⟨insertRef_nodup b _ hg.1, hg.2⟩)
      hInv)

theorem edgesNodup_msRemoveReference (s : GCState) (a b : Nat)
    (hInv : EdgesNodup s.heap) :
    EdgesNodup ((msRemoveReference s a b).1).heap := by
  simp only [msRemoveReference]
  split_ifs with g1 g2 g3
  all_goals try exact hInv
  exact edgesNodup_hmodify _ b _ (fun o hg => ⟨hg.1, eraseRef_nodup a _ hg.2⟩)
    (edgesNodup_hmodify _ a _ (fun o hg => ⟨eraseRef_nodup b _ hg.1, hg.2⟩)
      hInv)

theorem edgesNodup_cdRemoveReference (s : GCState) (a b : Nat)
    (hInv : EdgesNodup s.heap) :
    EdgesNodup ((cdRemoveReference s a b).1).heap := by
  simp only [cdRemoveReference]
  split_ifs with g1 g2 g3 g4
  all_goals try exact hInv
  · apply edgesNodup_cascade_delete
    exact edgesNodup_hmodify _ b _
      (fun o hg => ⟨hg.1, eraseRef_nodup a _ hg.2⟩)
      (edgesNodup_hmodify _ a _
        (fun o hg => ⟨eraseRef_nodup b _ hg.1, hg.2⟩) hInv)
  · exact edgesNodup_hmodify _ b _
      (fun o hg => ⟨hg.1, eraseRef_nodup a _ hg.2⟩)
      (edgesNodup_hmodify _ a _
        (fun o hg => ⟨eraseRef_nodup b _ hg.1, hg.2⟩) hInv)

theorem edgesNodup_msMakeRoot (s : GCState) (i : Nat)
    (hInv : EdgesNodup s.heap) : EdgesNodup (msMakeRoot s i).heap := by
  unfold msMakeRoot
  split_ifs with g
  · exact edgesNodup_hmodify _ i _ (fun o hg => hg) hInv
  · exact hInv

theorem edgesNodup_msRemoveRoot (s : GCState) (i : Nat)
    (hInv : EdgesNodup s.heap) : EdgesNodup (msRemoveRoot s i).heap := by
  unfold msRemoveRoot
  split_ifs with g
  · exact edgesNodup_hmodify _ i _ (fun o hg => hg) hInv
  · exact hInv

theorem edgesNodup_msStep (s : GCState) (op : GCOp)
    (hInv : EdgesNodup s.heap) : EdgesNodup (msStep s op).heap := by
  cases op with
  | alloc size => exact edgesNodup_msAllocate s size hInv
  | addRef a b => exact edgesNodup_msAddReference s a b hInv
  | remRef a b => exact edgesNodup_msRemoveReference s a b hInv
  | mkRoot i => exact edgesNodup_msMakeRoot s i hInv
  | rmRoot i => exact edgesNodup_msRemoveRoot s i hInv
  | gc => exact edgesNodup_msCollect s hInv
  | setStep n => exact hInv

theorem edgesNodup_cdStep (s : GCState) (op : GCOp)
    (hInv : EdgesNodup s.heap) : EdgesNodup (cdStep s op).heap := by
  cases op with
  | alloc size => exact edgesNodup_cdAllocate s size hInv
  | addRef a b => exact edgesNodup_msAddReference s a b hInv
  | remRef a b => exact edgesNodup_cdRemoveReference s a b hInv
  | mkRoot i => exact edgesNodup_msMakeRoot s i hInv
  | rmRoot i => exact edgesNodup_msRemoveRoot s i hInv
  | gc => exact edgesNodup_cdCollect s hInv
  | setStep n => exact hInv

theorem edgesNodup_msRun (m t : Nat) (ops : List GCOp) :
    EdgesNodup (msRun (GCState.mkInit m t) ops).heap := by
  suffices hgen : ∀ (ops : List GCOp) (s : GCState), EdgesNodup s.heap →
      EdgesNodup (msRun s ops).heap from
    hgen ops _ (fun p hp => by simp [GCState.mkInit] at hp)
  intro ops
  induction ops with
  | nil => exact fun s h => h
  | cons op rest ih =>
    exact fun s h => ih (msStep s op) (edgesNodup_msStep s op h)

theorem edgesNodup_cdRun (m t : Nat) (ops : List GCOp) :
    EdgesNodup (cdRun (GCState.mkInit m t) ops).heap := by
  suffices hgen : ∀ (ops : List GCOp) (s : GCState), EdgesNodup s.heap →
      EdgesNodup (cdRun s ops).heap from
    hgen ops _ (fun p hp => by simp [GCState.mkInit] at hp)
  intro ops
  induction ops with
  | nil => exact fun s h => h
  | cons op rest ih =>
    exact fun s h => ih (cdStep s op) (edgesNodup_cdStep s op h)

theorem hfind_mem (h : Heap) (i : Nat) (o : HeapObject)
    (hfo : hfind h i = some o) : (i, o) ∈ h := by
  induction h with
  | nil => simp [hfind] at hfo
  | cons p t ih =>
    obtain ⟨k, o'⟩ := p
    by_cases hk : k = i
    · subst hk
      simp [hfind] at hfo
      subst hfo
      exact List.mem_cons_self _ _
    · simp only [hfind, if_neg hk] at hfo
      exact List.mem_cons_of_mem _ (ih hfo)

theorem aliveB_hfind (h : Heap) (x : Nat) (hx : aliveB h x = true) :
    ∃ o, hfind h x = some o ∧ o.is_alive = true := by
  unfold aliveB at hx
  cases hf : hfind h x with
  | none =>
    rw [hf] at hx
    simp at hx
  | some o =>
    rw [hf] at hx
    exact ⟨o, rfl, hx⟩

/-- The two C9 forms from the heap invariants: bilateral symmetry on alive
pairs and the counting identity on alive objects. -/
theorem edgeSym_forms (h : Heap) (hnd : (hkeys h).Nodup)
    (hEA : EdgesAlive h) (hES : EdgesSym h) (hEN : EdgesNodup h) :
    (∀ a b : Nat, aliveB h a = true → aliveB h b = true →
      (b ∈ outL h a ↔ a ∈ inL h b)) ∧
    (∀ o : Nat, aliveB h o = true →
      (inL h o).length = ((hkeys h).filter
        (fun x => aliveB h x && decide (o ∈ outL h x))).length) := by
  have hmem : ∀ x : Nat, aliveB h x = true → x ∈ hkeys h := by
    intro x hx
    obtain ⟨o, ho, _⟩ := aliveB_hfind h x hx
    exact mem_hkeys_of_hfind h x o ho
  constructor
  · intro a b ha hb
    constructor
    · intro hout
      exact ((hES a (hmem a ha) ha).1 b hout)
    · intro hin
      exact ((hES b (hmem b hb) hb).2 a hin)
  · intro o ho
    obtain ⟨obj, hobj, _⟩ := aliveB_hfind h o ho
    have hn1 : (inL h o).Nodup := by
      have : inL h o = obj.incoming_references := by
        unfold inL
        rw [hobj]
      rw [this]
      exact (hEN (o, obj) (hfind_mem h o obj hobj)).2
    have hn2 : ((hkeys h).filter
        (fun x => aliveB h x && decide (o ∈ outL h x))).Nodup :=
      hnd.filter _
    have hiff : ∀ x : Nat, x ∈ inL h o ↔ x ∈ (hkeys h).filter
        (fun x => aliveB h x && decide (o ∈ outL h x)) := by
      intro x
      constructor
      · intro hx
        have hax : aliveB h x = true := (hEA o (hmem o ho) ho).2 x hx
        have hox : o ∈ outL h x := (hES o (hmem o ho) ho).2 x hx
        rw [List.mem_filter]
        exact ⟨hmem x hax, by simp [hax, hox]⟩
      · intro hx
        rw [List.mem_filter] at hx
        obtain ⟨hxk, hcond⟩ := hx
        simp only [Bool.and_eq_true, decide_eq_true_eq] at hcond
        exact (hES x hxk hcond.1).1 o hcond.2
    exact ((List.perm_ext_iff_of_nodup hn1 hn2).2 hiff).length_eq

/-- C9. In both graph collectors, at the state after any driver scenario
(hence after every public operation), alive objects satisfy bilateral edge
symmetry — b is in a.outgoing iff a is in b.incoming — and every alive
object's incoming set has exactly as many entries as there are alive
objects whose outgoing set contains it. -/
theorem C9_edge_symmetry (m t : Nat) (ops : List GCOp) : ∀ s : GCState,
    s = msRun (GCState.mkInit m t) ops ∨ s = cdRun (GCState.mkInit m t) ops →
    (∀ a b : Nat, aliveB s.heap a = true → aliveB s.heap b = true →
      (b ∈ outL s.heap a ↔ a ∈ inL s.heap b)) ∧
    (∀ o : Nat, aliveB s.heap o = true →
      (inL s.heap o).length = ((hkeys s.heap).filter
        (fun x => aliveB s.heap x && decide (o ∈ outL s.heap x))).length) := by
  intro s hs
  rcases hs with rfl | rfl
  · obtain ⟨hnd, hEA, hES, _, _⟩ := gcInv_msRun m t ops
    exact edgeSym_forms _ hnd hEA hES (edgesNodup_msRun m t ops)
  · obtain ⟨hnd, hEA, hES, _, _⟩ := gcInv_cdRun m t ops
    exact edgeSym_forms _ hnd hEA hES (edgesNodup_cdRun m t ops)

/-- C9 witness: after the concrete scenario on the Cascade collector, the
surviving cycle edge 1→2 is mirrored: 2 is in 1's outgoing set iff 1 is in
2's incoming set. -/
theorem C9_edge_symmetry_witness :
    (2 ∈ outL (cdRun (GCState.mkInit 1024 819) scenarioC1).heap 1 ↔
      1 ∈ inL (cdRun (GCState.mkInit 1024 819) scenarioC1).heap 2) :=
  (C9_edge_symmetry 1024 819 scenarioC1
    (cdRun (GCState.mkInit 1024 819) scenarioC1) (Or.inr rfl)).1 1 2
    (by simp +decide [cdRun, cdStep, cdAllocate, cdAddReference,
      msAddReference, cdMakeRoot, msMakeRoot, cdRemoveRoot, msRemoveRoot,
      cascadeEach, cascade_delete, cascadeLoop, cascadeDetachOutgoing,
      sweepDetachIncoming, collectOrphans, scenarioC1, GCState.mkInit,
      has_enough_memory, get_free_memory, get_total_memory, hinsert, hmodify,
      hfind, aliveB, outL, inL, should_be_deleted, HeapObject.mk3,
      HeapObject.add_reference_to, HeapObject.add_reference_from,
      HeapObject.remove_reference_from, HeapObject.remove_reference_to,
      insertRef, eraseRef, kill, setMark])
    (by simp +decide [cdRun, cdStep, cdAllocate, cdAddReference,
      msAddReference, cdMakeRoot, msMakeRoot, cdRemoveRoot, msRemoveRoot,
      cascadeEach, cascade_delete, cascadeLoop, cascadeDetachOutgoing,
      sweepDetachIncoming, collectOrphans, scenarioC1, GCState.mkInit,
      has_enough_memory, get_free_memory, get_total_memory, hinsert, hmodify,
      hfind, aliveB, outL, inL, should_be_deleted, HeapObject.mk3,
      HeapObject.add_reference_to, HeapObject.add_reference_from,
      HeapObject.remove_reference_from, HeapObject.remove_reference_to,
      insertRef, eraseRef, kill, setMark])

theorem cstepAt_hmodify_keepCstep (h : Heap) (i : Nat)
    (f : HeapObject → HeapObject)
    (hf : ∀ o : HeapObject, (f o).collection_step = o.collection_step)
    (j : Nat) : cstepAt (hmodify h i f) j = cstepAt h j := by
  by_cases hij : i = j
  · subst hij
    cases hfo : hfind h i with
    | none => rw [hmodify_not_found h i f hfo]
    | some o =>
      unfold cstepAt
      rw [hfind_hmodify_self h i o f hfo, hfo]
      exact hf o
  · unfold cstepAt
    rw [hfind_hmodify_ne h i j f hij]

theorem msAddReference_keeps (s : GCState) (a b x : Nat) :
    aliveB ((msAddReference s a b).1).heap x = aliveB s.heap x ∧
    cstepAt ((msAddReference s a b).1).heap x = cstepAt s.heap x := by
  unfold msAddReference
  split_ifs with g1 g2 g3
  all_goals try exact ⟨rfl, rfl⟩
  constructor
  · show aliveB (hmodify (hmodify s.heap a fun o => o.add_reference_to b) b
      fun o => o.add_reference_from a) x = aliveB s.heap x
    rw [aliveB_hmodify_keepAlive _ b (fun o => o.add_reference_from a)
        (fun o => rfl) x,
      aliveB_hmodify_keepAlive _ a (fun o => o.add_reference_to b)
        (fun o => rfl) x]
  · show cstepAt (hmodify (hmodify s.heap a fun o => o.add_reference_to b) b
      fun o => o.add_reference_from a) x = cstepAt s.heap x
    rw [cstepAt_hmodify_keepCstep _ b (fun o => o.add_reference_from a)
        (fun o => rfl) x,
      cstepAt_hmodify_keepCstep _ a (fun o => o.add_reference_to b)
        (fun o => rfl) x]

theorem msRemoveReference_keeps (s : GCState) (a b x : Nat) :
    aliveB ((msRemoveReference s a b).1).heap x = aliveB s.heap x ∧
    cstepAt ((msRemoveReference s a b).1).heap x = cstepAt s.heap x := by
  unfold msRemoveReference
  split_ifs with g1 g2 g3
  all_goals try exact ⟨rfl, rfl⟩
  constructor
  · show aliveB (hmodify (hmodify s.heap a fun o => o.remove_reference_to b) b
      fun o => o.remove_reference_from a) x = aliveB s.heap x
    rw [aliveB_hmodify_keepAlive _ b (fun o => o.remove_reference_from a)
        (fun o => rfl) x,
      aliveB_hmodify_keepAlive _ a (fun o => o.remove_reference_to b)
        (fun o => rfl) x]
  · show cstepAt (hmodify (hmodify s.heap a fun o => o.remove_reference_to b) b
      fun o => o.remove_reference_from a) x = cstepAt s.heap x
    rw [cstepAt_hmodify_keepCstep _ b (fun o => o.remove_reference_from a)
        (fun o => rfl) x,
      cstepAt_hmodify_keepCstep _ a (fun o => o.remove_reference_to b)
        (fun o => rfl) x]

theorem msMakeRoot_keeps (s : GCState) (i x : Nat) :
    aliveB (msMakeRoot s i).heap x = aliveB s.heap x ∧
    cstepAt (msMakeRoot s i).heap x = cstepAt s.heap x := by
  unfold msMakeRoot
  split_ifs with g
  · constructor
    · show aliveB (hmodify s.heap i fun o => { o with is_root := true }) x =
        aliveB s.heap x
      rw [aliveB_hmodify_keepAlive _ i
        (fun o => { o with is_root := true }) (fun o => rfl) x]
    · show cstepAt (hmodify s.heap i fun o => { o with is_root := true }) x =
        cstepAt s.heap x
      rw [cstepAt_hmodify_keepCstep _ i
        (fun o => { o with is_root := true }) (fun o => rfl) x]
  · exact ⟨rfl, rfl⟩

theorem msRemoveRoot_keeps (s : GCState) (i x : Nat) :
    aliveB (msRemoveRoot s i).heap x = aliveB s.heap x ∧
    cstepAt (msRemoveRoot s i).heap x = cstepAt s.heap x := by
  unfold msRemoveRoot
  split_ifs with g
  · constructor
    · show aliveB (hmodify s.heap i fun o => { o with is_root := false }) x =
        aliveB s.heap x
      rw [aliveB_hmodify_keepAlive _ i
        (fun o => { o with is_root := false }) (fun o => rfl) x]
    · show cstepAt (hmodify s.heap i fun o => { o with is_root := false }) x =
        cstepAt s.heap x
      rw [cstepAt_hmodify_keepCstep _ i
        (fun o => { o with is_root := false }) (fun o => rfl) x]
  · exact ⟨rfl, rfl⟩

theorem msAllocate_stamp (s : GCState) (size : Nat) (hInv : GCInv s) (x : Nat)
    (ha : aliveB s.heap x = true)
    (hd : aliveB ((msAllocate s size).1).heap x = false) :
    cstepAt ((msAllocate s size).1).heap x = s.current_step := by
  obtain ⟨hnd, hEA, hES, hRA, hKB⟩ := hInv
  obtain ⟨fEA, fES, fRA, fk, fal, frt, fcs⟩ := msCollect_facts s hnd hEA hES hRA
  by_cases h1 : size = 0 ∨ s.max_heap_size < size
  · rw [msAllocate_invalid s size h1] at hd
    rw [ha] at hd
    simp at hd
  · cases h2 : has_enough_memory s size with
    | true =>
      exfalso
      rw [msAllocate_fast s size h1 h2] at hd
      have hfr : hfind s.heap s.next_object_id = none :=
        hfind_of_keysBelow _ _ hKB
      unfold aliveB at hd ha
      rw [hfind_hinsert_fresh s.heap s.next_object_id _ hfr x] at hd
      by_cases hx : x = s.next_object_id
      · rw [hx, hfr] at ha
        simp at ha
      · rw [if_neg hx] at hd
        rw [ha] at hd
        simp at hd
    | false =>
      have hInvC : GCInv (msCollect s).1 :=
        gcInv_msCollect s ⟨hnd, hEA, hES, hRA, hKB⟩
      cases h3 : has_enough_memory (msCollect s).1 size with
      | true =>
        rw [msAllocate_after_collect s size h1 h2 h3] at hd ⊢
        have hfr : hfind (msCollect s).1.heap
            (msCollect s).1.next_object_id = none :=
          hfind_of_keysBelow _ _ (by
            rw [msCollect_next_id]
            exact hInvC.2.2.2.2)
        by_cases hx : x = (msCollect s).1.next_object_id
        · exfalso
          have hxk : x ∈ hkeys (msCollect s).1.heap := by
            rw [fk]
            exact aliveB_mem_hkeys s.heap x ha
          obtain ⟨o, ho⟩ := hfind_of_mem_hkeys _ x hxk
          rw [hx, hfr] at ho
          simp at ho
        · have hdc : aliveB (msCollect s).1.heap x = false := by
            unfold aliveB at hd ⊢
            rw [hfind_hinsert_fresh _ _ _ hfr x, if_neg hx] at hd
            exact hd
          have := fcs x ha hdc
          unfold cstepAt at this ⊢
          rw [hfind_hinsert_fresh _ _ _ hfr x, if_neg hx]
          exact this
      | false =>
        rw [msAllocate_oom s size h1 h2 h3] at hd ⊢
        exact fcs x ha hd

theorem msStep_stamp (s : GCState) (op : GCOp) (hInv : GCInv s) (x : Nat)
    (ha : aliveB s.heap x = true)
    (hd : aliveB (msStep s op).heap x = false) :
    cstepAt (msStep s op).heap x = s.current_step := by
  cases op with
  | alloc size => exact msAllocate_stamp s size hInv x ha hd
  | addRef a b =>
    simp only [msStep] at hd ⊢
    obtain ⟨hal, _⟩ := msAddReference_keeps s a b x
    rw [hal, ha] at hd
    simp at hd
  | remRef a b =>
    simp only [msStep] at hd ⊢
    obtain ⟨hal, _⟩ := msRemoveReference_keeps s a b x
    rw [hal, ha] at hd
    simp at hd
  | mkRoot i =>
    simp only [msStep] at hd ⊢
    obtain ⟨hal, _⟩ := msMakeRoot_keeps s i x
    rw [hal, ha] at hd
    simp at hd
  | rmRoot i =>
    simp only [msStep] at hd ⊢
    obtain ⟨hal, _⟩ := msRemoveRoot_keeps s i x
    rw [hal, ha] at hd
    simp at hd
  | gc =>
    simp only [msStep] at hd ⊢
    obtain ⟨hnd, hEA, hES, hRA, hKB⟩ := hInv
    obtain ⟨_, _, _, _, _, _, fcs⟩ := msCollect_facts s hnd hEA hES hRA
    exact fcs x ha hd
  | setStep n =>
    simp only [msStep, setCurrentStep] at hd ⊢
    rw [ha] at hd
    simp at hd

theorem cdCollect_stamp (s : GCState) (hInv : GCInv s) (x : Nat)
    (ha : aliveB s.heap x = true)
    (hd : aliveB ((cdCollect s).1).heap x = false) :
    cstepAt ((cdCollect s).1).heap x = s.current_step := by
  obtain ⟨hnd, hEA, hES, hRA, hKB⟩ := hInv
  rw [cdCollect_heap_eq] at hd ⊢
  obtain ⟨_, _, _, _, _, _, estamp⟩ := cascadeEach_facts s.current_step
    (collectOrphans s.heap) s.heap 0 0 hEA hES hRA
  exact estamp x ha hd

theorem cdCollect_hkeys (s : GCState) (hInv : GCInv s) :
    hkeys ((cdCollect s).1).heap = hkeys s.heap := by
  obtain ⟨hnd, hEA, hES, hRA, hKB⟩ := hInv
  rw [cdCollect_heap_eq]
  exact (cascadeEach_facts s.current_step (collectOrphans s.heap) s.heap 0 0
    hEA hES hRA).2.2.2.1

theorem cdAllocate_stamp (s : GCState) (size : Nat) (hInv : GCInv s) (x : Nat)
    (ha : aliveB s.heap x = true)
    (hd : aliveB ((cdAllocate s size).1).heap x = false) :
    cstepAt ((cdAllocate s size).1).heap x = s.current_step := by
  have hInv' := hInv
  obtain ⟨hnd, hEA, hES, hRA, hKB⟩ := hInv
  by_cases h1 : size = 0 ∨ s.max_heap_size < size
  · rw [cdAllocate_invalid s size h1] at hd
    rw [ha] at hd
    simp at hd
  · cases h2 : has_enough_memory s size with
    | true =>
      exfalso
      rw [cdAllocate_fast s size h1 h2] at hd
      have hfr : hfind s.heap s.next_object_id = none :=
        hfind_of_keysBelow _ _ hKB
      unfold aliveB at hd ha
      rw [hfind_hinsert_fresh s.heap s.next_object_id _ hfr x] at hd
      by_cases hx : x = s.next_object_id
      · rw [hx, hfr] at ha
        simp at ha
      · rw [if_neg hx] at hd
        rw [ha] at hd
        simp at hd
    | false =>
      have hInvC : GCInv (cdCollect s).1 := gcInv_cdCollect s hInv'
      cases h3 : has_enough_memory (cdCollect s).1 size with
      | true =>
        rw [cdAllocate_after_collect s size h1 h2 h3] at hd ⊢
        have hfr : hfind (cdCollect s).1.heap
            (cdCollect s).1.next_object_id = none :=
          hfind_of_keysBelow _ _ (by
            rw [cdCollect_next_id]
            exact hInvC.2.2.2.2)
        by_cases hx : x = (cdCollect s).1.next_object_id
        · exfalso
          have hxk : x ∈ hkeys (cdCollect s).1.heap := by
            rw [cdCollect_hkeys s hInv']
            exact aliveB_mem_hkeys s.heap x ha
          obtain ⟨o, ho⟩ := hfind_of_mem_hkeys _ x hxk
          rw [hx, hfr] at ho
          simp at ho
        · have hdc : aliveB (cdCollect s).1.heap x = false := by
            unfold aliveB at hd ⊢
            rw [hfind_hinsert_fresh _ _ _ hfr x, if_neg hx] at hd
            exact hd
          have := cdCollect_stamp s hInv' x ha hdc
          unfold cstepAt at this ⊢
          rw [hfind_hinsert_fresh _ _ _ hfr x, if_neg hx]
          exact this
      | false =>
        rw [cdAllocate_oom s size h1 h2 h3] at hd ⊢
        exact cdCollect_stamp s hInv' x ha hd

theorem cdRemoveReference_stamp (s : GCState) (a b : Nat) (hInv : GCInv s)
    (x : Nat) (ha : aliveB s.heap x = true)
    (hd : aliveB ((cdRemoveReference s a b).1).heap x = false) :
    cstepAt ((cdRemoveReference s a b).1).heap x = s.current_step := by
  have hInv2 := msRemoveReference_preserves s a b hInv
  simp only [msRemoveReference] at hInv2
  simp only [cdRemoveReference] at hd ⊢
  split_ifs at hd ⊢ with g1 g2 g3 g4
  all_goals try (rw [ha] at hd; simp at hd)
  · -- cascade branch
    rw [if_neg (by simpa using g1), if_neg (by simpa using g2),
      if_neg (by simpa using g3)] at hInv2
    obtain ⟨hnd2, hEA2, hES2, hRA2, hKB2⟩ := hInv2
    have ha2 : aliveB (hmodify (hmodify s.heap a
        (fun o => o.remove_reference_to b)) b
        (fun o => o.remove_reference_from a)) x = true := by
      rw [aliveB_hmodify_keepAlive _ b (fun o => o.remove_reference_from a)
          (fun o => rfl) x,
        aliveB_hmodify_keepAlive _ a (fun o => o.remove_reference_to b)
          (fun o => rfl) x]
      exact ha
    obtain ⟨_, _, _, _, _, _, dstamp⟩ :=
      cascade_delete_facts (hmodify (hmodify s.heap a
        (fun o => o.remove_reference_to b)) b
        (fun o => o.remove_reference_from a)) b s.current_step hEA2 hES2 hRA2
    exact dstamp x ha2 hd
  · -- no cascade: edge removal only, alive unchanged
    exfalso
    rw [aliveB_hmodify_keepAlive _ b (fun o => o.remove_reference_from a)
        (fun o => rfl) x,
      aliveB_hmodify_keepAlive _ a (fun o => o.remove_reference_to b)
        (fun o => rfl) x, ha] at hd
    simp at hd

theorem cdStep_stamp (s : GCState) (op : GCOp) (hInv : GCInv s) (x : Nat)
    (ha : aliveB s.heap x = true)
    (hd : aliveB (cdStep s op).heap x = false) :
    cstepAt (cdStep s op).heap x = s.current_step := by
  cases op with
  | alloc size => exact cdAllocate_stamp s size hInv x ha hd
  | addRef a b =>
    simp only [cdStep, cdAddReference] at hd ⊢
    obtain ⟨hal, _⟩ := msAddReference_keeps s a b x
    rw [hal, ha] at hd
    simp at hd
  | remRef a b => exact cdRemoveReference_stamp s a b hInv x ha hd
  | mkRoot i =>
    simp only [cdStep, cdMakeRoot] at hd ⊢
    obtain ⟨hal, _⟩ := msMakeRoot_keeps s i x
    rw [hal, ha] at hd
    simp at hd
  | rmRoot i =>
    simp only [cdStep, cdRemoveRoot] at hd ⊢
    obtain ⟨hal, _⟩ := msRemoveRoot_keeps s i x
    rw [hal, ha] at hd
    simp at hd
  | gc =>
    simp only [cdStep] at hd ⊢
    exact cdCollect_stamp s hInv x ha hd
  | setStep n =>
    simp only [cdStep, setCurrentStep] at hd ⊢
    rw [ha] at hd
    simp at hd

/-- C4 counterexample: sweep the rootless edge 0→1; both objects die, yet
the dead object 0 still holds 1 in its own outgoing set — the dead
object's own edge sets are not cleared by the sweep. -/
theorem C4_dead_object_keeps_own_outgoing :
    aliveB (msCollect (msRun gcDemo scenarioC4chain)).1.heap 0 = false ∧
    aliveB (msCollect (msRun gcDemo scenarioC4chain)).1.heap 1 = false ∧
    outL (msCollect (msRun gcDemo scenarioC4chain)).1.heap 0 = [1] := by
  refine ⟨?_, ?_, ?_⟩ <;>
  simp +decide [msCollect, msRun, msStep, msAllocate, msAddReference,
    msMakeRoot, msRemoveRoot, mark_phase, unmarkAll, get_root_objects,
    dfsStack, sweep_phase, sweepAll, sweepOne, sweepTargets,
    sweepDetachIncoming, sweepDetachOutgoing, scenarioC4chain, gcDemo,
    GCState.mkInit, has_enough_memory, get_free_memory, get_total_memory,
    hinsert, hmodify, hfind, aliveB, outL, inL, HeapObject.mk3,
    HeapObject.unmark, HeapObject.add_reference_to,
    HeapObject.add_reference_from, HeapObject.remove_reference_from,
    HeapObject.remove_reference_to, insertRef, eraseRef, kill, setMark]

/-- C4 amended. In both graph collectors, at every reachable state no
alive object's outgoing or incoming set mentions a dead or missing id
(every edge of a dead object is removed from all surviving objects), and
whenever the next public operation kills an object, its collection_step
is stamped with the current simulation step. The dead object's own two
edge sets, however, are not cleared (see the counterexample). -/
theorem C4_dead_detach_and_stamp (m t : Nat) (ops : List GCOp) :
    (∀ a : Nat, aliveB (msRun (GCState.mkInit m t) ops).heap a = true →
      (∀ x ∈ outL (msRun (GCState.mkInit m t) ops).heap a,
        aliveB (msRun (GCState.mkInit m t) ops).heap x = true) ∧
      (∀ x ∈ inL (msRun (GCState.mkInit m t) ops).heap a,
        aliveB (msRun (GCState.mkInit m t) ops).heap x = true)) ∧
    (∀ (op : GCOp) (x : Nat),
      aliveB (msRun (GCState.mkInit m t) ops).heap x = true →
      aliveB (msStep (msRun (GCState.mkInit m t) ops) op).heap x = false →
      cstepAt (msStep (msRun (GCState.mkInit m t) ops) op).heap x =
        (msRun (GCState.mkInit m t) ops).current_step) ∧
    (∀ a : Nat, aliveB (cdRun (GCState.mkInit m t) ops).heap a = true →
      (∀ x ∈ outL (cdRun (GCState.mkInit m t) ops).heap a,
        aliveB (cdRun (GCState.mkInit m t) ops).heap x = true) ∧
      (∀ x ∈ inL (cdRun (GCState.mkInit m t) ops).heap a,
        aliveB (cdRun (GCState.mkInit m t) ops).heap x = true)) ∧
    (∀ (op : GCOp) (x : Nat),
      aliveB (cdRun (GCState.mkInit m t) ops).heap x = true →
      aliveB (cdStep (cdRun (GCState.mkInit m t) ops) op).heap x = false →
      cstepAt (cdStep (cdRun (GCState.mkInit m t) ops) op).heap x =
        (cdRun (GCState.mkInit m t) ops).current_step) := by
  refine ⟨?_, ?_, ?_, ?_⟩
  · intro a ha
    exact (gcInv_msRun m t ops).2.1 a
      (aliveB_mem_hkeys _ a ha) ha
  · intro op x hx hd
    exact msStep_stamp (msRun (GCState.mkInit m t) ops) op
      (gcInv_msRun m t ops) x hx hd
  · intro a ha
    exact (gcInv_cdRun m t ops).2.1 a
      (aliveB_mem_hkeys _ a ha) ha
  · intro op x hx hd
    exact cdStep_stamp (cdRun (GCState.mkInit m t) ops) op
      (gcInv_cdRun m t ops) x hx hd

/-- C4 witness: on the rootless edge 0→1, at the pre-collect state 0 is
alive and its outgoing neighbour 1 is alive; running collect kills 0 and
stamps its collection_step with the current step. -/
theorem C4_dead_detach_and_stamp_witness :
    aliveB (msRun (GCState.mkInit 1024 819) scenarioC4chain).heap 1 = true ∧
    cstepAt (msStep (msRun (GCState.mkInit 1024 819) scenarioC4chain)
        GCOp.gc).heap 0 =
      (msRun (GCState.mkInit 1024 819) scenarioC4chain).current_step := by
  have hthm := C4_dead_detach_and_stamp 1024 819 scenarioC4chain
  constructor
  · refine ((hthm.1 0 ?_).1 1 ?_)
    · simp +decide [msRun, msStep, msAllocate, msAddReference,
        scenarioC4chain, GCState.mkInit, has_enough_memory, get_free_memory,
        get_total_memory, hinsert, hmodify, hfind, aliveB, outL, inL,
        HeapObject.mk3, HeapObject.add_reference_to,
        HeapObject.add_reference_from, insertRef]
    · simp +decide [msRun, msStep, msAllocate, msAddReference,
        scenarioC4chain, GCState.mkInit, has_enough_memory, get_free_memory,
        get_total_memory, hinsert, hmodify, hfind, aliveB, outL, inL,
        HeapObject.mk3, HeapObject.add_reference_to,
        HeapObject.add_reference_from, insertRef]
  · refine hthm.2.1 GCOp.gc 0 ?_ ?_
    · simp +decide [msRun, msStep, msAllocate, msAddReference,
        scenarioC4chain, GCState.mkInit, has_enough_memory, get_free_memory,
        get_total_memory, hinsert, hmodify, hfind, aliveB, outL, inL,
        HeapObject.mk3, HeapObject.add_reference_to,
        HeapObject.add_reference_from, insertRef]
    · simp +decide [msCollect, msRun, msStep, msAllocate, msAddReference,
        mark_phase, unmarkAll, get_root_objects, dfsStack, sweep_phase,
        sweepAll, sweepOne, sweepTargets, sweepDetachIncoming,
        sweepDetachOutgoing, scenarioC4chain, GCState.mkInit,
        has_enough_memory, get_free_memory, get_total_memory, hinsert,
        hmodify, hfind, aliveB, outL, inL, HeapObject.mk3, HeapObject.unmark,
        HeapObject.add_reference_to, HeapObject.add_reference_from,
        HeapObject.remove_reference_from, HeapObject.remove_reference_to,
        insertRef, eraseRef, kill, setMark]

theorem rfind_mem (os : RCObjs) (i : Int) (o : RCObject)
    (hfo : rfind os i = some o) : (i, o) ∈ os := by
  induction os with
  | nil => simp [rfind] at hfo
  | cons p t ih =>
    obtain ⟨k, o'⟩ := p
    by_cases hk : k = i
    · subst hk
      simp [rfind] at hfo
      subst hfo
      exact List.mem_cons_self _ _
    · simp only [rfind, if_neg hk] at hfo
      exact List.mem_cons_of_mem _ (ih hfo)

theorem rfind_rmodify_self (os : RCObjs) (i : Int) (o : RCObject)
    (f : RCObject → RCObject) (hfo : rfind os i = some o) :
    rfind (rmodify os i f) i = some (f o) := by
  induction os with
  | nil => simp [rfind] at hfo
  | cons p t ih =>
    obtain ⟨k, o'⟩ := p
    by_cases hk : k = i
    · subst hk
      simp [rfind] at hfo
      subst hfo
      simp [rmodify, rfind]
    · simp only [rfind, if_neg hk] at hfo
      simp only [rmodify, if_neg hk]
      simp only [rfind, if_neg hk]
      exact ih hfo

theorem rfind_rmodify_ne (os : RCObjs) (i j : Int)
    (f : RCObject → RCObject) (hij : i ≠ j) :
    rfind (rmodify os i f) j = rfind os j := by
  induction os with
  | nil => simp [rmodify]
  | cons p t ih =>
    obtain ⟨k, o'⟩ := p
    by_cases hk : k = i
    · subst hk
      simp [rmodify, rfind, hij]
    · simp only [rmodify, if_neg hk]
      by_cases hkj : k = j
      · subst hkj
        simp [rfind]
      · simp only [rfind, if_neg hkj]
        exact ih

theorem rmodify_not_found (os : RCObjs) (i : Int) (f : RCObject → RCObject)
    (hfo : rfind os i = none) : rmodify os i f = os := by
  induction os with
  | nil => rfl
  | cons p t ih =>
    obtain ⟨k, o'⟩ := p
    by_cases hk : k = i
    · subst hk
      simp [rfind] at hfo
    · simp only [rfind, if_neg hk] at hfo
      simp only [rmodify, if_neg hk]
      rw [ih hfo]

theorem rfind_rerase_ne (os : RCObjs) (p j : Int) (hpj : ¬ j = p) :
    rfind (rerase os p) j = rfind os j := by
  induction os with
  | nil => simp [rerase]
  | cons q t ih =>
    obtain ⟨k, o'⟩ := q
    by_cases hk : k = p
    · subst hk
      have e0 : rerase ((k, o') :: t) k = rerase t k := by
        simp [rerase, List.filter_cons]
      rw [e0]
      have hkj : ¬ k = j := fun he => hpj he.symm
      simp only [rfind, if_neg hkj]
      exact ih
    · have e0 : rerase ((k, o') :: t) p = (k, o') :: rerase t p := by
        simp [rerase, List.filter_cons, hk]
      rw [e0]
      by_cases hkj : k = j
      · subst hkj
        simp [rfind]
      · simp only [rfind, if_neg hkj]
        exact ih

theorem rfind_rerase_self (os : RCObjs) (p : Int) :
    rfind (rerase os p) p = none := by
  induction os with
  | nil => simp [rerase, rfind]
  | cons q t ih =>
    obtain ⟨k, o'⟩ := q
    by_cases hk : k = p
    · subst hk
      have e0 : rerase ((k, o') :: t) k = rerase t k := by
        simp [rerase, List.filter_cons]
      rw [e0]
      exact ih
    · have e0 : rerase ((k, o') :: t) p = (k, o') :: rerase t p := by
        simp [rerase, List.filter_cons, hk]
      rw [e0]
      simp only [rfind, if_neg hk]
      exact ih

theorem mem_rkeys_rfind (os : RCObjs) (i : Int) (hi : i ∈ rkeys os) :
    ∃ o, rfind os i = some o := by
  induction os with
  | nil => simp [rkeys] at hi
  | cons q t ih =>
    obtain ⟨k, o'⟩ := q
    by_cases hk : k = i
    · subst hk
      exact ⟨o', by simp [rfind]⟩
    · simp only [rkeys, List.map_cons, List.mem_cons] at hi
      rcases hi with hi | hi
      · exact absurd hi.symm hk
      · simp only [rfind, if_neg hk]
        exact ih hi

theorem rfind_not_mem (os : RCObjs) (i : Int) (hi : i ∉ rkeys os) :
    rfind os i = none := by
  cases hf : rfind os i with
  | none => rfl
  | some o =>
    exfalso
    exact hi (List.mem_map.mpr ⟨(i, o), rfind_mem os i o hf, rfl⟩)

theorem refCountAt_absent (os : RCObjs) (i : Int) (hi : i ∉ rkeys os) :
    refCountAt os i = 0 := by
  unfold refCountAt
  rw [rfind_not_mem os i hi]

theorem mem_rkeys_rerase (os : RCObjs) (p v : Int) :
    v ∈ rkeys (rerase os p) ↔ v ∈ rkeys os ∧ ¬ v = p := by
  constructor
  · intro hv
    obtain ⟨q, hq, hq2⟩ := List.mem_map.mp hv
    have hq' := List.mem_of_mem_filter hq
    have hne := List.of_mem_filter hq
    simp only [decide_eq_true_eq] at hne
    exact ⟨List.mem_map.mpr ⟨q, hq', hq2⟩, by rw [← hq2]; exact hne⟩
  · rintro ⟨hv, hne⟩
    obtain ⟨o, ho⟩ := mem_rkeys_rfind os v hv
    have : rfind (rerase os p) v = some o := by
      rw [rfind_rerase_ne os p v hne]
      exact ho
    exact List.mem_map.mpr ⟨(v, o), rfind_mem _ v o this, rfl⟩

theorem rkeys_rerase_nodup (os : RCObjs) (p : Int)
    (hnd : (rkeys os).Nodup) : (rkeys (rerase os p)).Nodup := by
  have hsub : List.Sublist (rkeys (rerase os p)) (rkeys os) := by
    unfold rerase rkeys
    exact (List.filter_sublist os).map _
  exact hnd.sublist hsub

theorem refsAt_rmodify_keepRefs (os : RCObjs) (i : Int)
    (f : RCObject → RCObject)
    (hf : ∀ o : RCObject, (f o).references = o.references) (j : Int) :
    refsAt (rmodify os i f) j = refsAt os j := by
  by_cases hij : i = j
  · subst hij
    cases hfo : rfind os i with
    | none => rw [rmodify_not_found os i f hfo]
    | some o =>
      unfold refsAt
      rw [rfind_rmodify_self os i o f hfo, hfo]
      exact hf o
  · unfold refsAt
    rw [rfind_rmodify_ne os i j f hij]

theorem unvisitedInM_keepRefs (os : RCObjs) (i : Int)
    (f : RCObject → RCObject)
    (hf : ∀ o : RCObject, (f o).references = o.references)
    (visited : List Int) (j : Int) :
    unvisitedInM (rmodify os i f) visited j = unvisitedInM os visited j := by
  induction os with
  | nil => rfl
  | cons q t ih =>
    obtain ⟨k, o'⟩ := q
    by_cases hk : k = i
    · subst hk
      simp [rmodify, unvisitedInM, hf o']
    · simp only [rmodify, if_neg hk, unvisitedInM, List.map_cons,
        List.sum_cons] at ih ⊢
      omega

theorem unvisitedInM_visit_absent (os : RCObjs) (c : Int)
    (visited : List Int) (j : Int) (hc : c ∉ rkeys os) :
    unvisitedInM os (c :: visited) j = unvisitedInM os visited j := by
  induction os with
  | nil => rfl
  | cons q t ih =>
    obtain ⟨k, o'⟩ := q
    have hkc : ¬ k = c := by
      intro he
      exact hc (by simp [rkeys, he])
    have hct : c ∉ rkeys t := by
      intro hmem
      exact hc (by simp [rkeys] at hmem ⊢; exact Or.inr hmem)
    have hif : (if k ∈ c :: visited then 0 else List.count j
        o'.references) = (if k ∈ visited then 0 else List.count j
        o'.references) := by
      by_cases hv : k ∈ visited
      · rw [if_pos hv, if_pos (List.mem_cons_of_mem c hv)]
      · rw [if_neg hv, if_neg (by simp [hkc, hv])]
    simp only [unvisitedInM, List.map_cons, List.sum_cons] at ih ⊢
    rw [hif]
    have := ih hct
    omega

theorem unvisitedInM_visit (os : RCObjs) (c : Int) (visited : List Int)
    (j : Int) (hnd : (rkeys os).Nodup) (hcv : c ∉ visited)
    (o : RCObject) (hfo : rfind os c = some o) :
    unvisitedInM os (c :: visited) j + o.references.count j =
      unvisitedInM os visited j := by
  induction os with
  | nil => simp [rfind] at hfo
  | cons q t ih =>
    obtain ⟨k, o'⟩ := q
    have hnd' : (rkeys t).Nodup := by
      simp only [rkeys, List.map_cons, List.nodup_cons] at hnd
      exact hnd.2
    by_cases hk : k = c
    · subst hk
      simp [rfind] at hfo
      subst hfo
      have hct : k ∉ rkeys t := by
        simp only [rkeys, List.map_cons, List.nodup_cons] at hnd
        exact hnd.1
      simp only [unvisitedInM, List.map_cons, List.sum_cons]
      rw [if_pos (List.mem_cons_self k visited), if_neg hcv]
      have := unvisitedInM_visit_absent t k visited j hct
      unfold unvisitedInM at this
      omega
    · have hif : (if k ∈ c :: visited then 0 else List.count j
          o'.references) = (if k ∈ visited then 0 else List.count j
          o'.references) := by
        by_cases hv : k ∈ visited
        · rw [if_pos hv, if_pos (List.mem_cons_of_mem c hv)]
        · rw [if_neg hv, if_neg (by simp [hk, hv])]
      simp only [rfind, if_neg hk] at hfo
      simp only [unvisitedInM, List.map_cons, List.sum_cons] at ih ⊢
      rw [hif]
      have := ih hnd' hfo
      omega

theorem unvisitedInM_rerase_visited (os : RCObjs) (p : Int)
    (visited : List Int) (j : Int) (hp : p ∈ visited) :
    unvisitedInM (rerase os p) visited j = unvisitedInM os visited j := by
  induction os with
  | nil => rfl
  | cons q t ih =>
    obtain ⟨k, o'⟩ := q
    by_cases hk : k = p
    · subst hk
      have e0 : rerase ((k, o') :: t) k = rerase t k := by
        simp [rerase, List.filter_cons]
      rw [e0]
      simp only [unvisitedInM, List.map_cons, List.sum_cons]
      rw [if_pos hp]
      simpa [unvisitedInM] using ih
    · have e0 : rerase ((k, o') :: t) p = (k, o') :: rerase t p := by
        simp [rerase, List.filter_cons, hk]
      rw [e0]
      simp only [unvisitedInM, List.map_cons, List.sum_cons] at ih ⊢
      omega

theorem unvisitedInM_all_unvisited (os : RCObjs) (visited : List Int)
    (j : Int) (h : ∀ k ∈ rkeys os, k ∉ visited) :
    unvisitedInM os visited j = unvisitedInM os [] j := by
  induction os with
  | nil => rfl
  | cons q t ih =>
    obtain ⟨k, o'⟩ := q
    have hk : k ∉ visited := h k (by simp [rkeys])
    have ht : ∀ x ∈ rkeys t, x ∉ visited := by
      intro x hx
      exact h x (by simp [rkeys] at hx ⊢; exact Or.inr hx)
    simp only [unvisitedInM, List.map_cons, List.sum_cons]
    rw [if_neg hk, if_neg (List.not_mem_nil k)]
    have := ih ht
    simp only [unvisitedInM] at this
    rw [this]

theorem count_le_unvisitedInM (os : RCObjs) (c : Int) (o : RCObject)
    (visited : List Int) (j : Int) (hfo : rfind os c = some o)
    (hcv : c ∉ visited) :
    o.references.count j ≤ unvisitedInM os visited j := by
  induction os with
  | nil => simp [rfind] at hfo
  | cons q t ih =>
    obtain ⟨k, o'⟩ := q
    by_cases hk : k = c
    · subst hk
      simp [rfind] at hfo
      subst hfo
      simp only [unvisitedInM, List.map_cons, List.sum_cons]
      rw [if_neg hcv]
      omega
    · simp only [rfind, if_neg hk] at hfo
      simp only [unvisitedInM, List.map_cons, List.sum_cons]
      have := ih hfo
      simp only [unvisitedInM] at this
      omega

theorem pendTo_cons (p : Int) (l : List Int) (fs : List (Int × List Int))
    (i : Int) : pendTo ((p, l) :: fs) i = l.count i + pendTo fs i := by
  simp [pendTo]

theorem count_cons_int (i c : Int) (cs : List Int) :
    (c :: cs).count i = cs.count i + (if i = c then 1 else 0) := by
  rw [List.count_cons]
  rcases eq_or_ne i c with h | h
  · simp [h]
  · simp [h, Ne.symm h]

theorem refCountAt_rmodify_ne (os : RCObjs) (i j : Int)
    (f : RCObject → RCObject) (hij : i ≠ j) :
    refCountAt (rmodify os i f) j = refCountAt os j := by
  unfold refCountAt
  rw [rfind_rmodify_ne os i j f hij]

theorem refCountAt_rerase_self (os : RCObjs) (p : Int) :
    refCountAt (rerase os p) p = 0 := by
  unfold refCountAt
  rw [rfind_rerase_self]

theorem refCountAt_rerase_ne (os : RCObjs) (p j : Int) (hpj : ¬ j = p) :
    refCountAt (rerase os p) j = refCountAt os j := by
  unfold refCountAt
  rw [rfind_rerase_ne os p j hpj]

theorem refCountAt_decClamp (os : RCObjs) (c : Int) (o : RCObject)
    (hfo : rfind os c = some o) (hge : 1 ≤ o.ref_count) :
    refCountAt (rmodify os c decClamp) c = o.ref_count - 1 := by
  unfold refCountAt
  rw [rfind_rmodify_self os c o decClamp hfo]
  unfold decClamp
  rw [if_neg (by omega)]

theorem rcMInv_case2 (os : RCObjs) (p : Int) (visited : List Int)
    (fs : List (Int × List Int)) (roots : List Int)
    (hInv : rcMInv os visited ((p, []) :: fs) roots) :
    rcMInv (rerase os p) visited fs roots := by
  obtain ⟨hC, hV, hS1, hS2⟩ := hInv
  have hp : p ∈ visited := hS1 (p, []) (List.mem_cons_self _ _)
  obtain ⟨hv1, hv2, hv3, hv4⟩ := hV p hp
  rw [pendTo_cons] at hv4
  simp only [List.count_nil] at hv4
  refine ⟨?_, ?_, ?_, ?_⟩
  · intro i
    rw [unvisitedInM_rerase_visited os p visited i hp]
    by_cases hip : i = p
    · subst hip
      rw [refCountAt_rerase_self]
      omega
    · rw [refCountAt_rerase_ne os p i hip]
      have hCc := hC i
      rw [pendTo_cons] at hCc
      simp only [List.count_nil] at hCc
      omega
  · intro v hv
    obtain ⟨g1, g2, g3, g4⟩ := hV v hv
    rw [pendTo_cons] at g4
    simp only [List.count_nil] at g4
    refine ⟨?_, ?_, g3, by omega⟩
    · by_cases hvp : v = p
      · subst hvp
        exact refCountAt_rerase_self os v
      · rw [refCountAt_rerase_ne os p v hvp]
        exact g1
    · rw [unvisitedInM_rerase_visited os p visited v hp]
      exact g2
  · intro f hf
    exact hS1 f (List.mem_cons_of_mem _ hf)
  · intro v hv hkey
    obtain ⟨hkey', hvp⟩ := (mem_rkeys_rerase os p v).mp hkey
    have := hS2 v hv hkey'
    simp only [List.map_cons, List.mem_cons] at this
    rcases this with h | h
    · exact absurd h hvp
    · exact h

theorem rcMInv_case6 (os : RCObjs) (p c : Int) (cs : List Int)
    (visited : List Int) (fs : List (Int × List Int)) (roots : List Int)
    (hInv : rcMInv os visited ((p, c :: cs) :: fs) roots) :
    rcMInv os visited ((p, cs) :: fs) roots := by
  obtain ⟨hC, hV, hS1, hS2⟩ := hInv
  refine ⟨?_, ?_, ?_, ?_⟩
  · intro i
    have hCc := hC i
    rw [pendTo_cons, count_cons_int] at hCc
    rw [pendTo_cons]
    by_cases hic : i = c
    · subst hic
      rw [if_pos rfl] at hCc
      omega
    · rw [if_neg hic] at hCc
      omega
  · intro v hv
    obtain ⟨g1, g2, g3, g4⟩ := hV v hv
    rw [pendTo_cons, count_cons_int] at g4
    rw [pendTo_cons]
    refine ⟨g1, g2, g3, by omega⟩
  · intro f hf
    rcases List.mem_cons.mp hf with h | h
    · rw [h]
      exact hS1 (p, c :: cs) (List.mem_cons_self _ _)
    · exact hS1 f (List.mem_cons_of_mem _ h)
  · intro v hv hkey
    have := hS2 v hv hkey
    simpa using this

theorem pend_head_pos (p c : Int) (cs : List Int)
    (fs : List (Int × List Int)) :
    1 ≤ pendTo ((p, c :: cs) :: fs) c := by
  rw [pendTo_cons, count_cons_int, if_pos rfl]
  omega

theorem head_not_visited (os : RCObjs) (p c : Int) (cs : List Int)
    (visited : List Int) (fs : List (Int × List Int)) (roots : List Int)
    (hV : rcVisitedOk os visited ((p, c :: cs) :: fs) roots) :
    c ∉ visited := by
  intro hvc
  have := (hV c hvc).2.2.2
  have hpos := pend_head_pos p c cs fs
  omega

theorem refCount_head_pos (os : RCObjs) (p c : Int) (cs : List Int)
    (visited : List Int) (fs : List (Int × List Int)) (roots : List Int)
    (hC : rcCountOk os visited ((p, c :: cs) :: fs) roots) :
    1 ≤ refCountAt os c := by
  have := hC c
  have hpos := pend_head_pos p c cs fs
  omega

theorem rcMInv_case5 (os : RCObjs) (p c : Int) (cs : List Int)
    (visited : List Int) (fs : List (Int × List Int)) (roots : List Int)
    (hmem : c ∈ rkeys os)
    (hInv : rcMInv os visited ((p, c :: cs) :: fs) roots) :
    rcMInv (rmodify os c decClamp) visited ((p, cs) :: fs) roots := by
  obtain ⟨hC, hV, hS1, hS2⟩ := hInv
  obtain ⟨o, ho⟩ := mem_rkeys_rfind os c hmem
  have hcv : c ∉ visited := head_not_visited os p c cs visited fs roots hV
  have hge1 : 1 ≤ refCountAt os c :=
    refCount_head_pos os p c cs visited fs roots hC
  have hocnt : refCountAt os c = o.ref_count := by
    unfold refCountAt
    rw [ho]
  have hdec : refCountAt (rmodify os c decClamp) c = refCountAt os c - 1 := by
    rw [refCountAt_decClamp os c o ho (by omega), hocnt]
  have uK : ∀ (vis : List Int) (j : Int),
      unvisitedInM (rmodify os c decClamp) vis j = unvisitedInM os vis j :=
    fun vis j => unvisitedInM_keepRefs os c decClamp decClamp_references vis j
  refine ⟨?_, ?_, ?_, ?_⟩
  · intro i
    have hCc := hC i
    rw [pendTo_cons, count_cons_int] at hCc
    rw [pendTo_cons, uK]
    by_cases hic : i = c
    · subst hic
      rw [if_pos rfl] at hCc
      rw [hdec]
      omega
    · rw [if_neg hic] at hCc
      rw [refCountAt_rmodify_ne os c i decClamp (fun he => hic he.symm)]
      omega
  · intro v hv
    obtain ⟨g1, g2, g3, g4⟩ := hV v hv
    have hvc : ¬ v = c := fun he => hcv (he ▸ hv)
    rw [pendTo_cons, count_cons_int, if_neg hvc] at g4
    rw [pendTo_cons]
    refine ⟨?_, ?_, g3, by omega⟩
    · rw [refCountAt_rmodify_ne os c v decClamp (fun he => hvc he.symm)]
      exact g1
    · rw [uK]
      exact g2
  · intro f hf
    rcases List.mem_cons.mp hf with h | h
    · rw [h]
      exact hS1 (p, c :: cs) (List.mem_cons_self _ _)
    · exact hS1 f (List.mem_cons_of_mem _ h)
  · intro v hv hkey
    rw [rkeys_rmodify] at hkey
    have := hS2 v hv hkey
    simpa using this

theorem rcMInv_case4 (os : RCObjs) (p c : Int) (cs : List Int)
    (visited : List Int) (fs : List (Int × List Int)) (roots : List Int)
    (hnd : (rkeys os).Nodup) (hns : NoSelfRefs os)
    (hmem : c ∈ rkeys os) (hvis : c ∉ visited)
    (hzero : refCountAt (rmodify os c decClamp) c = 0)
    (hInv : rcMInv os visited ((p, c :: cs) :: fs) roots) :
    rcMInv (rmodify os c decClamp) (c :: visited)
      ((c, refsAt (rmodify os c decClamp) c) :: (p, cs) :: fs) roots := by
  obtain ⟨hC, hV, hS1, hS2⟩ := hInv
  obtain ⟨o, ho⟩ := mem_rkeys_rfind os c hmem
  have hge1 : 1 ≤ refCountAt os c :=
    refCount_head_pos os p c cs visited fs roots hC
  have hocnt : refCountAt os c = o.ref_count := by
    unfold refCountAt
    rw [ho]
  have hdec : refCountAt (rmodify os c decClamp) c = refCountAt os c - 1 := by
    rw [refCountAt_decClamp os c o ho (by omega), hocnt]
  have hone : refCountAt os c = 1 := by
    rw [hdec] at hzero
    omega
  have hrefs : refsAt (rmodify os c decClamp) c = o.references := by
    rw [refsAt_rmodify_keepRefs os c decClamp decClamp_references c]
    unfold refsAt
    rw [ho]
  have hself : o.references.count c = 0 :=
    List.count_eq_zero.mpr (hns (c, o) (rfind_mem os c o ho))
  have uK : ∀ (vis : List Int) (j : Int),
      unvisitedInM (rmodify os c decClamp) vis j = unvisitedInM os vis j :=
    fun vis j => unvisitedInM_keepRefs os c decClamp decClamp_references vis j
  have uV : ∀ j, unvisitedInM os (c :: visited) j + o.references.count j =
      unvisitedInM os visited j :=
    fun j => unvisitedInM_visit os c visited j hnd hvis o ho
  have hCc := hC c
  rw [pendTo_cons, count_cons_int, if_pos rfl] at hCc
  have hu0 : unvisitedInM os visited c = 0 := by omega
  have hr0 : rootBit roots c = 0 := by omega
  have hcs0 : cs.count c = 0 := by omega
  have hpf0 : pendTo fs c = 0 := by omega
  refine ⟨?_, ?_, ?_, ?_⟩
  · intro i
    rw [uK, pendTo_cons, pendTo_cons, hrefs]
    by_cases hic : i = c
    · subst hic
      have huv := uV i
      rw [hzero]
      omega
    · rw [refCountAt_rmodify_ne os c i decClamp (fun he => hic he.symm)]
      have huv := uV i
      have hCi := hC i
      rw [pendTo_cons, count_cons_int, if_neg hic] at hCi
      omega
  · intro v hv
    rcases List.mem_cons.mp hv with hvc | hvv
    · subst hvc
      refine ⟨hzero, ?_, hr0, ?_⟩
      · rw [uK]
        have huv := uV v
        omega
      · rw [pendTo_cons, pendTo_cons, hrefs]
        omega
    · obtain ⟨g1, g2, g3, g4⟩ := hV v hvv
      have hvc : ¬ v = c := fun he => hvis (he ▸ hvv)
      rw [pendTo_cons, count_cons_int, if_neg hvc] at g4
      have huv := uV v
      refine ⟨?_, ?_, g3, ?_⟩
      · rw [refCountAt_rmodify_ne os c v decClamp (fun he => hvc he.symm)]
        exact g1
      · rw [uK]
        omega
      · rw [pendTo_cons, pendTo_cons, hrefs]
        omega
  · intro f hf
    rcases List.mem_cons.mp hf with h | h
    · rw [h]
      exact List.mem_cons_self c visited
    · rcases List.mem_cons.mp h with h2 | h2
      · rw [h2]
        exact List.mem_cons_of_mem c (hS1 (p, c :: cs) (List.mem_cons_self _ _))
      · exact List.mem_cons_of_mem c (hS1 f (List.mem_cons_of_mem _ h2))
  · intro v hv hkey
    rw [rkeys_rmodify] at hkey
    rcases List.mem_cons.mp hv with hvc | hvv
    · subst hvc
      simp
    · have := hS2 v hvv hkey
      simp only [List.map_cons, List.mem_cons] at this ⊢
      rcases this with h | h
      · exact Or.inr (Or.inl h)
      · exact Or.inr (Or.inr h)

theorem rcMachine_inv (roots : List Int) : ∀ (os : RCObjs)
    (visited : List Int) (fs : List (Int × List Int)),
    (rkeys os).Nodup → NoSelfRefs os → rcMInv os visited fs roots →
    rcMInv (rcMachine os visited fs).1 (rcMachine os visited fs).2 []
      roots ∧
    (rkeys (rcMachine os visited fs).1).Nodup := by
  intro os visited fs
  induction os, visited, fs using rcMachine.induct with
  | case1 os visited =>
    intro hnd hns hInv
    rw [rcMachine]
    exact ⟨hInv, hnd⟩
  | case2 os visited p fs ih =>
    intro hnd hns hInv
    rw [rcMachine]
    exact ih (rkeys_rerase_nodup os p hnd) (noSelfRefs_rerase os p hns)
      (rcMInv_case2 os p visited fs roots hInv)
  | case3 os visited p c cs fs hmem os1 hzero hvis ih =>
    intro hnd hns hInv
    exfalso
    exact head_not_visited os p c cs visited fs roots hInv.2.1 hvis
  | case4 os visited p c cs fs hmem os1 hzero hvis ih =>
    intro hnd hns hInv
    rw [rcMachine]
    simp only [if_pos hmem, hzero, if_pos rfl, if_neg hvis]
    refine ih ?_ ?_ ?_
    · rw [rkeys_rmodify]
      exact hnd
    · exact noSelfRefs_rmodify os c decClamp
        (fun o x hx => by rwa [decClamp_references] at hx) hns
    · exact rcMInv_case4 os p c cs visited fs roots hnd hns hmem hvis
        hzero hInv
  | case5 os visited p c cs fs hmem os1 hzero ih =>
    intro hnd hns hInv
    rw [rcMachine]
    simp only [if_pos hmem, if_neg hzero]
    refine ih ?_ ?_ ?_
    · rw [rkeys_rmodify]
      exact hnd
    · exact noSelfRefs_rmodify os c decClamp
        (fun o x hx => by rwa [decClamp_references] at hx) hns
    · exact rcMInv_case5 os p c cs visited fs roots hmem hInv
  | case6 os visited p c cs fs hmem ih =>
    intro hnd hns hInv
    rw [rcMachine]
    simp only [if_neg hmem]
    exact ih hnd hns (rcMInv_case6 os p c cs visited fs roots hInv)

theorem pendTo_nil (i : Int) : pendTo [] i = 0 := by
  simp [pendTo]

theorem rcCascadeTop_inv (os : RCObjs) (i : Int) (roots : List Int)
    (hnd : (rkeys os).Nodup) (hns : NoSelfRefs os)
    (hq : rcCountOk os [] [] roots) :
    rcCountOk (rcCascadeTop os i) [] [] roots ∧
    (rkeys (rcCascadeTop os i)).Nodup := by
  unfold rcCascadeTop
  split_ifs with h1 h2
  · obtain ⟨o, ho⟩ := mem_rkeys_rfind os i h1
    have hrefs : refsAt os i = o.references := by
      unfold refsAt
      rw [ho]
    have hself : o.references.count i = 0 :=
      List.count_eq_zero.mpr (hns (i, o) (rfind_mem os i o ho))
    have uV : ∀ j, unvisitedInM os [i] j + o.references.count j =
        unvisitedInM os [] j :=
      fun j => unvisitedInM_visit os i [] j hnd (List.not_mem_nil i) o ho
    have hq0 := hq i
    rw [pendTo_nil] at hq0
    rw [h2] at hq0
    have hu0 : unvisitedInM os [] i = 0 := by omega
    have hr0 : rootBit roots i = 0 := by omega
    have hseed : rcMInv os [i] [(i, refsAt os i)] roots := by
      refine ⟨?_, ?_, ?_, ?_⟩
      · intro j
        have huv := uV j
        have hqj := hq j
        rw [pendTo_nil] at hqj
        rw [pendTo_cons, pendTo_nil, hrefs]
        omega
      · intro v hv
        simp only [List.mem_singleton] at hv
        subst hv
        refine ⟨h2, ?_, hr0, ?_⟩
        · have huv := uV v
          omega
        · rw [pendTo_cons, pendTo_nil, hrefs]
          omega
      · intro f hf
        simp only [List.mem_singleton] at hf
        rw [hf]
        exact List.mem_singleton.mpr rfl
      · intro v hv hkey
        simp only [List.mem_singleton] at hv
        subst hv
        simp
    obtain ⟨⟨fC, fV, fS1, fS2⟩, fnd⟩ :=
      rcMachine_inv roots os [i] [(i, refsAt os i)] hnd hns hseed
    refine ⟨?_, fnd⟩
    intro j
    have hfresh : ∀ k ∈ rkeys (rcMachine os [i] [(i, refsAt os i)]).1,
        k ∉ (rcMachine os [i] [(i, refsAt os i)]).2 := by
      intro k hk hkv
      have := fS2 k hkv hk
      simp at this
    have hCj := fC j
    rw [pendTo_nil] at hCj
    rw [unvisitedInM_all_unvisited _ _ j hfresh] at hCj
    rw [pendTo_nil]
    exact hCj
  · exact ⟨hq, hnd⟩
  · exact ⟨hq, hnd⟩

theorem rfind_append_ne (os : RCObjs) (i j : Int) (obj : RCObject)
    (hij : ¬ i = j) : rfind (os ++ [(i, obj)]) j = rfind os j := by
  induction os with
  | nil => simp [rfind, hij]
  | cons q t ih =>
    obtain ⟨k, o'⟩ := q
    by_cases hk : k = j
    · subst hk
      simp [rfind]
    · simp only [List.cons_append, rfind, if_neg hk]
      exact ih

theorem rfind_append_self (os : RCObjs) (i : Int) (obj : RCObject)
    (hno : rfind os i = none) : rfind (os ++ [(i, obj)]) i = some obj := by
  induction os with
  | nil => simp [rfind]
  | cons q t ih =>
    obtain ⟨k, o'⟩ := q
    by_cases hk : k = i
    · subst hk
      simp [rfind] at hno
    · simp only [rfind, if_neg hk] at hno
      simp only [List.cons_append, rfind, if_neg hk]
      exact ih hno

theorem rkeys_append (os : RCObjs) (i : Int) (obj : RCObject) :
    rkeys (os ++ [(i, obj)]) = rkeys os ++ [i] := by
  simp [rkeys]

theorem unvisitedInM_append (os : RCObjs) (k : Int) (obj : RCObject)
    (visited : List Int) (j : Int) :
    unvisitedInM (os ++ [(k, obj)]) visited j =
      unvisitedInM os visited j +
        (if k ∈ visited then 0 else obj.references.count j) := by
  simp [unvisitedInM, List.map_append, List.sum_append]

theorem unvisitedInM_rmodify (os : RCObjs) (k : Int) (o : RCObject)
    (g : RCObject → RCObject) (visited : List Int) (j : Int)
    (ho : rfind os k = some o) (hkv : k ∉ visited) :
    unvisitedInM (rmodify os k g) visited j + o.references.count j =
      unvisitedInM os visited j + (g o).references.count j := by
  induction os with
  | nil => simp [rfind] at ho
  | cons q t ih =>
    obtain ⟨k', o'⟩ := q
    by_cases hk : k' = k
    · subst hk
      simp [rfind] at ho
      subst ho
      rw [show rmodify ((k', o') :: t) k' g = (k', g o') :: t from by
        simp [rmodify]]
      simp only [unvisitedInM, List.map_cons, List.sum_cons]
      rw [if_neg hkv, if_neg hkv]
      omega
    · simp only [rfind, if_neg hk] at ho
      rw [show rmodify ((k', o') :: t) k g = (k', o') :: rmodify t k g from by
        simp [rmodify, hk]]
      simp only [unvisitedInM, List.map_cons, List.sum_cons] at ih ⊢
      have := ih ho
      omega

theorem rootBit_filter_ne (roots : List Int) (i j : Int) (hij : ¬ j = i) :
    rootBit (roots.filter (fun r => r ≠ i)) j = rootBit roots j := by
  unfold rootBit
  by_cases hj : j ∈ roots
  · rw [if_pos hj, if_pos (List.mem_filter.mpr ⟨hj, by simpa using hij⟩)]
  · rw [if_neg hj, if_neg (fun hmem => hj (List.mem_of_mem_filter hmem))]

theorem rootBit_filter_self (roots : List Int) (i : Int) :
    rootBit (roots.filter (fun r => r ≠ i)) i = 0 := by
  unfold rootBit
  rw [if_neg]
  intro hmem
  have := List.of_mem_filter hmem
  simp at this

theorem rootBit_append (roots : List Int) (i j : Int) :
    rootBit (roots ++ [i]) j =
      if j = i then 1 else rootBit roots j := by
  unfold rootBit
  by_cases hj : j = i
  · rw [if_pos hj, if_pos (List.mem_append.mpr (Or.inr (by simp [hj])))]
  · rw [if_neg hj]
    by_cases hjr : j ∈ roots
    · rw [if_pos hjr, if_pos (List.mem_append.mpr (Or.inl hjr))]
    · rw [if_neg hjr, if_neg]
      intro hmem
      rcases List.mem_append.mp hmem with h | h
      · exact hjr h
      · simp at h
        exact hj h

theorem refCountAt_rmodify_keepCount (os : RCObjs) (k : Int)
    (g : RCObject → RCObject)
    (hg : ∀ o : RCObject, (g o).ref_count = o.ref_count) (j : Int) :
    refCountAt (rmodify os k g) j = refCountAt os j := by
  by_cases hkj : k = j
  · subst hkj
    cases ho : rfind os k with
    | none => rw [rmodify_not_found os k g ho]
    | some o =>
      unfold refCountAt
      rw [rfind_rmodify_self os k o g ho, ho]
      exact hg o
  · unfold refCountAt
    rw [rfind_rmodify_ne os k j g hkj]

theorem qok_alloc (os : RCObjs) (roots : List Int) (i : Int)
    (hnd : (rkeys os).Nodup) (hq : rcCountOk os [] [] roots)
    (hmem : i ∉ rkeys os) :
    (rkeys (os ++ [(i, RCObject.mkId i)])).Nodup ∧
    rcCountOk (os ++ [(i, RCObject.mkId i)]) [] [] roots := by
  constructor
  · rw [rkeys_append, List.nodup_append]
    refine ⟨hnd, List.nodup_singleton i, ?_⟩
    intro a ha hb
    simp at hb
    subst hb
    exact hmem ha
  · intro j
    rw [pendTo_nil, unvisitedInM_append]
    have hc0 : (if i ∈ ([] : List Int) then 0 else
        List.count j (RCObject.mkId i).references) = 0 := by
      simp [RCObject.mkId]
    rw [hc0]
    by_cases hij : j = i
    · subst hij
      have h0 : refCountAt os j = 0 := refCountAt_absent os j hmem
      have hqj := hq j
      rw [pendTo_nil, h0] at hqj
      have hnew : refCountAt (os ++ [(j, RCObject.mkId j)]) j = 0 := by
        unfold refCountAt
        rw [rfind_append_self os j _ (rfind_not_mem os j hmem)]
        rfl
      rw [hnew]
      omega
    · have hnew : refCountAt (os ++ [(i, RCObject.mkId i)]) j =
          refCountAt os j := by
        unfold refCountAt
        rw [rfind_append_ne os i j _ (fun he => hij he.symm)]
      rw [hnew]
      have hqj := hq j
      rw [pendTo_nil] at hqj
      omega

theorem qok_addRoot (os : RCObjs) (roots : List Int) (i : Int)
    (o : RCObject) (ho : rfind os i = some o)
    (hq : rcCountOk os [] [] roots) (hir : i ∉ roots) :
    rcCountOk
      (rmodify os i (fun o => { o with ref_count := o.ref_count + 1 }))
      [] [] (roots ++ [i]) := by
  intro j
  rw [pendTo_nil,
    unvisitedInM_keepRefs os i
      (fun o => { o with ref_count := o.ref_count + 1 }) (fun o => rfl) [] j,
    rootBit_append roots i j]
  have hqj := hq j
  rw [pendTo_nil] at hqj
  by_cases hij : j = i
  · subst hij
    rw [if_pos rfl]
    have hnew : refCountAt (rmodify os j
        (fun o => { o with ref_count := o.ref_count + 1 })) j =
        refCountAt os j + 1 := by
      unfold refCountAt
      rw [rfind_rmodify_self os j o _ ho, ho]
    rw [hnew]
    omega
  · rw [if_neg hij,
      refCountAt_rmodify_ne os i j _ (fun he => hij he.symm)]
    exact hqj

theorem qok_decRoot (os : RCObjs) (roots : List Int) (i : Int)
    (o : RCObject) (ho : rfind os i = some o)
    (hq : rcCountOk os [] [] roots) (hir : i ∈ roots) :
    1 ≤ refCountAt os i ∧
    refCountAt (rmodify os i
      (fun o => { o with ref_count := o.ref_count - 1 })) i =
      refCountAt os i - 1 ∧
    rcCountOk (rmodify os i
      (fun o => { o with ref_count := o.ref_count - 1 }))
      [] [] (roots.filter (fun r => r ≠ i)) := by
  have hrb : rootBit roots i = 1 := by
    unfold rootBit
    rw [if_pos hir]
  have hqi := hq i
  rw [pendTo_nil] at hqi
  have hdec : refCountAt (rmodify os i
      (fun o => { o with ref_count := o.ref_count - 1 })) i =
      refCountAt os i - 1 := by
    unfold refCountAt
    rw [rfind_rmodify_self os i o _ ho, ho]
  refine ⟨by omega, hdec, ?_⟩
  intro j
  rw [pendTo_nil, unvisitedInM_keepRefs os i
    (fun o => { o with ref_count := o.ref_count - 1 }) (fun o => rfl) [] j]
  by_cases hij : j = i
  · subst hij
    rw [rootBit_filter_self, hdec]
    omega
  · rw [rootBit_filter_ne roots i j hij,
      refCountAt_rmodify_ne os i j _ (fun he => hij he.symm)]
    have hqj := hq j
    rw [pendTo_nil] at hqj
    exact hqj

theorem qok_addRef (os : RCObjs) (roots : List Int) (f t : Int)
    (of : RCObject) (hof : rfind os f = some of)
    (ot : RCObject) (hot : rfind os t = some ot)
    (hft : ¬ f = t) (hq : rcCountOk os [] [] roots) :
    rcCountOk
      (rmodify (rmodify os f
        (fun o => { o with references := o.references ++ [t] })) t
        (fun o => { o with ref_count := o.ref_count + 1 }))
      [] [] roots := by
  intro j
  have hu1 := unvisitedInM_rmodify os f of
    (fun o => { o with references := o.references ++ [t] }) [] j hof
    (List.not_mem_nil f)
  simp only [List.count_append] at hu1
  have hu2 := unvisitedInM_keepRefs (rmodify os f
    (fun o => { o with references := o.references ++ [t] })) t
    (fun o => { o with ref_count := o.ref_count + 1 }) (fun o => rfl) [] j
  have hqj := hq j
  rw [pendTo_nil] at hqj
  rw [pendTo_nil, hu2]
  by_cases hjt : j = t
  · subst hjt
    have ho1 : rfind (rmodify os f
        (fun o => { o with references := o.references ++ [j] })) j =
        some ot := by
      rw [rfind_rmodify_ne os f j _ hft]
      exact hot
    have hnew : refCountAt (rmodify (rmodify os f
        (fun o => { o with references := o.references ++ [j] })) j
        (fun o => { o with ref_count := o.ref_count + 1 })) j =
        refCountAt os j + 1 := by
      unfold refCountAt
      rw [rfind_rmodify_self _ j ot _ ho1, hot]
    have hct : List.count j [j] = 1 := by simp
    rw [hnew]
    omega
  · have hnew : refCountAt (rmodify (rmodify os f
        (fun o => { o with references := o.references ++ [t] })) t
        (fun o => { o with ref_count := o.ref_count + 1 })) j =
        refCountAt os j := by
      rw [refCountAt_rmodify_ne _ t j _ (fun he => hjt he.symm),
        refCountAt_rmodify_keepCount os f
          (fun o => { o with references := o.references ++ [t] })
          (fun o => rfl) j]
    have hct : List.count j [t] = 0 := by simp [hjt]
    rw [hnew]
    omega

theorem qok_remRef (os : RCObjs) (roots : List Int) (f t : Int)
    (of : RCObject) (hof : rfind os f = some of)
    (htm : t ∈ of.references) (hftne : ¬ f = t)
    (hq : rcCountOk os [] [] roots) :
    1 ≤ refCountAt os t ∧
    refCountAt (rmodify (rmodify os f
      (fun o => { o with references := o.references.erase t })) t
      (fun o => { o with ref_count := o.ref_count - 1 })) t =
      refCountAt os t - 1 ∧
    rcCountOk
      (rmodify (rmodify os f
        (fun o => { o with references := o.references.erase t })) t
        (fun o => { o with ref_count := o.ref_count - 1 }))
      [] [] roots := by
  have hcpos : 1 ≤ List.count t of.references := by
    have hne : List.count t of.references ≠ 0 := by
      intro h0
      rw [List.count_eq_zero] at h0
      exact h0 htm
    omega
  have hule := count_le_unvisitedInM os f of [] t hof (List.not_mem_nil f)
  have hqt := hq t
  rw [pendTo_nil] at hqt
  have hge1 : 1 ≤ refCountAt os t := by omega
  obtain ⟨ot, hot⟩ : ∃ ot, rfind os t = some ot := by
    cases hfi : rfind os t with
    | none =>
      exfalso
      have h0 : refCountAt os t = 0 := by
        unfold refCountAt
        rw [hfi]
      omega
    | some o2 => exact ⟨o2, rfl⟩
  have ho1 : rfind (rmodify os f
      (fun o => { o with references := o.references.erase t })) t =
      some ot := by
    rw [rfind_rmodify_ne os f t _ hftne]
    exact hot
  have hdec : refCountAt (rmodify (rmodify os f
      (fun o => { o with references := o.references.erase t })) t
      (fun o => { o with ref_count := o.ref_count - 1 })) t =
      refCountAt os t - 1 := by
    unfold refCountAt
    rw [rfind_rmodify_self _ t ot _ ho1, hot]
  refine ⟨hge1, hdec, ?_⟩
  intro j
  have hu1 := unvisitedInM_rmodify os f of
    (fun o => { o with references := o.references.erase t }) [] j hof
    (List.not_mem_nil f)
  have hu2 := unvisitedInM_keepRefs (rmodify os f
    (fun o => { o with references := o.references.erase t })) t
    (fun o => { o with ref_count := o.ref_count - 1 }) (fun o => rfl) [] j
  have hqj := hq j
  rw [pendTo_nil] at hqj
  rw [pendTo_nil, hu2]
  by_cases hjt : j = t
  · subst hjt
    rw [List.count_erase_self] at hu1
    rw [hdec]
    omega
  · rw [List.count_erase_of_ne hjt] at hu1
    have hnew : refCountAt (rmodify (rmodify os f
        (fun o => { o with references := o.references.erase t })) t
        (fun o => { o with ref_count := o.ref_count - 1 })) j =
        refCountAt os j := by
      rw [refCountAt_rmodify_ne _ t j _ (fun he => hjt he.symm),
        refCountAt_rmodify_keepCount os f
          (fun o => { o with references := o.references.erase t })
          (fun o => rfl) j]
    rw [hnew]
    omega

theorem rcStep_qok (s : RCHeapState) (op : RCOp)
    (hnd : (rkeys s.objects).Nodup) (hns : NoSelfRefs s.objects)
    (hq : rcCountOk s.objects [] [] s.roots) :
    (rkeys (rcStep s op).objects).Nodup ∧
    rcCountOk (rcStep s op).objects [] [] (rcStep s op).roots := by
  cases op with
  | alloc i =>
    simp only [rcStep, rcAllocate]
    split_ifs with g1 g2
    all_goals try exact ⟨hnd, hq⟩
    exact qok_alloc s.objects s.roots i hnd hq g1
  | addRoot i =>
    simp only [rcStep, rcAddRoot]
    split_ifs with g1 g2
    all_goals try exact ⟨hnd, hq⟩
    have hmem : i ∈ rkeys s.objects := g1
    obtain ⟨o, ho⟩ := mem_rkeys_rfind s.objects i hmem
    refine ⟨?_, qok_addRoot s.objects s.roots i o ho hq g2⟩
    rw [rkeys_rmodify]
    exact hnd
  | rmRoot i =>
    simp only [rcStep, rcRemoveRoot]
    split_ifs with g1 g2 g3 g4
    all_goals try exact ⟨hnd, hq⟩
    · -- clamp branch: unreachable under the invariant
      exfalso
      have hmem : i ∈ rkeys s.objects := g1
      obtain ⟨o, ho⟩ := mem_rkeys_rfind s.objects i hmem
      obtain ⟨hge1, hdec, _⟩ :=
        qok_decRoot s.objects s.roots i o ho hq (g2)
      rw [hdec] at g3
      omega
    · -- cascade branch
      have hmem : i ∈ rkeys s.objects := g1
      obtain ⟨o, ho⟩ := mem_rkeys_rfind s.objects i hmem
      obtain ⟨hge1, hdec, hqk⟩ :=
        qok_decRoot s.objects s.roots i o ho hq (g2)
      have hnd1 : (rkeys (rmodify s.objects i
          (fun o => { o with ref_count := o.ref_count - 1 }))).Nodup := by
        rw [rkeys_rmodify]
        exact hnd
      have hns1 : NoSelfRefs (rmodify s.objects i
          (fun o => { o with ref_count := o.ref_count - 1 })) :=
        refs_unchanged_noSelfRefs _ _ _ (fun o => rfl) hns
      obtain ⟨hcq, hcnd⟩ := rcCascadeTop_inv (rmodify s.objects i
        (fun o => { o with ref_count := o.ref_count - 1 })) i
        (s.roots.filter (fun r => r ≠ i)) hnd1 hns1 hqk
      exact ⟨hcnd, hcq⟩
    · -- plain decrement
      have hmem : i ∈ rkeys s.objects := g1
      obtain ⟨o, ho⟩ := mem_rkeys_rfind s.objects i hmem
      obtain ⟨h1, h2, hqk⟩ :=
        qok_decRoot s.objects s.roots i o ho hq (g2)
      refine ⟨?_, hqk⟩
      rw [rkeys_rmodify]
      exact hnd
  | addRef f t =>
    simp only [rcStep, rcAddRef]
    split_ifs with g1 g2 g3 g4 g5
    all_goals try exact ⟨hnd, hq⟩
    obtain ⟨of, hof⟩ := mem_rkeys_rfind s.objects f (g2)
    obtain ⟨ot, hot⟩ := mem_rkeys_rfind s.objects t (g3)
    refine ⟨?_, qok_addRef s.objects s.roots f t of hof ot hot g4 hq⟩
    rw [rkeys_rmodify, rkeys_rmodify]
    exact hnd
  | remRef f t =>
    simp only [rcStep, rcRemoveRef]
    split_ifs with g1 g2 g3 g4 g5 g6
    all_goals try exact ⟨hnd, hq⟩
    · -- clamp branch: unreachable under the invariant
      exfalso
      obtain ⟨of, hof⟩ := mem_rkeys_rfind s.objects f (g2)
      have htm : t ∈ of.references := by
        have hg := g4
        unfold refsAt at hg
        rw [hof] at hg
        exact hg
      have hftne : ¬ f = t := by
        intro he
        subst he
        exact hns (f, of) (rfind_mem s.objects f of hof) htm
      obtain ⟨hge1, hdec, _⟩ :=
        qok_remRef s.objects s.roots f t of hof htm hftne hq
      rw [hdec] at g5
      omega
    · -- cascade branch
      obtain ⟨of, hof⟩ := mem_rkeys_rfind s.objects f (g2)
      have htm : t ∈ of.references := by
        have hg := g4
        unfold refsAt at hg
        rw [hof] at hg
        exact hg
      have hftne : ¬ f = t := by
        intro he
        subst he
        exact hns (f, of) (rfind_mem s.objects f of hof) htm
      obtain ⟨hge1, hdec, hqk⟩ :=
        qok_remRef s.objects s.roots f t of hof htm hftne hq
      have hnd1 : (rkeys (rmodify (rmodify s.objects f
          (fun o => { o with references := o.references.erase t })) t
          (fun o => { o with ref_count := o.ref_count - 1 }))).Nodup := by
        rw [rkeys_rmodify, rkeys_rmodify]
        exact hnd
      have hns1 : NoSelfRefs (rmodify (rmodify s.objects f
          (fun o => { o with references := o.references.erase t })) t
          (fun o => { o with ref_count := o.ref_count - 1 })) :=
        refs_unchanged_noSelfRefs _ _ _ (fun o => rfl)
          (noSelfRefs_rmodify _ _ _
            (fun o x hx => List.mem_of_mem_erase hx) hns)
      obtain ⟨hcq, hcnd⟩ := rcCascadeTop_inv (rmodify (rmodify s.objects f
          (fun o => { o with references := o.references.erase t })) t
          (fun o => { o with ref_count := o.ref_count - 1 })) t
        s.roots hnd1 hns1 hqk
      exact ⟨hcnd, hcq⟩
    · -- plain decrement
      obtain ⟨of, hof⟩ := mem_rkeys_rfind s.objects f (g2)
      have htm : t ∈ of.references := by
        have hg := g4
        unfold refsAt at hg
        rw [hof] at hg
        exact hg
      have hftne : ¬ f = t := by
        intro he
        subst he
        exact hns (f, of) (rfind_mem s.objects f of hof) htm
      obtain ⟨h1, h2, hqk⟩ :=
        qok_remRef s.objects s.roots f t of hof htm hftne hq
      refine ⟨?_, hqk⟩
      rw [rkeys_rmodify, rkeys_rmodify]
      exact hnd

theorem rcRun_qok (ops : List RCOp) :
    (rkeys (rcRun rcInit ops).objects).Nodup ∧
    NoSelfRefs (rcRun rcInit ops).objects ∧
    rcCountOk (rcRun rcInit ops).objects [] [] (rcRun rcInit ops).roots := by
  suffices hgen : ∀ (ops : List RCOp) (s : RCHeapState),
      (rkeys s.objects).Nodup → NoSelfRefs s.objects →
      rcCountOk s.objects [] [] s.roots →
      (rkeys (rcRun s ops).objects).Nodup ∧
      NoSelfRefs (rcRun s ops).objects ∧
      rcCountOk (rcRun s ops).objects [] [] (rcRun s ops).roots by
    refine hgen ops rcInit ?_ ?_ ?_
    · simp [rcInit, rkeys]
    · intro x hx
      simp [rcInit] at hx
    · intro j
      simp [rcInit, unvisitedInM, rootBit, pendTo, refCountAt, rfind]
  intro ops
  induction ops with
  | nil => exact fun s h1 h2 h3 => ⟨h1, h2, h3⟩
  | cons op rest ih =>
    intro s h1 h2 h3
    obtain ⟨g1, g2⟩ := rcStep_qok s op h1 h2 h3
    exact ih (rcStep s op) g1 (noSelfRefs_rcStep s op h2) g2

theorem rcCountOk_roots_in_store (os : RCObjs) (roots : List Int)
    (hq : rcCountOk os [] [] roots) (x : Int) (hx : x ∈ roots) :
    x ∈ rkeys os := by
  by_contra hmem
  have h0 : refCountAt os x = 0 := refCountAt_absent os x hmem
  have hqx := hq x
  rw [pendTo_nil, h0] at hqx
  have hrb : rootBit roots x = 1 := by
    unfold rootBit
    rw [if_pos hx]
  omega

theorem msCollect_root_alive (s : GCState) (hInv : GCInv s) (x : Nat)
    (hr : rootB s.heap x = true) (ha : aliveB s.heap x = true) :
    aliveB ((msCollect s).1).heap x = true ∧
    rootB ((msCollect s).1).heap x = true := by
  obtain ⟨hnd, hEA, hES, hRA, hKB⟩ := hInv
  obtain ⟨_, _, _, fk, fal, frt, _⟩ := msCollect_facts s hnd hEA hES hRA
  obtain ⟨mk, ma, mr, _, _, _⟩ := mark_phase_keeps s.heap
  have hnd1 : (hkeys (mark_phase s.heap)).Nodup := by rwa [mk]
  have hnot : x ∉ sweepTargets (mark_phase s.heap) := by
    intro hmem
    have hx := ((sweepTargets_mem (mark_phase s.heap) hnd1 x).mp hmem).2.1
    rw [mr x, hr] at hx
    simp at hx
  constructor
  · rw [fal x, if_neg hnot]
    exact ha
  · rw [frt x]
    exact hr

theorem cascadeLoop_root_alive : ∀ (h : Heap) (q processed : List Nat)
    (step : Int) (freed killed : Nat) (x : Nat),
    rootB h x = true → aliveB h x = true →
    aliveB (cascadeLoop h q processed step freed killed).1 x = true ∧
    rootB (cascadeLoop h q processed step freed killed).1 x = true := by
  intro h q processed step freed killed x
  induction h, q, processed, step, freed, killed using cascadeLoop.induct with
  | case1 h pr st fr ki =>
    intro hr ha
    rw [cascadeLoop]
    exact ⟨ha, hr⟩
  | case2 h cur q pr st fr ki hmem ih =>
    intro hr ha
    rw [cascadeLoop]
    simp only [if_pos hmem]
    exact ih hr ha
  | case3 h cur q pr st fr ki hmem hfo ih =>
    intro hr ha
    rw [cascadeLoop]
    rw [if_neg hmem, hfo]
    exact ih hr ha
  | case4 h cur q pr st fr ki hmem o hfo hal hrt ih =>
    intro hr ha
    rw [cascadeLoop]
    rw [if_neg hmem, hfo]
    simp only [dif_pos hal, if_pos hrt]
    exact ih hr ha
  | case5 h cur q pr st fr ki hmem o hfo hal hrt h1 r ih =>
    intro hr ha
    rw [cascadeLoop]
    rw [if_neg hmem, hfo]
    simp only [dif_pos hal, if_neg hrt]
    have hEq2 : hmodify (cascadeDetachOutgoing (sweepDetachIncoming h cur
        o.incoming_references) cur (outL (sweepDetachIncoming h cur
        o.incoming_references) cur) q).1 cur (kill st) =
        (sweepOne st h cur).1 := by
      rw [cascadeDetach_heap_eq]
      exact (sweepOne_heap_eq st h cur o hfo).symm
    have hxcur : ¬ x = cur := by
      intro he
      subst he
      unfold rootB at hr
      rw [hfo] at hr
      exact hrt hr
    have ha2 : aliveB (sweepOne st h cur).1 x = true := by
      rw [aliveB_sweepOne st h cur o hfo x, if_neg hxcur]
      exact ha
    have hr2 : rootB (sweepOne st h cur).1 x = true := by
      rw [rootB_sweepOne st h cur o hfo x]
      exact hr
    have hEq : hmodify r.1 cur (kill st) = (sweepOne st h cur).1 := hEq2
    rw [hEq] at ih
    rw [hEq2]
    exact ih hr2 ha2
  | case6 h cur q pr st fr ki hmem o hfo hal ih =>
    intro hr ha
    rw [cascadeLoop]
    rw [if_neg hmem, hfo]
    simp only [dif_neg hal]
    exact ih hr ha

theorem cascade_delete_root_alive (h : Heap) (i : Nat) (step : Int) (x : Nat)
    (hr : rootB h x = true) (ha : aliveB h x = true) :
    aliveB (cascade_delete h i step).1 x = true ∧
    rootB (cascade_delete h i step).1 x = true := by
  unfold cascade_delete
  split_ifs with g
  · exact cascadeLoop_root_alive h [i] [] step 0 0 x hr ha
  · exact ⟨ha, hr⟩

theorem cascadeEach_root_alive (step : Int) (l : List Nat) :
    ∀ (h : Heap) (freed killed : Nat) (x : Nat),
    rootB h x = true → aliveB h x = true →
    aliveB (cascadeEach step h freed killed l).1 x = true ∧
    rootB (cascadeEach step h freed killed l).1 x = true := by
  induction l with
  | nil =>
    intro h freed killed x hr ha
    rw [cascadeEach]
    exact ⟨ha, hr⟩
  | cons i rest ih =>
    intro h freed killed x hr ha
    by_cases hc : aliveB h i = true
    · rw [cascadeEach, if_pos hc]
      obtain ⟨ha2, hr2⟩ := cascade_delete_root_alive h i step x hr ha
      exact ih _ _ _ x hr2 ha2
    · rw [cascadeEach, if_neg hc]
      exact ih _ _ _ x hr ha

theorem cdCollect_root_alive (s : GCState) (x : Nat)
    (hr : rootB s.heap x = true) (ha : aliveB s.heap x = true) :
    aliveB ((cdCollect s).1).heap x = true ∧
    rootB ((cdCollect s).1).heap x = true := by
  rw [show ((cdCollect s).1).heap =
    (cascadeEach s.current_step s.heap 0 0 (collectOrphans s.heap)).1 from
    rfl]
  exact cascadeEach_root_alive s.current_step (collectOrphans s.heap)
    s.heap 0 0 x hr ha

theorem projs_hinsert_fresh (h : Heap) (k : Nat) (obj : HeapObject)
    (hfr : hfind h k = none) (x : Nat) (hx : ¬ x = k) :
    aliveB (hinsert h k obj) x = aliveB h x ∧
    rootB (hinsert h k obj) x = rootB h x := by
  unfold aliveB rootB
  rw [hfind_hinsert_fresh h k obj hfr x, if_neg hx]
  exact ⟨rfl, rfl⟩

theorem alive_ne_fresh (h : Heap) (k : Nat) (hfr : hfind h k = none)
    (x : Nat) (ha : aliveB h x = true) : ¬ x = k := by
  intro he
  subst he
  unfold aliveB at ha
  rw [hfr] at ha
  simp at ha

theorem msAllocate_root_alive (s : GCState) (size : Nat) (hInv : GCInv s)
    (x : Nat) (hr : rootB s.heap x = true) (ha : aliveB s.heap x = true) :
    aliveB ((msAllocate s size).1).heap x = true := by
  obtain ⟨hnd, hEA, hES, hRA, hKB⟩ := hInv
  by_cases h1 : size = 0 ∨ s.max_heap_size < size
  · rw [msAllocate_invalid s size h1]
    exact ha
  · cases h2 : has_enough_memory s size with
    | true =>
      rw [msAllocate_fast s size h1 h2]
      have hfr : hfind s.heap s.next_object_id = none :=
        hfind_of_keysBelow _ _ hKB
      rw [(projs_hinsert_fresh s.heap s.next_object_id _ hfr x
        (alive_ne_fresh s.heap s.next_object_id hfr x ha)).1]
      exact ha
    | false =>
      have hInvC : GCInv (msCollect s).1 :=
        gcInv_msCollect s ⟨hnd, hEA, hES, hRA, hKB⟩
      obtain ⟨haC, hrC⟩ :=
        msCollect_root_alive s ⟨hnd, hEA, hES, hRA, hKB⟩ x hr ha
      cases h3 : has_enough_memory (msCollect s).1 size with
      | true =>
        rw [msAllocate_after_collect s size h1 h2 h3]
        have hfr : hfind (msCollect s).1.heap
            (msCollect s).1.next_object_id = none :=
          hfind_of_keysBelow _ _ (by
            rw [msCollect_next_id]
            exact hInvC.2.2.2.2)
        rw [(projs_hinsert_fresh (msCollect s).1.heap
          (msCollect s).1.next_object_id _ hfr x
          (alive_ne_fresh _ _ hfr x haC)).1]
        exact haC
      | false =>
        rw [msAllocate_oom s size h1 h2 h3]
        exact haC

theorem cdAllocate_root_alive (s : GCState) (size : Nat) (hInv : GCInv s)
    (x : Nat) (hr : rootB s.heap x = true) (ha : aliveB s.heap x = true) :
    aliveB ((cdAllocate s size).1).heap x = true := by
  obtain ⟨hnd, hEA, hES, hRA, hKB⟩ := hInv
  by_cases h1 : size = 0 ∨ s.max_heap_size < size
  · rw [cdAllocate_invalid s size h1]
    exact ha
  · cases h2 : has_enough_memory s size with
    | true =>
      rw [cdAllocate_fast s size h1 h2]
      have hfr : hfind s.heap s.next_object_id = none :=
        hfind_of_keysBelow _ _ hKB
      rw [(projs_hinsert_fresh s.heap s.next_object_id _ hfr x
        (alive_ne_fresh s.heap s.next_object_id hfr x ha)).1]
      exact ha
    | false =>
      have hInvC : GCInv (cdCollect s).1 :=
        gcInv_cdCollect s ⟨hnd, hEA, hES, hRA, hKB⟩
      obtain ⟨haC, hrC⟩ := cdCollect_root_alive s x hr ha
      cases h3 : has_enough_memory (cdCollect s).1 size with
      | true =>
        rw [cdAllocate_after_collect s size h1 h2 h3]
        have hfr : hfind (cdCollect s).1.heap
            (cdCollect s).1.next_object_id = none :=
          hfind_of_keysBelow _ _ (by
            rw [cdCollect_next_id]
            exact hInvC.2.2.2.2)
        rw [(projs_hinsert_fresh (cdCollect s).1.heap
          (cdCollect s).1.next_object_id _ hfr x
          (alive_ne_fresh _ _ hfr x haC)).1]
        exact haC
      | false =>
        rw [cdAllocate_oom s size h1 h2 h3]
        exact haC

theorem msStep_root_alive (s : GCState) (op : GCOp) (hInv : GCInv s)
    (x : Nat) (hr : rootB s.heap x = true) (ha : aliveB s.heap x = true) :
    aliveB (msStep s op).heap x = true := by
  cases op with
  | alloc size => exact msAllocate_root_alive s size hInv x hr ha
  | addRef a b =>
    simp only [msStep]
    rw [(msAddReference_keeps s a b x).1]
    exact ha
  | remRef a b =>
    simp only [msStep]
    rw [(msRemoveReference_keeps s a b x).1]
    exact ha
  | mkRoot i =>
    simp only [msStep]
    rw [(msMakeRoot_keeps s i x).1]
    exact ha
  | rmRoot i =>
    simp only [msStep]
    rw [(msRemoveRoot_keeps s i x).1]
    exact ha
  | gc =>
    simp only [msStep]
    exact (msCollect_root_alive s hInv x hr ha).1
  | setStep n => exact ha

theorem cdRemoveReference_root_alive (s : GCState) (a b : Nat) (x : Nat)
    (hr : rootB s.heap x = true) (ha : aliveB s.heap x = true) :
    aliveB ((cdRemoveReference s a b).1).heap x = true := by
  simp only [cdRemoveReference]
  split_ifs with g1 g2 g3 g4
  all_goals try exact ha
  · -- cascade branch
    have ha2 : aliveB (hmodify (hmodify s.heap a
        (fun o => o.remove_reference_to b)) b
        (fun o => o.remove_reference_from a)) x = true := by
      rw [aliveB_hmodify_keepAlive _ b (fun o => o.remove_reference_from a)
          (fun o => rfl) x,
        aliveB_hmodify_keepAlive _ a (fun o => o.remove_reference_to b)
          (fun o => rfl) x]
      exact ha
    have hr2 : rootB (hmodify (hmodify s.heap a
        (fun o => o.remove_reference_to b)) b
        (fun o => o.remove_reference_from a)) x = true := by
      rw [rootB_hmodify_keepRoot _ b (fun o => o.remove_reference_from a)
          (fun o => rfl) x,
        rootB_hmodify_keepRoot _ a (fun o => o.remove_reference_to b)
          (fun o => rfl) x]
      exact hr
    exact (cascade_delete_root_alive _ b s.current_step x hr2 ha2).1
  · -- plain removal
    rw [aliveB_hmodify_keepAlive _ b (fun o => o.remove_reference_from a)
        (fun o => rfl) x,
      aliveB_hmodify_keepAlive _ a (fun o => o.remove_reference_to b)
        (fun o => rfl) x]
    exact ha

theorem cdStep_root_alive (s : GCState) (op : GCOp) (hInv : GCInv s)
    (x : Nat) (hr : rootB s.heap x = true) (ha : aliveB s.heap x = true) :
    aliveB (cdStep s op).heap x = true := by
  cases op with
  | alloc size => exact cdAllocate_root_alive s size hInv x hr ha
  | addRef a b =>
    simp only [cdStep, cdAddReference]
    rw [(msAddReference_keeps s a b x).1]
    exact ha
  | remRef a b => exact cdRemoveReference_root_alive s a b x hr ha
  | mkRoot i =>
    simp only [cdStep, cdMakeRoot]
    rw [(msMakeRoot_keeps s i x).1]
    exact ha
  | rmRoot i =>
    simp only [cdStep, cdRemoveRoot]
    rw [(msRemoveRoot_keeps s i x).1]
    exact ha
  | gc =>
    simp only [cdStep]
    exact (cdCollect_root_alive s x hr ha).1
  | setStep n => exact ha

/-- C6. Root immunity in all three collectors. In the Mark-Sweep and
Cascade collectors, at every reachable state a root-flagged object is
alive, and it stays alive across any next public operation (no hypothesis
on its incoming edges). In the RC collector, at every reachable state
every rooted id is still present in the object store — no operation
sequence ever erases an object while its root flag is set. -/
theorem C6_root_immunity (m t : Nat) (ops : List GCOp) (rops : List RCOp) :
    (∀ x : Nat, rootB (msRun (GCState.mkInit m t) ops).heap x = true →
      aliveB (msRun (GCState.mkInit m t) ops).heap x = true) ∧
    (∀ (op : GCOp) (x : Nat),
      rootB (msRun (GCState.mkInit m t) ops).heap x = true →
      aliveB (msRun (GCState.mkInit m t) ops).heap x = true →
      aliveB (msStep (msRun (GCState.mkInit m t) ops) op).heap x = true) ∧
    (∀ x : Nat, rootB (cdRun (GCState.mkInit m t) ops).heap x = true →
      aliveB (cdRun (GCState.mkInit m t) ops).heap x = true) ∧
    (∀ (op : GCOp) (x : Nat),
      rootB (cdRun (GCState.mkInit m t) ops).heap x = true →
      aliveB (cdRun (GCState.mkInit m t) ops).heap x = true →
      aliveB (cdStep (cdRun (GCState.mkInit m t) ops) op).heap x = true) ∧
    (∀ x : Int, x ∈ (rcRun rcInit rops).roots →
      x ∈ rkeys (rcRun rcInit rops).objects) := by
  refine ⟨?_, ?_, ?_, ?_, ?_⟩
  · intro x hr
    exact (gcInv_msRun m t ops).2.2.2.1 x
      (rootB_mem_hkeys _ x hr) hr
  · intro op x hr ha
    exact msStep_root_alive (msRun (GCState.mkInit m t) ops) op
      (gcInv_msRun m t ops) x hr ha
  · intro x hr
    exact (gcInv_cdRun m t ops).2.2.2.1 x
      (rootB_mem_hkeys _ x hr) hr
  · intro op x hr ha
    exact cdStep_root_alive (cdRun (GCState.mkInit m t) ops) op
      (gcInv_cdRun m t ops) x hr ha
  · intro x hx
    obtain ⟨_, _, hq⟩ := rcRun_qok rops
    exact rcCountOk_roots_in_store _ _ hq x hx

/-- C6 witness: a rooted 64-byte object with no incoming edges survives an
explicit Mark-Sweep collect, and a rooted zero-count RC object stays in
the store. -/
theorem C6_root_immunity_witness :
    aliveB (msStep (msRun (GCState.mkInit 1024 819)
      [GCOp.alloc 64, GCOp.mkRoot 0]) GCOp.gc).heap 0 = true ∧
    0 ∈ rkeys (rcRun rcInit [RCOp.alloc 0, RCOp.addRoot 0]).objects := by
  have hthm := C6_root_immunity 1024 819 [GCOp.alloc 64, GCOp.mkRoot 0]
    [RCOp.alloc 0, RCOp.addRoot 0]
  constructor
  · refine hthm.2.1 GCOp.gc 0 ?_ ?_
    · simp +decide [msRun, msStep, msAllocate, msMakeRoot,
        GCState.mkInit, has_enough_memory, get_free_memory,
        get_total_memory, hinsert, hmodify, hfind, aliveB, rootB,
        HeapObject.mk3]
    · simp +decide [msRun, msStep, msAllocate, msMakeRoot,
        GCState.mkInit, has_enough_memory, get_free_memory,
        get_total_memory, hinsert, hmodify, hfind, aliveB, rootB,
        HeapObject.mk3]
  · refine hthm.2.2.2.2 0 ?_
    simp +decide [rcRun, rcStep, rcAllocate, rcAddRoot, rcInit, rkeys,
      rfind, rmodify, RCObject.mkId]

theorem mem_collectOrphans (h : Heap) (hnd : (hkeys h).Nodup) (x : Nat) :
    x ∈ collectOrphans h ↔ should_be_deleted h x = true := by
  unfold collectOrphans should_be_deleted
  rw [mem_filterKeys h _ x hnd]
  constructor
  · rintro ⟨o, ho, hp⟩
    rw [ho]
    simpa using hp
  · intro hp
    cases hfo : hfind h x with
    | none =>
      rw [hfo] at hp
      simp at hp
    | some o =>
      rw [hfo] at hp
      exact ⟨o, rfl, by simpa using hp⟩

/-- C8. Reactive versus batch deletion in the Cascade/Orphan collector:
from any invariant-satisfying state, when removing the edge a→b leaves b
as the single orphan of the resulting graph (the situation every
edge-removal cascade starts from), the reactive remove_reference path and
a batch collect() run on the edge-removed state produce the identical
heap, delete the same number of objects, and the batch pass frees exactly
the bytes of the reactive cascade. -/
theorem C8_reactive_batch_equivalence (s : GCState) (a b : Nat) (h2 : Heap)
    (hInv : GCInv s)
    (g1 : aliveB s.heap a = true) (g2 : aliveB s.heap b = true)
    (g3 : b ∈ outL s.heap a)
    (hh2 : h2 = hmodify (hmodify s.heap a
      (fun o => o.remove_reference_to b)) b
      (fun o => o.remove_reference_from a))
    (horph : collectOrphans h2 = [b]) :
    ((cdRemoveReference s a b).1).heap =
      ((cdCollect { s with heap := h2 }).1).heap ∧
    ((cdRemoveReference s a b).1).total_objects_collected =
      ((cdCollect { s with heap := h2 }).1).total_objects_collected ∧
    (cdCollect { s with heap := h2 }).2 =
      (cascade_delete h2 b s.current_step).2.1 := by
  obtain ⟨hnd, hEA, hES, hRA, hKB⟩ := hInv
  have hnd2 : (hkeys h2).Nodup := by
    rw [hh2, hkeys_hmodify, hkeys_hmodify]
    exact hnd
  have hsbd : should_be_deleted h2 b = true := by
    rw [← mem_collectOrphans h2 hnd2 b, horph]
    exact List.mem_singleton.mpr rfl
  have hab2 : aliveB h2 b = true := by
    rw [hh2]
    rw [aliveB_hmodify_keepAlive _ b (fun o => o.remove_reference_from a)
        (fun o => rfl) b,
      aliveB_hmodify_keepAlive _ a (fun o => o.remove_reference_to b)
        (fun o => rfl) b]
    exact g2
  have hreact : cdRemoveReference s a b =
      ({ s with
          heap := (cascade_delete h2 b s.current_step).1,
          total_objects_collected := s.total_objects_collected +
            (cascade_delete h2 b s.current_step).2.2 }, true) := by
    simp only [cdRemoveReference]
    rw [if_neg (by simpa using g1), if_neg (by simpa using g2),
      if_neg (by simpa using g3), ← hh2, if_pos hsbd]
  have hbatch : cascadeEach s.current_step h2 0 0 (collectOrphans h2) =
      ((cascade_delete h2 b s.current_step).1,
        (cascade_delete h2 b s.current_step).2.1,
        (cascade_delete h2 b s.current_step).2.2) := by
    rw [horph]
    rw [cascadeEach, if_pos hab2]
    rw [cascadeEach]
    simp
  refine ⟨?_, ?_, ?_⟩
  · rw [hreact]
    show (cascade_delete h2 b s.current_step).1 =
      (cascadeEach s.current_step h2 0 0 (collectOrphans h2)).1
    rw [hbatch]
  · rw [hreact]
    show s.total_objects_collected +
        (cascade_delete h2 b s.current_step).2.2 =
      s.total_objects_collected +
        (cascadeEach s.current_step h2 0 0 (collectOrphans h2)).2.2
    rw [hbatch]
  · show (cascadeEach s.current_step h2 0 0 (collectOrphans h2)).2.1 =
      (cascade_delete h2 b s.current_step).2.1
    rw [hbatch]

/-- Witness scenario for the reactive/batch comparison: a rooted source 0
holding the only edge into 1. -/
def scenarioC8 : List GCOp :=
  [GCOp.alloc 64, GCOp.alloc 64, GCOp.mkRoot 0, GCOp.addRef 0 1]

def c8state : GCState := cdRun gcDemo scenarioC8

/-- The heap of the witness scenario after the bilateral removal of the
edge 0→1. -/
def c8h2 : Heap :=
  hmodify (hmodify c8state.heap 0 (fun o => o.remove_reference_to 1)) 1
    (fun o => o.remove_reference_from 0)

/-- C8 witness: removing the edge 0→1 reactively produces the same heap
as a batch collect on the edge-removed state, which frees exactly the
reactive cascade's 64 bytes. -/
theorem C8_reactive_batch_equivalence_witness :
    ((cdRemoveReference c8state 0 1).1).heap =
      ((cdCollect { c8state with heap := c8h2 }).1).heap ∧
    (cdCollect { c8state with heap := c8h2 }).2 =
      (cascade_delete c8h2 1 c8state.current_step).2.1 := by
  have h := C8_reactive_batch_equivalence c8state 0 1 c8h2
    (gcInv_cdRun 1024 819 scenarioC8)
    (by simp +decide [c8state, scenarioC8, gcDemo, cdRun, cdStep,
      cdAllocate, cdAddReference, msAddReference, cdMakeRoot, msMakeRoot,
      GCState.mkInit, has_enough_memory, get_free_memory, get_total_memory,
      hinsert, hmodify, hfind, aliveB, outL, inL, HeapObject.mk3,
      HeapObject.add_reference_to, HeapObject.add_reference_from, insertRef])
    (by simp +decide [c8state, scenarioC8, gcDemo, cdRun, cdStep,
      cdAllocate, cdAddReference, msAddReference, cdMakeRoot, msMakeRoot,
      GCState.mkInit, has_enough_memory, get_free_memory, get_total_memory,
      hinsert, hmodify, hfind, aliveB, outL, inL, HeapObject.mk3,
      HeapObject.add_reference_to, HeapObject.add_reference_from, insertRef])
    (by simp +decide [c8state, scenarioC8, gcDemo, cdRun, cdStep,
      cdAllocate, cdAddReference, msAddReference, cdMakeRoot, msMakeRoot,
      GCState.mkInit, has_enough_memory, get_free_memory, get_total_memory,
      hinsert, hmodify, hfind, aliveB, outL, inL, HeapObject.mk3,
      HeapObject.add_reference_to, HeapObject.add_reference_from, insertRef])
    rfl
    (by simp +decide [c8h2, c8state, scenarioC8, gcDemo, cdRun, cdStep,
      cdAllocate, cdAddReference, msAddReference, cdMakeRoot, msMakeRoot,
      GCState.mkInit, has_enough_memory, get_free_memory, get_total_memory,
      hinsert, hmodify, hfind, aliveB, outL, inL, collectOrphans,
      HeapObject.mk3, HeapObject.add_reference_to,
      HeapObject.add_reference_from,
      HeapObject.remove_reference_to, HeapObject.remove_reference_from,
      insertRef, eraseRef])
  exact ⟨h.1, h.2.2⟩

theorem reaches_of_projEq (h h' : Heap)
    (ha : ∀ x, aliveB h' x = aliveB h x)
    (ho : ∀ x, outL h' x = outL h x) (i x : Nat)
    (hr : Reaches h i x) : Reaches h' i x := by
  induction hr with
  | refl hi =>
    exact Reaches.refl _ (by rw [ha]; exact hi)
  | tail j k hij hk hak ih =>
    exact Reaches.tail _ j k ih (by rw [ho]; exact hk)
      (by rw [ha]; exact hak)

theorem reaches_trans (h : Heap) (i j k : Nat)
    (h1 : Reaches h i j) (h2 : Reaches h j k) : Reaches h i k := by
  induction h2 with
  | refl hx => exact h1
  | tail b c hab hbc hac ih => exact Reaches.tail i b c ih hbc hac

theorem markedB_hmodify_setMark (h : Heap) (i : Nat) (o : HeapObject)
    (hfo : hfind h i = some o) (x : Nat) :
    markedB (hmodify h i setMark) x =
      if x = i then true else markedB h x := by
  by_cases hx : x = i
  · subst hx
    rw [if_pos rfl]
    unfold markedB
    rw [hfind_hmodify_self h x o setMark hfo]
    rfl
  · rw [if_neg hx]
    unfold markedB
    rw [hfind_hmodify_ne h i x setMark (fun he => hx he.symm)]

theorem dfsStack_marked_mono : ∀ (h : Heap) (l : List Nat) (x : Nat),
    markedB h x = true → markedB (dfsStack h l) x = true := by
  intro h l
  induction h, l using dfsStack.induct with
  | case1 h =>
    intro x hx
    rw [dfsStack]
    exact hx
  | case2 h i rest hf ih =>
    intro x hx
    rw [dfsStack, hf]
    exact ih x hx
  | case3 h i rest o hf ha hm ih =>
    intro x hx
    rw [dfsStack, hf]
    simp only [dif_pos ha, if_pos hm]
    exact ih x hx
  | case4 h i rest o hf ha hm ih =>
    intro x hx
    rw [dfsStack, hf]
    simp only [dif_pos ha, if_neg hm]
    refine ih x ?_
    rw [markedB_hmodify_setMark h i o hf x]
    by_cases hxi : x = i
    · rw [if_pos hxi]
    · rw [if_neg hxi]
      exact hx
  | case5 h i rest o hf ha ih =>
    intro x hx
    rw [dfsStack, hf]
    simp only [dif_neg ha]
    exact ih x hx

theorem dfsStack_marked_sound : ∀ (h : Heap) (l : List Nat) (x : Nat),
    markedB (dfsStack h l) x = true →
    markedB h x = true ∨
      ∃ i ∈ l, aliveB h i = true ∧ Reaches h i x := by
  intro h l
  induction h, l using dfsStack.induct with
  | case1 h =>
    intro x hx
    rw [dfsStack] at hx
    exact Or.inl hx
  | case2 h i rest hf ih =>
    intro x hx
    rw [dfsStack, hf] at hx
    rcases ih x hx with hm | ⟨j, hj, haj, hr⟩
    · exact Or.inl hm
    · exact Or.inr ⟨j, List.mem_cons_of_mem _ hj, haj, hr⟩
  | case3 h i rest o hf ha hm ih =>
    intro x hx
    rw [dfsStack, hf] at hx
    simp only [dif_pos ha, if_pos hm] at hx
    rcases ih x hx with hmk | ⟨j, hj, haj, hr⟩
    · exact Or.inl hmk
    · exact Or.inr ⟨j, List.mem_cons_of_mem _ hj, haj, hr⟩
  | case4 h i rest o hf ha hm ih =>
    intro x hx
    rw [dfsStack, hf] at hx
    simp only [dif_pos ha, if_neg hm] at hx
    have hka : ∀ y, aliveB (hmodify h i setMark) y = aliveB h y :=
      fun y => aliveB_hmodify_keepAlive h i setMark (fun o => rfl) y
    have hko : ∀ y, outL (hmodify h i setMark) y = outL h y :=
      fun y => outL_hmodify_keepOut h i setMark (fun o => rfl) y
    have hai : aliveB h i = true := by
      unfold aliveB
      rw [hf]
      exact ha
    have hii : Reaches h i i := Reaches.refl i hai
    rcases ih x hx with hmk | ⟨j, hj, haj, hr⟩
    · rw [markedB_hmodify_setMark h i o hf x] at hmk
      by_cases hxi : x = i
      · subst hxi
        exact Or.inr ⟨x, List.mem_cons_self _ _, hai, hii⟩
      · rw [if_neg hxi] at hmk
        exact Or.inl hmk
    · have haj' : aliveB h j = true := by rw [← hka j]; exact haj
      have hr' : Reaches h j x :=
        reaches_of_projEq (hmodify h i setMark) h
          (fun y => (hka y).symm) (fun y => (hko y).symm) j x hr
      rcases List.mem_append.mp hj with hjo | hjr
      · -- j is an outgoing reference of i
        have hij : Reaches h i j := by
          refine Reaches.tail i i j hii ?_ haj'
          unfold outL
          rw [hf]
          exact hjo
        exact Or.inr ⟨i, List.mem_cons_self _ _, hai,
          reaches_trans h i j x hij hr'⟩
      · exact Or.inr ⟨j, List.mem_cons_of_mem _ hjr, haj', hr'⟩
  | case5 h i rest o hf ha ih =>
    intro x hx
    rw [dfsStack, hf] at hx
    simp only [dif_neg ha] at hx
    rcases ih x hx with hmk | ⟨j, hj, haj, hr⟩
    · exact Or.inl hmk
    · exact Or.inr ⟨j, List.mem_cons_of_mem _ hj, haj, hr⟩

theorem dfsStack_marks_worklist : ∀ (h : Heap) (l : List Nat),
    ∀ i ∈ l, aliveB h i = true → markedB (dfsStack h l) i = true := by
  intro h l
  induction h, l using dfsStack.induct with
  | case1 h =>
    intro i hi
    simp at hi
  | case2 h i rest hf ih =>
    intro j hj haj
    rw [dfsStack, hf]
    rcases List.mem_cons.mp hj with hji | hjr
    · subst hji
      unfold aliveB at haj
      rw [hf] at haj
      simp at haj
    · exact ih j hjr haj
  | case3 h i rest o hf ha hm ih =>
    intro j hj haj
    rw [dfsStack, hf]
    simp only [dif_pos ha, if_pos hm]
    rcases List.mem_cons.mp hj with hji | hjr
    · subst hji
      refine dfsStack_marked_mono h rest j ?_
      unfold markedB
      rw [hf]
      exact hm
    · exact ih j hjr haj
  | case4 h i rest o hf ha hm ih =>
    intro j hj haj
    rw [dfsStack, hf]
    simp only [dif_pos ha, if_neg hm]
    have hmarked : markedB (hmodify h i setMark) i = true := by
      rw [markedB_hmodify_setMark h i o hf i, if_pos rfl]
    have hka : ∀ y, aliveB (hmodify h i setMark) y = aliveB h y :=
      fun y => aliveB_hmodify_keepAlive h i setMark (fun o => rfl) y
    rcases List.mem_cons.mp hj with hji | hjr
    · subst hji
      exact dfsStack_marked_mono _ _ j hmarked
    · refine ih j (List.mem_append.mpr (Or.inr hjr)) ?_
      rw [hka j]
      exact haj
  | case5 h i rest o hf ha ih =>
    intro j hj haj
    rw [dfsStack, hf]
    simp only [dif_neg ha]
    rcases List.mem_cons.mp hj with hji | hjr
    · subst hji
      unfold aliveB at haj
      rw [hf] at haj
      exact absurd haj ha
    · exact ih j hjr haj

theorem dfsStack_closure : ∀ (h : Heap) (l : List Nat),
    (∀ x, markedB h x = true → ∀ y ∈ outL h x, aliveB h y = true →
      markedB h y = true ∨ y ∈ l) →
    ∀ x, markedB (dfsStack h l) x = true → ∀ y ∈ outL h x,
      aliveB h y = true → markedB (dfsStack h l) y = true := by
  intro h l
  induction h, l using dfsStack.induct with
  | case1 h =>
    intro hP x hx y hy hay
    rw [dfsStack] at hx ⊢
    rcases hP x hx y hy hay with hm | hm
    · exact hm
    · simp at hm
  | case2 h i rest hf ih =>
    intro hP x hx y hy hay
    rw [dfsStack, hf] at hx ⊢
    refine ih ?_ x hx y hy hay
    intro x' hx' y' hy' hay'
    rcases hP x' hx' y' hy' hay' with hm | hm
    · exact Or.inl hm
    · rcases List.mem_cons.mp hm with hyi | hyr
      · subst hyi
        unfold aliveB at hay'
        rw [hf] at hay'
        simp at hay'
      · exact Or.inr hyr
  | case3 h i rest o hf ha hm ih =>
    intro hP x hx y hy hay
    rw [dfsStack, hf] at hx ⊢
    simp only [dif_pos ha, if_pos hm] at hx ⊢
    refine ih ?_ x hx y hy hay
    intro x' hx' y' hy' hay'
    rcases hP x' hx' y' hy' hay' with hmk | hmk
    · exact Or.inl hmk
    · rcases List.mem_cons.mp hmk with hyi | hyr
      · subst hyi
        refine Or.inl ?_
        unfold markedB
        rw [hf]
        exact hm
      · exact Or.inr hyr
  | case4 h i rest o hf ha hm ih =>
    intro hP x hx y hy hay
    rw [dfsStack, hf] at hx ⊢
    simp only [dif_pos ha, if_neg hm] at hx ⊢
    have hka : ∀ z, aliveB (hmodify h i setMark) z = aliveB h z :=
      fun z => aliveB_hmodify_keepAlive h i setMark (fun o => rfl) z
    have hko : ∀ z, outL (hmodify h i setMark) z = outL h z :=
      fun z => outL_hmodify_keepOut h i setMark (fun o => rfl) z
    have hP1 : ∀ x', markedB (hmodify h i setMark) x' = true →
        ∀ y' ∈ outL (hmodify h i setMark) x',
        aliveB (hmodify h i setMark) y' = true →
        markedB (hmodify h i setMark) y' = true ∨
          y' ∈ o.outgoing_references ++ rest := by
      intro x' hx' y' hy' hay'
      rw [hko x'] at hy'
      rw [hka y'] at hay'
      rw [markedB_hmodify_setMark h i o hf x'] at hx'
      by_cases hxi : x' = i
      · subst hxi
        refine Or.inr (List.mem_append.mpr (Or.inl ?_))
        unfold outL at hy'
        rw [hf] at hy'
        exact hy'
      · rw [if_neg hxi] at hx'
        rcases hP x' hx' y' hy' hay' with hmk | hmk
        · refine Or.inl ?_
          rw [markedB_hmodify_setMark h i o hf y']
          by_cases hyi : y' = i
          · rw [if_pos hyi]
          · rw [if_neg hyi]
            exact hmk
        · rcases List.mem_cons.mp hmk with hyi | hyr
          · refine Or.inl ?_
            rw [markedB_hmodify_setMark h i o hf y', if_pos hyi]
          · exact Or.inr (List.mem_append.mpr (Or.inr hyr))
    have hconc := ih hP1 x hx y
    rw [hko x] at hconc
    refine hconc hy ?_
    rw [hka y]
    exact hay
  | case5 h i rest o hf ha ih =>
    intro hP x hx y hy hay
    rw [dfsStack, hf] at hx ⊢
    simp only [dif_neg ha] at hx ⊢
    refine ih ?_ x hx y hy hay
    intro x' hx' y' hy' hay'
    rcases hP x' hx' y' hy' hay' with hmk | hmk
    · exact Or.inl hmk
    · rcases List.mem_cons.mp hmk with hyi | hyr
      · subst hyi
        unfold aliveB at hay'
        rw [hf] at hay'
        have hoa : o.is_alive = true := hay'
        exact absurd hoa ha
      · exact Or.inr hyr

theorem dfsStack_complete (h : Heap) (l : List Nat)
    (hm : ∀ x, markedB h x = false) (i x : Nat) (hi : i ∈ l)
    (hai : aliveB h i = true) (hr : Reaches h i x) :
    markedB (dfsStack h l) x = true := by
  have hP : ∀ x, markedB h x = true → ∀ y ∈ outL h x,
      aliveB h y = true → markedB h y = true ∨ y ∈ l := by
    intro x hx
    rw [hm x] at hx
    simp at hx
  induction hr with
  | refl hx => exact dfsStack_marks_worklist h l i hi hx
  | tail j k hij hk hak ih =>
    exact dfsStack_closure h l hP j ih k hk hak

theorem get_root_objects_mem (h : Heap) (hnd : (hkeys h).Nodup) (x : Nat) :
    x ∈ get_root_objects h ↔ rootB h x = true ∧ aliveB h x = true := by
  unfold get_root_objects
  rw [mem_filterKeys h _ x hnd]
  constructor
  · rintro ⟨o, ho, hp⟩
    unfold rootB aliveB
    rw [ho]
    simpa using hp
  · rintro ⟨hr, ha⟩
    cases hfo : hfind h x with
    | none =>
      unfold rootB at hr
      rw [hfo] at hr
      simp at hr
    | some o =>
      unfold rootB at hr
      unfold aliveB at ha
      rw [hfo] at hr ha
      exact ⟨o, rfl, by
        simp [show o.is_root = true from hr, show o.is_alive = true from ha]⟩

theorem mark_phase_marked (h : Heap) (hnd : (hkeys h).Nodup) (x : Nat) :
    markedB (mark_phase h) x = true ↔ RootReachable h x := by
  obtain ⟨uk, ua, ur, uo, ui, uc, um⟩ := unmarkAll_keeps h
  have hndu : (hkeys (unmarkAll h)).Nodup := by rwa [uk]
  unfold mark_phase
  constructor
  · intro hx
    rcases dfsStack_marked_sound (unmarkAll h)
        (get_root_objects (unmarkAll h)) x hx with hmk | ⟨r, hr, har, hre⟩
    · rw [um x] at hmk
      simp at hmk
    · obtain ⟨hrr, hra⟩ := (get_root_objects_mem (unmarkAll h) hndu r).mp hr
      refine ⟨r, ?_, ?_, ?_⟩
      · rw [← ur r]
        exact hrr
      · rw [← ua r]
        exact hra
      · exact reaches_of_projEq (unmarkAll h) h (fun y => (ua y).symm)
          (fun y => (uo y).symm) r x hre
  · rintro ⟨r, hrr, hra, hre⟩
    refine dfsStack_complete (unmarkAll h) (get_root_objects (unmarkAll h))
      um r x ?_ ?_ ?_
    · rw [get_root_objects_mem (unmarkAll h) hndu r, ur r, ua r]
      exact ⟨hrr, hra⟩
    · rw [ua r]
      exact hra
    · exact reaches_of_projEq h (unmarkAll h)
        (fun y => ua y) (fun y => uo y) r x hre

theorem msCollect_deleted_iff (s : GCState) (hInv : GCInv s) (x : Nat) :
    (aliveB s.heap x = true ∧ aliveB ((msCollect s).1).heap x = false) ↔
    (aliveB s.heap x = true ∧ rootB s.heap x = false ∧
      ¬ RootReachable s.heap x) := by
  obtain ⟨hnd, hEA, hES, hRA, hKB⟩ := hInv
  obtain ⟨_, _, _, fk, fal, frt, _⟩ := msCollect_facts s hnd hEA hES hRA
  obtain ⟨mk, ma, mr, mo, mi, mc⟩ := mark_phase_keeps s.heap
  have hnd1 : (hkeys (mark_phase s.heap)).Nodup := by rwa [mk]
  have htgt : ∀ y, y ∈ sweepTargets (mark_phase s.heap) ↔
      (¬ RootReachable s.heap y ∧ rootB s.heap y = false ∧
        aliveB s.heap y = true) := by
    intro y
    rw [sweepTargets_mem (mark_phase s.heap) hnd1 y]
    rw [mr y, ma y]
    constructor
    · rintro ⟨h1, h2, h3⟩
      refine ⟨?_, h2, h3⟩
      intro hre
      have := (mark_phase_marked s.heap hnd y).mpr hre
      rw [this] at h1
      simp at h1
    · rintro ⟨h1, h2, h3⟩
      refine ⟨?_, h2, h3⟩
      cases hmb : markedB (mark_phase s.heap) y with
      | false => rfl
      | true => exact absurd ((mark_phase_marked s.heap hnd y).mp hmb) h1
  constructor
  · rintro ⟨ha, hd⟩
    rw [fal x] at hd
    by_cases hmem : x ∈ sweepTargets (mark_phase s.heap)
    · obtain ⟨h1, h2, h3⟩ := (htgt x).mp hmem
      exact ⟨ha, h2, h1⟩
    · rw [if_neg hmem, ha] at hd
      simp at hd
  · rintro ⟨ha, hr, hnre⟩
    refine ⟨ha, ?_⟩
    rw [fal x, if_pos ((htgt x).mpr ⟨hnre, hr, ha⟩)]

theorem dfsStack_marked_iff (h : Heap) (hm : ∀ x, markedB h x = false)
    (l : List Nat) (x : Nat) :
    markedB (dfsStack h l) x = true ↔
      ∃ i ∈ l, aliveB h i = true ∧ Reaches h i x := by
  constructor
  · intro hx
    rcases dfsStack_marked_sound h l x hx with hmk | he
    · rw [hm x] at hmk
      simp at hmk
    · exact he
  · rintro ⟨i, hi, hai, hre⟩
    exact dfsStack_complete h l hm i x hi hai hre

/-- C2. Mark-Sweep reachability. On any invariant-satisfying state,
collect() kills exactly the alive, non-root objects unreachable from
every alive root along outgoing edges; the depth-first mark result
depends only on the membership of the seed worklist, never on its order;
and on the concrete rootless two-cycle 0→1→0, one collect() frees both
objects (2 bytes). -/
theorem C2_mark_sweep_reachability (s : GCState) (hInv : GCInv s) :
    (∀ x : Nat,
      (aliveB s.heap x = true ∧ aliveB ((msCollect s).1).heap x = false) ↔
      (aliveB s.heap x = true ∧ rootB s.heap x = false ∧
        ¬ RootReachable s.heap x)) ∧
    (∀ (h : Heap) (l1 l2 : List Nat), (∀ y, markedB h y = false) →
      (∀ i, i ∈ l1 ↔ i ∈ l2) →
      ∀ y, markedB (dfsStack h l1) y = markedB (dfsStack h l2) y) ∧
    ((msCollect (msRun gcDemo scenarioC2cycle)).2 = 2 ∧
      aliveB (msCollect (msRun gcDemo scenarioC2cycle)).1.heap 0 = false ∧
      aliveB (msCollect (msRun gcDemo scenarioC2cycle)).1.heap 1 = false) := by
  refine ⟨msCollect_deleted_iff s hInv, ?_, ?_⟩
  · intro h l1 l2 hm hmem y
    cases h2 : markedB (dfsStack h l2) y with
    | true =>
      rw [(dfsStack_marked_iff h hm l1 y).mpr]
      obtain ⟨i, hi, hai, hre⟩ := (dfsStack_marked_iff h hm l2 y).mp h2
      exact ⟨i, (hmem i).mpr hi, hai, hre⟩
    | false =>
      cases h1 : markedB (dfsStack h l1) y with
      | false => rfl
      | true =>
        exfalso
        obtain ⟨i, hi, hai, hre⟩ := (dfsStack_marked_iff h hm l1 y).mp h1
        have := (dfsStack_marked_iff h hm l2 y).mpr
          ⟨i, (hmem i).mp hi, hai, hre⟩
        rw [this] at h2
        simp at h2
  · refine ⟨?_, ?_, ?_⟩ <;>
    simp +decide [msCollect, msRun, msStep, msAllocate, msAddReference,
      msMakeRoot, msRemoveRoot, mark_phase, unmarkAll, get_root_objects,
      dfsStack, sweep_phase, sweepAll, sweepOne, sweepTargets,
      sweepDetachIncoming, sweepDetachOutgoing, scenarioC2cycle, gcDemo,
      GCState.mkInit, has_enough_memory, get_free_memory, get_total_memory,
      hinsert, hmodify, hfind, aliveB, outL, inL, HeapObject.mk3,
      HeapObject.unmark, HeapObject.add_reference_to,
      HeapObject.add_reference_from, HeapObject.remove_reference_from,
      HeapObject.remove_reference_to, insertRef, eraseRef, kill, setMark]

/-- C2 witness: in the concrete two-cycle scenario, object 0 is killed by
collect() and is indeed not reachable from any alive root. -/
theorem C2_mark_sweep_reachability_witness :
    aliveB (msCollect (msRun gcDemo scenarioC2cycle)).1.heap 0 = false ∧
    ¬ RootReachable (msRun gcDemo scenarioC2cycle).heap 0 := by
  have h := C2_mark_sweep_reachability (msRun gcDemo scenarioC2cycle)
    (gcInv_msRun 1024 819 scenarioC2cycle)
  refine ⟨h.2.2.2.1, ?_⟩
  refine (((h.1) 0).mp ⟨?_, h.2.2.2.1⟩).2.2
  simp +decide [msRun, msStep, msAllocate, msAddReference,
    scenarioC2cycle, gcDemo, GCState.mkInit, has_enough_memory,
    get_free_memory, get_total_memory, hinsert, hmodify, hfind, aliveB,
    outL, inL, HeapObject.mk3, HeapObject.add_reference_to,
    HeapObject.add_reference_from, insertRef]
